import Mathlib

set_option autoImplicit false

/-!
# HelFEM: radial quadrature integrals and two-electron tensor reshaping

A shallow embedding of `src/general/utils.cpp` (`product_tei`, `exchange_tei`) and of
`src/atomic/quadrature.cpp` (`radial_integral`, `derivative_integral`,
`twoe_inner_integral`, `twoe_integral`), followed by theorems about them.

Modelling conventions.

* The build is the checked one (`ARMA_NO_DEBUG` not defined): the explicit size checks of
  the code are compiled in, and Armadillo checks the bounds of element access and the
  sizes of element-wise operations.  Every function returns `Except Error _`.
* An `arma::mat` is its list of columns (Armadillo stores a matrix column by column).
* Loops are folds over the index range, in the order of the source.
* The functions are embedded twice.  The first embedding is the idealised one: `size_t`
  and `int` values are natural numbers and integers with unbounded products, and
  arithmetic on `double` is exact: a finite value is a rational number, there is no
  rounding and no overflow, the arguments of the quadrature routines are finite, and a
  division by zero or a negative power of zero gives a value that is not finite
  (`double.nonfin`, standing for `Inf` and `NaN`), as does every operation on such a
  value.  It serves the statements about formulas and index maps.
* The second embedding (section "Machine arithmetic") has the arithmetic of the machine:
  products of `size_t` modulo `2^64` for `exchange_tei`, and IEEE 754 binary64 with
  rounding, overflow, signed zeros, infinities and `NaN` for the quadrature routines.  It
  serves the statements that turn on wrapping, rounding or overflow.
-/

namespace helfem

/-- Exceptions of the code. -/
inductive Error where
  /-- The `std::logic_error` thrown by an explicit check of the code: the text of its
  message and the two numbers the message reports. -/
  | logic_error (what : String) (a b : Nat)
  /-- The exception thrown by a debug check of Armadillo itself. -/
  | arma_error (what : String)
deriving DecidableEq, Repr

instance {ε α : Type} [DecidableEq ε] [DecidableEq α] : DecidableEq (Except ε α) :=
  fun a b =>
    match a, b with
    | .ok x, .ok y => if h : x = y then isTrue (by rw [h]) else isFalse (by simpa using h)
    | .error x, .error y => if h : x = y then isTrue (by rw [h]) else isFalse (by simpa using h)
    | .ok _, .error _ => isFalse (by simp)
    | .error _, .ok _ => isFalse (by simp)

/-- A `double`: a finite value, held exactly, or a value that is not finite
(`+Inf`, `-Inf` or `NaN`). -/
inductive double where
  | fin (q : ℚ)
  | nonfin
deriving DecidableEq

namespace double

instance : Coe ℚ double := ⟨fin⟩

/-- Sum of two doubles. -/
def add : double → double → double
  | fin a, fin b => fin (a + b)
  | _, _ => nonfin

/-- Product of two doubles. -/
def mul : double → double → double
  | fin a, fin b => fin (a * b)
  | _, _ => nonfin

instance : Zero double := ⟨fin 0⟩

instance : One double := ⟨fin 1⟩

instance : Add double := ⟨add⟩

instance : Mul double := ⟨mul⟩

instance : AddCommMonoid double where
  add_assoc a b c := by
    show add (add a b) c = add a (add b c)
    cases a <;> cases b <;> cases c <;> simp [add, add_assoc]
  zero_add a := by
    show add (fin 0) a = a
    cases a <;> simp [add]
  add_zero a := by
    show add a (fin 0) = a
    cases a <;> simp [add]
  add_comm a b := by
    show add a b = add b a
    cases a <;> cases b <;> simp [add, add_comm]
  nsmul := nsmulRec

instance : CommMonoid double where
  mul_assoc a b c := by
    show mul (mul a b) c = mul a (mul b c)
    cases a <;> cases b <;> cases c <;> simp [mul, mul_assoc]
  one_mul a := by
    show mul (fin 1) a = a
    cases a <;> simp [mul]
  mul_one a := by
    show mul a (fin 1) = a
    cases a <;> simp [mul]
  mul_comm a b := by
    show mul a b = mul b a
    cases a <;> cases b <;> simp [mul, mul_comm]
  npow := npowRec

/-- Quotient `a / b` of two finite doubles: not finite when `b` is zero. -/
def div (a b : ℚ) : double :=
  if b = 0 then nonfin else fin (a / b)

/-- Function `std::pow(x, n)` for an integer exponent: `x^0` is `1` for every `x`, and a
negative power of zero is not finite.  A power of a value that is not finite is taken to
be not finite; this is what IEEE arithmetic gives for `n > 0` (for `n < 0` it gives zero
when `x` is infinite). -/
def pow : double → Int → double
  | fin q, n => if q = 0 ∧ n < 0 then nonfin else fin (q ^ n)
  | nonfin, n => if n = 0 then fin 1 else nonfin

/-- Smallest positive normal double, `DBL_MIN = 2^(-1022)`. -/
def DBL_MIN : ℚ := 1 / 2 ^ 1022

/-- Function `std::isnormal`: the value is finite, not zero and not subnormal, that is, its
magnitude is at least `DBL_MIN` and below `2^1024`. -/
def isnormal : double → Bool
  | fin q => decide (DBL_MIN ≤ |q| ∧ |q| < 2 ^ 1024)
  | nonfin => false

end double

/-- An `arma::vec`: the list of its elements; `n_elem` is the length. -/
abbrev Vec (α : Type) := List α

/-- Number of elements of a vector. -/
abbrev Vec.n_elem {α : Type} (v : Vec α) : Nat := v.length

/-- An `arma::mat`: the number of rows and the columns, each of that length. -/
structure Mat (α : Type) where
  n_rows : Nat
  cols : List (List α)
  wf : ∀ c ∈ cols, c.length = n_rows

namespace Mat

variable {α : Type}

/-- Number of columns. -/
def n_cols (M : Mat α) : Nat := M.cols.length

/-- The stored value of cell `(r, c)`, if the cell exists. -/
def at? (M : Mat α) (r c : Nat) : Option α :=
  match M.cols[c]? with
  | some col => col[r]?
  | none => none

/-- Element read `M(r,c)` with Armadillo's bounds check. -/
def get (M : Mat α) (r c : Nat) : Except Error α :=
  match M.at? r c with
  | some v => .ok v
  | none => .error (.arma_error "Mat::operator(): index out of bounds")

/-- Element write `M(r,c) = v` with Armadillo's bounds check. -/
def set (M : Mat α) (r c : Nat) (v : α) : Except Error (Mat α) :=
  if h : r < M.n_rows ∧ c < M.n_cols then
    .ok ⟨M.n_rows, M.cols.set c ((M.cols.get ⟨c, h.2⟩).set r v), by
      intro col hcol
      rcases List.mem_or_eq_of_mem_set hcol with h1 | h1
      · exact M.wf col h1
      · rw [h1, List.length_set]
        exact M.wf _ (List.get_mem _ _ _)⟩
  else .error (.arma_error "Mat::operator(): index out of bounds")

/-- Matrix `arma::mat M(n, m); M.zeros();`. -/
def zeros [Zero α] (n m : Nat) : Mat α :=
  ⟨n, List.replicate m (List.replicate n 0), by
    intro c hc
    rw [List.eq_of_mem_replicate hc, List.length_replicate]⟩

/-- The matrix of shape `n x m` whose cell `(r, c)` holds `f r c`. -/
def ofFn (n m : Nat) (f : Nat → Nat → α) : Mat α :=
  ⟨n, (List.range m).map (fun c => (List.range n).map (fun r => f r c)), by
    intro c hc
    obtain ⟨j, _, rfl⟩ := List.mem_map.mp hc
    simp⟩

/-- The value of cell `(r, c)`; zero outside the matrix. -/
def elem [Zero α] (M : Mat α) (r c : Nat) : α := (M.at? r c).getD 0

/-- Copy of a matrix with `f` applied to every cell (used for the conversion of a matrix
of finite values). -/
def map {β : Type} (f : α → β) (M : Mat α) : Mat β :=
  ⟨M.n_rows, M.cols.map (fun col => col.map f), by
    intro c hc
    obtain ⟨col, hcol, rfl⟩ := List.mem_map.mp hc
    rw [List.length_map]
    exact M.wf col hcol⟩

/-- Column read `M.col(c)` with Armadillo's bounds check. -/
def col (M : Mat α) (c : Nat) : Except Error (Vec α) :=
  match M.cols[c]? with
  | some v => .ok v
  | none => .error (.arma_error "Mat::col(): index out of bounds")

/-- Column write `M.col(c) = v` with Armadillo's bounds and size checks. -/
def set_col (M : Mat α) (c : Nat) (v : Vec α) : Except Error (Mat α) :=
  if h : c < M.n_cols ∧ v.n_elem = M.n_rows then
    .ok ⟨M.n_rows, M.cols.set c v, by
      intro col hcol
      rcases List.mem_or_eq_of_mem_set hcol with h1 | h1
      · exact M.wf col h1
      · rw [h1]; exact h.2⟩
  else if c < M.n_cols then
    .error (.arma_error "copy into submatrix: incompatible matrix dimensions")
  else .error (.arma_error "Mat::col(): index out of bounds")

/-- Transpose `arma::trans(M)`. -/
def trans [Zero α] (M : Mat α) : Mat α :=
  ofFn M.n_cols M.n_rows (fun r c => M.elem c r)

/-- Matrix product `A * B` with Armadillo's size check:
`(A * B)(i, j)` is the sum over `k` of `A(i, k) * B(k, j)`. -/
def times [Zero α] [Add α] [Mul α] (A B : Mat α) : Except Error (Mat α) :=
  if A.n_cols ≠ B.n_rows then
    .error (.arma_error "matrix multiplication: incompatible matrix dimensions")
  else
    .ok (ofFn A.n_rows B.n_cols (fun i j =>
      ((List.range A.n_cols).map (fun k => A.elem i k * B.elem k j)).sum))

/-- Product `s * M` of a scalar and a matrix. -/
def scale [Mul α] (s : α) (M : Mat α) : Mat α := M.map (fun v => s * v)

/-- Sum `A + B` of two matrices with Armadillo's size check. -/
def plus [Zero α] [Add α] (A B : Mat α) : Except Error (Mat α) :=
  if A.n_rows ≠ B.n_rows ∨ A.n_cols ≠ B.n_cols then
    .error (.arma_error "addition: incompatible matrix dimensions")
  else
    .ok (ofFn A.n_rows A.n_cols (fun r c => A.elem r c + B.elem r c))

instance [DecidableEq α] : DecidableEq (Mat α) := fun A B =>
  if h : A.n_rows = B.n_rows ∧ A.cols = B.cols then
    isTrue (by cases A; cases B; simp_all)
  else
    isFalse (by rintro rfl; exact h ⟨rfl, rfl⟩)

end Mat

namespace Vec

variable {α : Type}

/-- Element-wise product `a % b` of two vectors with Armadillo's size check. -/
def schur [Mul α] (a b : Vec α) : Except Error (Vec α) :=
  if a.n_elem ≠ b.n_elem then
    .error (.arma_error "element-wise multiplication: incompatible matrix dimensions")
  else .ok (List.zipWith (· * ·) a b)

/-- Element-wise quotient `a / b` of two vectors of finite values with Armadillo's size
check. -/
def quot (a b : Vec ℚ) : Except Error (Vec double) :=
  if a.n_elem ≠ b.n_elem then
    .error (.arma_error "element-wise division: incompatible matrix dimensions")
  else .ok (List.zipWith double.div a b)

end Vec

/-- The loop `for(size_t i=lo; i<hi; i++) body`, threading the variables the body
assigns as the state `s`. -/
def forLoop {σ : Type} (lo hi : Nat) (body : Nat → σ → Except Error σ) (s : σ) :
    Except Error σ :=
  (List.range (hi - lo)).foldlM (fun st t => body (lo + t) st) s

/-- Invariant of a nest of four loops that writes one cell of `K` per index tuple
`(a, b, c, d)`: `K` has shape `R x C`, every tuple in `D` (the tuples already visited) has
its cell `(row, col)` holding `val`, and the other cells still hold zero. -/
def Filled {α : Type} [Zero α] (R C n1 n2 n3 n4 : Nat) (row col : Nat → Nat → Nat → Nat → Nat)
    (val : Nat → Nat → Nat → Nat → α) (D : Nat → Nat → Nat → Nat → Prop) (K : Mat α) : Prop :=
  K.n_rows = R ∧ K.n_cols = C ∧
  (∀ a b c d, a < n1 → b < n2 → c < n3 → d < n4 → D a b c d →
    K.at? (row a b c d) (col a b c d) = some (val a b c d)) ∧
  (∀ r c', r < R → c' < C →
    (∀ a b c d, a < n1 → b < n2 → c < n3 → d < n4 → D a b c d →
      ¬ (row a b c d = r ∧ col a b c d = c')) → K.at? r c' = some 0)

/-! ## `src/general/utils.cpp` -/

namespace utils

/-- Function `product_tei` of `utils.cpp`. -/
def product_tei {α : Type} [Zero α] [Mul α] (ijint klint : Mat α) : Except Error (Mat α) :=
  let Ni := ijint.n_rows
  let Nj := ijint.n_cols
  let Nk := klint.n_rows
  let Nl := klint.n_cols
  let teiblock : Mat α := Mat.zeros (Ni*Nj) (Nk*Nl)
  -- Form block
  forLoop 0 Nk (fun fk teiblock =>
    forLoop 0 Nl (fun fl teiblock => do
      -- Use temp variable
      let kl ← klint.get fk fl
      forLoop 0 Ni (fun fi teiblock =>
        forLoop 0 Nj (fun fj teiblock => do
          -- (ij|kl) in Armadillo compatible indexing
          let ij ← ijint.get fi fj
          teiblock.set (fj*Ni+fi) (fl*Nk+fk) (kl*ij)) teiblock) teiblock) teiblock) teiblock

/-- Function `exchange_tei` of `utils.cpp`. -/
def exchange_tei {α : Type} [Zero α] (tei : Mat α) (Ni Nj Nk Nl : Nat) :
    Except Error (Mat α) :=
  if tei.n_rows ≠ Ni*Nj then
    .error (.logic_error "Invalid input tei: was supposed to get rows" (Ni*Nj) tei.n_rows)
  else if tei.n_cols ≠ Nk*Nl then
    .error (.logic_error "Invalid input tei: was supposed to get cols" (Nk*Nl) tei.n_cols)
  else
    let ktei : Mat α := Mat.zeros (Nj*Nk) (Ni*Nl)
    forLoop 0 Ni (fun ii ktei =>
      forLoop 0 Nj (fun jj ktei =>
        forLoop 0 Nk (fun kk ktei =>
          forLoop 0 Nl (fun ll ktei => do
            -- (ik|jl) in Armadillo compatible indexing
            let v ← tei.get (jj*Ni+ii) (ll*Nk+kk)
            ktei.set (kk*Nj+jj) (ll*Ni+ii) v) ktei) ktei) ktei) ktei

end utils

/-! ## `src/atomic/quadrature.cpp` -/

namespace quadrature

/-- Function `radial_integral` of `quadrature.cpp`. -/
def radial_integral (rmin rmax : ℚ) (n : Int) (x wx : Vec ℚ) (bf : Mat ℚ) :
    Except Error (Mat double) :=
  if x.n_elem ≠ wx.n_elem then
    .error (.logic_error "x and wx not compatible" x.n_elem wx.n_elem)
  else if x.n_elem ≠ bf.n_rows then
    .error (.logic_error "x and bf not compatible" x.n_elem bf.n_rows)
  else do
    -- Midpoint is at
    let rmid : ℚ := 0.5 * (rmax + rmin)
    -- and half-length of interval is
    let rlen : ℚ := 0.5 * (rmax - rmin)
    -- r values are then
    let r : Vec ℚ := x.map (fun xk => rmid * 1 + rlen * xk)
    -- Calculate total weight per point
    let wp : Vec double := wx.map (fun w => double.fin (w * rlen))
    let wp ← (if n ≠ 0 then Vec.schur wp (r.map (fun rk => double.pow (double.fin rk) n))
      else pure wp)
    -- Put in weight
    let wbf : Mat double := bf.map double.fin
    let wbf ← forLoop 0 bf.n_cols (fun i wbf => do
      let c ← wbf.col i
      let c ← Vec.schur c wp
      wbf.set_col i c) wbf
    -- Matrix elements are then
    Mat.times (Mat.trans wbf) (bf.map double.fin)

/-- Function `derivative_integral` of `quadrature.cpp`. -/
def derivative_integral (rmin rmax : ℚ) (x wx : Vec ℚ) (dbf : Mat ℚ) :
    Except Error (Mat double) :=
  if x.n_elem ≠ wx.n_elem then
    .error (.logic_error "x and wx not compatible" x.n_elem wx.n_elem)
  else if x.n_elem ≠ dbf.n_rows then
    .error (.logic_error "x and dbf not compatible" x.n_elem dbf.n_rows)
  else do
    -- Half-length of interval is
    let rlen : ℚ := 0.5 * (rmax - rmin)
    -- Put in weight
    let wdbf : Mat double := dbf.map double.fin
    let wdbf ← forLoop 0 dbf.n_cols (fun i wdbf => do
      -- We get +1 rlen from the jacobian, but -2 from the derivatives
      let c ← wdbf.col i
      let c ← Vec.schur c (wx.map (fun w => double.div w rlen))
      wdbf.set_col i c) wdbf
    -- Integral is
    Mat.times (Mat.trans wdbf) (dbf.map double.fin)

/-- Function `twoe_inner_integral` of `quadrature.cpp`.  The matrix `bfprod` is not
initialised by the source; each of its columns is assigned before it is read. -/
def twoe_inner_integral (rmin rmax : ℚ) (x wx : Vec ℚ) (bf : Mat ℚ) (L : Int) :
    Except Error (Mat double) := do
  -- Product functions
  let bfprod : Mat ℚ := Mat.zeros bf.n_rows (bf.n_cols * bf.n_cols)
  let bfprod ← forLoop 0 bf.n_cols (fun fi bfprod =>
    forLoop 0 bf.n_cols (fun fj bfprod => do
      let ci ← bf.col fi
      let cj ← bf.col fj
      let p ← Vec.schur ci cj
      bfprod.set_col (fi * bf.n_cols + fj) p) bfprod) bfprod
  -- Midpoint is at
  let rmid : ℚ := 0.5 * (rmax + rmin)
  -- and half-length of interval is
  let rlen : ℚ := 0.5 * (rmax - rmin)
  -- r values are then
  let fracr : Vec double := x.map (fun xk => double.div (rmid * 1 + rlen * xk) rmax)
  -- Compute the "inner" integrals as function of r.
  let inner : Mat double := Mat.zeros bfprod.n_rows bfprod.n_cols
  -- Calculate total weight per point
  let wp : Vec double := wx.map (fun w => double.fin (w * rlen))
  -- Put in r^L
  let wp ←
    (if L = 0 then pure wp
    else if L = 1 then Vec.schur wp fracr
    else if L = 2 then Vec.schur wp (fracr.map (fun f => f * f))
    else Vec.schur wp (fracr.map (fun f => double.pow f L)))
  -- Put in weight
  let inner ← forLoop 0 bfprod.n_cols (fun i inner => do
    let c ← (bfprod.map double.fin).col i
    let c ← Vec.schur c wp
    inner.set_col i c) inner
  -- The running integral is then
  forLoop 0 inner.n_cols (fun ic inner =>
    forLoop 1 inner.n_rows (fun ir inner => do
      let a ← inner.get ir ic
      let b ← inner.get (ir - 1) ic
      inner.set ir ic (a + b)) inner) inner

/-- Function `twoe_integral` of `quadrature.cpp`.  The constant `M_PI` of `<cmath>` is a
parameter.  In the last statement, `ints += arma::trans(ints)`, Armadillo evaluates the
transpose into a temporary matrix before it adds. -/
def twoe_integral (M_PI : ℚ) (rmin rmax : ℚ) (x wx : Vec ℚ) (bf : Mat ℚ) (L : Int) :
    Except Error (Mat double) :=
  if x.n_elem ≠ wx.n_elem then
    .error (.logic_error "x and wx not compatible" x.n_elem wx.n_elem)
  else if x.n_elem ≠ bf.n_rows then
    .error (.logic_error "x and bf not compatible" x.n_elem bf.n_rows)
  else do
    -- Product functions
    let bfprod : Mat ℚ := Mat.zeros bf.n_rows (bf.n_cols * bf.n_cols)
    let bfprod ← forLoop 0 bf.n_cols (fun fi bfprod =>
      forLoop 0 bf.n_cols (fun fj bfprod => do
        let ci ← bf.col fi
        let cj ← bf.col fj
        let p ← Vec.schur ci cj
        bfprod.set_col (fi * bf.n_cols + fj) p) bfprod) bfprod
    -- Midpoint is at
    let rmid : ℚ := 0.5 * (rmax + rmin)
    -- and half-length of interval is
    let rlen : ℚ := 0.5 * (rmax - rmin)
    -- r values are then
    let r : Vec ℚ := x.map (fun xk => rmid * 1 + rlen * xk)
    -- First, compute the "inner" integrals as function of r.
    let inner ← twoe_inner_integral rmin rmax x wx bf L
    -- Next, the outer integrals
    let wp : Vec ℚ := wx.map (fun w => w * rlen)
    -- Put in 1/r
    let wp ← Vec.quot wp r
    let bfprod : Mat double := bfprod.map double.fin
    let bfprod ← forLoop 0 bfprod.n_cols (fun i bfprod => do
      let c ← bfprod.col i
      let c ← Vec.schur c wp
      bfprod.set_col i c) bfprod
    -- Regularize NaNs and infs
    let bfprod ← forLoop 0 bfprod.n_cols (fun ic bfprod =>
      forLoop 0 bfprod.n_rows (fun ir bfprod => do
        let v ← bfprod.get ir ic
        (if !double.isnormal v then bfprod.set ir ic 0 else pure bfprod)) bfprod) bfprod
    -- Integrals are then
    let ints ← Mat.times
      (Mat.scale (double.div (4.0 * M_PI) ((2 * L + 1 : Int) : ℚ)) (Mat.trans bfprod)) inner
    -- but we are still missing the second term which can be
    -- obtained as simply as
    Mat.plus ints (Mat.trans ints)

end quadrature

/-! ## Machine arithmetic

The definitions above compute with unbounded index products and with exact values.  The
definitions of this section are the same functions with the arithmetic of the machine:
`size_t` is an unsigned integer of 64 bits, whose products and sums wrap modulo `2^64`, and
`double` is IEEE 754 binary64, whose operations round to the nearest representable value
(ties to even), overflow to an infinity and underflow to a subnormal value or a zero.
Every operation of the source is rounded on its own (no fused multiply-add), an expression
is evaluated in the order in which it is written, and the sum of a matrix product is taken
in the order of `Mat.times`. -/

namespace size_t

/-- Product of two `size_t` values: the product modulo `2^64`. -/
def mul (a b : Nat) : Nat := (a * b) % 2 ^ 64

/-- Sum of two `size_t` values: the sum modulo `2^64`. -/
def add (a b : Nat) : Nat := (a + b) % 2 ^ 64

end size_t

namespace utils

/-- Function `exchange_tei` of `utils.cpp` with the arithmetic of `size_t`: the products
of the two checks and of the allocation, and the index expressions, wrap modulo `2^64`. -/
def exchange_tei_size_t {α : Type} [Zero α] (tei : Mat α) (Ni Nj Nk Nl : Nat) :
    Except Error (Mat α) :=
  if tei.n_rows ≠ size_t.mul Ni Nj then
    .error (.logic_error "Invalid input tei: was supposed to get rows" (size_t.mul Ni Nj)
      tei.n_rows)
  else if tei.n_cols ≠ size_t.mul Nk Nl then
    .error (.logic_error "Invalid input tei: was supposed to get cols" (size_t.mul Nk Nl)
      tei.n_cols)
  else
    let ktei : Mat α := Mat.zeros (size_t.mul Nj Nk) (size_t.mul Ni Nl)
    forLoop 0 Ni (fun ii ktei =>
      forLoop 0 Nj (fun jj ktei =>
        forLoop 0 Nk (fun kk ktei =>
          forLoop 0 Nl (fun ll ktei => do
            -- (ik|jl) in Armadillo compatible indexing
            let v ← tei.get (size_t.add (size_t.mul jj Ni) ii) (size_t.add (size_t.mul ll Nk) kk)
            ktei.set (size_t.add (size_t.mul kk Nj) jj) (size_t.add (size_t.mul ll Ni) ii) v)
            ktei) ktei) ktei) ktei

end utils

/-- A `double` as a value of IEEE 754 binary64: a finite value, which is a rational number
(`fin 0` is `+0`), the negative zero, an infinity or `NaN`. -/
inductive binary64 where
  | fin (q : ℚ)
  | negzero
  | pinf
  | ninf
  | nan
deriving DecidableEq

namespace binary64

/-- The sign bit of a double (`false` for `NaN`, whose sign plays no part). -/
def signbit : binary64 → Bool
  | fin q => decide (q < 0)
  | negzero => true
  | pinf => false
  | ninf => true
  | nan => false

/-- The zero of the given sign. -/
def zero (negative : Bool) : binary64 := if negative then negzero else fin 0

/-- The infinity of the given sign. -/
def inf (negative : Bool) : binary64 := if negative then ninf else pinf

/-- The value of a finite double; `none` for an infinity and for `NaN`. -/
def toRat? : binary64 → Option ℚ
  | fin q => some q
  | negzero => some 0
  | _ => none

/-- Function `std::isfinite`. -/
def isfinite (x : binary64) : Bool := x.toRat?.isSome

/-- The position of the leading bit of `n > 0`: the largest `e` with `2^e <= n`.  The
first argument bounds the number of halvings; `n` itself is enough. -/
def leading_bit : Nat → Nat → Nat
  | 0, _ => 0
  | fuel + 1, n => if n < 2 then 0 else leading_bit fuel (n / 2) + 1

/-- The exponent of a positive rational `q`: the largest `e` with `2^e <= q`.  It is the
difference of the leading bits of numerator and denominator, or one less. -/
def exponent (q : ℚ) : Int :=
  let k : Int := (leading_bit q.num.natAbs q.num.natAbs : Int) - (leading_bit q.den q.den : Int)
  if (2 : ℚ) ^ k ≤ q then k else k - 1

/-- The integer nearest to `t >= 0`, the even one of the two when `t` lies half way. -/
def nearest_even (t : ℚ) : Int :=
  let f : Int := Rat.floor t
  if t - f < 1 / 2 then f
  else if 1 / 2 < t - f then f + 1
  else if f % 2 = 0 then f
  else f + 1

/-- The double that an operation with the exact result `q` returns: `q` rounded to 53
significant bits (to a multiple of `2^(-1074)` below `2^(-1022)`), to nearest and ties to
even.  A result that rounds to `2^1024` or more overflows to the infinity of its sign, and
a nonzero result that rounds to zero gives the zero of its sign. -/
def round (q : ℚ) : binary64 :=
  if q = 0 then fin 0
  else
    let e : Int := max (exponent |q|) (-1022)
    let ulp : ℚ := 2 ^ (e - 52)
    let v : ℚ := nearest_even (|q| / ulp) * ulp
    if 2 ^ 1024 ≤ v then inf (decide (q < 0))
    else if v = 0 then zero (decide (q < 0))
    else fin (if q < 0 then -v else v)

/-- Sum `x + y`: infinities of opposite sign give `NaN`, and an exact sum zero is `+0`
unless both operands are `-0`. -/
def add : binary64 → binary64 → binary64
  | nan, _ => nan
  | _, nan => nan
  | pinf, ninf => nan
  | ninf, pinf => nan
  | pinf, _ => pinf
  | _, pinf => pinf
  | ninf, _ => ninf
  | _, ninf => ninf
  | negzero, negzero => negzero
  | negzero, fin b => round b
  | fin a, negzero => round a
  | fin a, fin b => round (a + b)

/-- Negation `-x`. -/
def neg : binary64 → binary64
  | fin q => if q = 0 then negzero else fin (-q)
  | negzero => fin 0
  | pinf => ninf
  | ninf => pinf
  | nan => nan

/-- Difference `x - y`. -/
def sub (x y : binary64) : binary64 := add x (neg y)

/-- Product `x * y`: the sign is the exclusive or of the signs, and an infinity times a
zero is `NaN`. -/
def mul (x y : binary64) : binary64 :=
  match x.toRat?, y.toRat? with
  | some a, some b =>
    if a * b = 0 then zero (x.signbit != y.signbit) else round (a * b)
  | _, _ =>
    if x = nan ∨ y = nan then nan
    else if x.toRat? = some 0 ∨ y.toRat? = some 0 then nan
    else inf (x.signbit != y.signbit)

/-- Quotient `x / y`: a nonzero finite value or an infinity divided by a zero is an
infinity, a finite value divided by an infinity is a zero, and `0/0` and `Inf/Inf` are
`NaN`. -/
def div (x y : binary64) : binary64 :=
  match x.toRat?, y.toRat? with
  | some a, some b =>
    if b = 0 then (if a = 0 then nan else inf (x.signbit != y.signbit))
    else if a = 0 then zero (x.signbit != y.signbit)
    else round (a / b)
  | some _, none => if y = nan then nan else zero (x.signbit != y.signbit)
  | none, some _ => if x = nan then nan else inf (x.signbit != y.signbit)
  | none, none => nan

instance : Zero binary64 := ⟨fin 0⟩

instance : One binary64 := ⟨fin 1⟩

instance : Add binary64 := ⟨add⟩

instance : Sub binary64 := ⟨sub⟩

instance : Mul binary64 := ⟨mul⟩

instance : Div binary64 := ⟨div⟩

/-- Function `std::pow(x, n)` for an integer exponent `n`, with the special values of the
C standard (`x^0` is `1` for every `x`; a negative power of a zero is an infinity and a
negative power of an infinity a zero, negative only for a negative base and an odd `n`);
the power of a nonzero finite value is taken to round correctly. -/
def pow (x : binary64) (n : Int) : binary64 :=
  if n = 0 then fin 1
  else
    match x with
    | nan => nan
    | fin q => if q = 0 then (if n < 0 then pinf else fin 0) else round (q ^ n)
    | negzero => if n < 0 then inf (decide (n % 2 = 1)) else zero (decide (n % 2 = 1))
    | pinf => if n < 0 then fin 0 else pinf
    | ninf => if n < 0 then zero (decide (n % 2 = 1)) else inf (decide (n % 2 = 1))

/-- Function `std::isnormal`: the value is finite, not zero and not subnormal. -/
def isnormal : binary64 → Bool
  | fin q => decide (double.DBL_MIN ≤ |q| ∧ |q| < 2 ^ 1024)
  | _ => false

end binary64

/-- Element-wise quotient `a / b` of two vectors of doubles with Armadillo's size check. -/
def Vec.quotient (a b : Vec binary64) : Except Error (Vec binary64) :=
  if a.n_elem ≠ b.n_elem then
    .error (.arma_error "element-wise division: incompatible matrix dimensions")
  else .ok (List.zipWith (· / ·) a b)

namespace quadrature

/-- Function `radial_integral` of `quadrature.cpp` in binary64. -/
def radial_integral_binary64 (rmin rmax : binary64) (n : Int) (x wx : Vec binary64)
    (bf : Mat binary64) : Except Error (Mat binary64) :=
  if x.n_elem ≠ wx.n_elem then
    .error (.logic_error "x and wx not compatible" x.n_elem wx.n_elem)
  else if x.n_elem ≠ bf.n_rows then
    .error (.logic_error "x and bf not compatible" x.n_elem bf.n_rows)
  else do
    -- Midpoint is at
    let rmid : binary64 := binary64.fin 0.5 * (rmax + rmin)
    -- and half-length of interval is
    let rlen : binary64 := binary64.fin 0.5 * (rmax - rmin)
    -- r values are then
    let r : Vec binary64 := x.map (fun xk => rmid * 1 + rlen * xk)
    -- Calculate total weight per point
    let wp : Vec binary64 := wx.map (fun w => w * rlen)
    let wp ← (if n ≠ 0 then Vec.schur wp (r.map (fun rk => binary64.pow rk n))
      else pure wp)
    -- Put in weight
    let wbf : Mat binary64 := bf
    let wbf ← forLoop 0 bf.n_cols (fun i wbf => do
      let c ← wbf.col i
      let c ← Vec.schur c wp
      wbf.set_col i c) wbf
    -- Matrix elements are then
    Mat.times (Mat.trans wbf) bf

/-- Function `derivative_integral` of `quadrature.cpp` in binary64. -/
def derivative_integral_binary64 (rmin rmax : binary64) (x wx : Vec binary64)
    (dbf : Mat binary64) : Except Error (Mat binary64) :=
  if x.n_elem ≠ wx.n_elem then
    .error (.logic_error "x and wx not compatible" x.n_elem wx.n_elem)
  else if x.n_elem ≠ dbf.n_rows then
    .error (.logic_error "x and dbf not compatible" x.n_elem dbf.n_rows)
  else do
    -- Half-length of interval is
    let rlen : binary64 := binary64.fin 0.5 * (rmax - rmin)
    -- Put in weight
    let wdbf : Mat binary64 := dbf
    let wdbf ← forLoop 0 dbf.n_cols (fun i wdbf => do
      -- We get +1 rlen from the jacobian, but -2 from the derivatives
      let c ← wdbf.col i
      let c ← Vec.schur c (wx.map (fun w => w / rlen))
      wdbf.set_col i c) wdbf
    -- Integral is
    Mat.times (Mat.trans wdbf) dbf

/-- Function `twoe_inner_integral` of `quadrature.cpp` in binary64. -/
def twoe_inner_integral_binary64 (rmin rmax : binary64) (x wx : Vec binary64)
    (bf : Mat binary64) (L : Int) : Except Error (Mat binary64) := do
  -- Product functions
  let bfprod : Mat binary64 := Mat.zeros bf.n_rows (bf.n_cols * bf.n_cols)
  let bfprod ← forLoop 0 bf.n_cols (fun fi bfprod =>
    forLoop 0 bf.n_cols (fun fj bfprod => do
      let ci ← bf.col fi
      let cj ← bf.col fj
      let p ← Vec.schur ci cj
      bfprod.set_col (fi * bf.n_cols + fj) p) bfprod) bfprod
  -- Midpoint is at
  let rmid : binary64 := binary64.fin 0.5 * (rmax + rmin)
  -- and half-length of interval is
  let rlen : binary64 := binary64.fin 0.5 * (rmax - rmin)
  -- r values are then
  let fracr : Vec binary64 := x.map (fun xk => (rmid * 1 + rlen * xk) / rmax)
  -- Compute the "inner" integrals as function of r.
  let inner : Mat binary64 := Mat.zeros bfprod.n_rows bfprod.n_cols
  -- Calculate total weight per point
  let wp : Vec binary64 := wx.map (fun w => w * rlen)
  -- Put in r^L
  let wp ←
    (if L = 0 then pure wp
    else if L = 1 then Vec.schur wp fracr
    else if L = 2 then Vec.schur wp (fracr.map (fun f => f * f))
    else Vec.schur wp (fracr.map (fun f => binary64.pow f L)))
  -- Put in weight
  let inner ← forLoop 0 bfprod.n_cols (fun i inner => do
    let c ← bfprod.col i
    let c ← Vec.schur c wp
    inner.set_col i c) inner
  -- The running integral is then
  forLoop 0 inner.n_cols (fun ic inner =>
    forLoop 1 inner.n_rows (fun ir inner => do
      let a ← inner.get ir ic
      let b ← inner.get (ir - 1) ic
      inner.set ir ic (a + b)) inner) inner

/-- Function `twoe_integral` of `quadrature.cpp` in binary64.  The constant `M_PI` of
`<cmath>` is a parameter. -/
def twoe_integral_binary64 (M_PI : binary64) (rmin rmax : binary64) (x wx : Vec binary64)
    (bf : Mat binary64) (L : Int) : Except Error (Mat binary64) :=
  if x.n_elem ≠ wx.n_elem then
    .error (.logic_error "x and wx not compatible" x.n_elem wx.n_elem)
  else if x.n_elem ≠ bf.n_rows then
    .error (.logic_error "x and bf not compatible" x.n_elem bf.n_rows)
  else do
    -- Product functions
    let bfprod : Mat binary64 := Mat.zeros bf.n_rows (bf.n_cols * bf.n_cols)
    let bfprod ← forLoop 0 bf.n_cols (fun fi bfprod =>
      forLoop 0 bf.n_cols (fun fj bfprod => do
        let ci ← bf.col fi
        let cj ← bf.col fj
        let p ← Vec.schur ci cj
        bfprod.set_col (fi * bf.n_cols + fj) p) bfprod) bfprod
    -- Midpoint is at
    let rmid : binary64 := binary64.fin 0.5 * (rmax + rmin)
    -- and half-length of interval is
    let rlen : binary64 := binary64.fin 0.5 * (rmax - rmin)
    -- r values are then
    let r : Vec binary64 := x.map (fun xk => rmid * 1 + rlen * xk)
    -- First, compute the "inner" integrals as function of r.
    let inner ← twoe_inner_integral_binary64 rmin rmax x wx bf L
    -- Next, the outer integrals
    let wp : Vec binary64 := wx.map (fun w => w * rlen)
    -- Put in 1/r
    let wp ← Vec.quotient wp r
    let bfprod ← forLoop 0 bfprod.n_cols (fun i bfprod => do
      let c ← bfprod.col i
      let c ← Vec.schur c wp
      bfprod.set_col i c) bfprod
    -- Regularize NaNs and infs
    let bfprod ← forLoop 0 bfprod.n_cols (fun ic bfprod =>
      forLoop 0 bfprod.n_rows (fun ir bfprod => do
        let v ← bfprod.get ir ic
        (if !binary64.isnormal v then bfprod.set ir ic 0 else pure bfprod)) bfprod) bfprod
    -- Integrals are then
    let ints ← Mat.times
      (Mat.scale (binary64.fin 4.0 * M_PI / binary64.round (((2 * L + 1 : Int) : ℚ)))
        (Mat.trans bfprod)) inner
    -- but we are still missing the second term which can be
    -- obtained as simply as
    Mat.plus ints (Mat.trans ints)

/-- The outer-weighted product for node `k` and the flattened pair `a = i*M+j` as
`twoe_integral` computes it in binary64, before the regularisation:
`(bf(k,i) * bf(k,j)) * ((wx_k * rlen) / r_k)`. -/
def outer_product_binary64 (rmin rmax : binary64) (x wx : Vec binary64) (bf : Mat binary64)
    (k a : Nat) : binary64 :=
  (bf.elem k (a / bf.n_cols) * bf.elem k (a % bf.n_cols)) *
    ((wx.getD k 0 * (binary64.fin 0.5 * (rmax - rmin))) /
      (binary64.fin 0.5 * (rmax + rmin) * 1 +
        binary64.fin 0.5 * (rmax - rmin) * x.getD k 0))

end quadrature

/-! ## The double sum of the specification -/

/-- The explicit double sum over node pairs `k' <= k` that the specification gives for the
two-electron matrix, written from the specification and not from the code:
`S(a,b) = (4*pi/(2L+1)) * sum over k < N of [wx_k*halfLength/r_k * P(k,a)] *
[sum over k' <= k of wx_k' * halfLength * (r_k'/rmax)^L * P(k',b)]` with
`P(k, i*M+j) = bf(k,i) * bf(k,j)`. -/
def double_sum_S (M_PI rmin rmax : ℚ) (x wx : Vec ℚ) (bf : Mat ℚ) (L : Int) (a b : Nat) :
    double :=
  let M := bf.n_cols
  let halfLength : ℚ := (rmax - rmin) / 2
  let r : Nat → ℚ := fun k => (rmax + rmin) / 2 + halfLength * x.getD k 0
  let P : Nat → Nat → ℚ := fun k c => bf.elem k (c / M) * bf.elem k (c % M)
  double.div (4 * M_PI) ((2 * L + 1 : Int) : ℚ) *
    ∑ k in Finset.range bf.n_rows,
      (double.div (wx.getD k 0 * halfLength) (r k) * double.fin (P k a)) *
        (∑ k' in Finset.range (k + 1),
          double.fin (wx.getD k' 0) * double.fin halfLength *
            double.pow (double.div (r k') rmax) L * double.fin (P k' b))

/-- The matrix entry `S(a,b) + S(b,a)` of the specification. -/
def double_sum (M_PI rmin rmax : ℚ) (x wx : Vec ℚ) (bf : Mat ℚ) (L : Int) (a b : Nat) :
    double :=
  double_sum_S M_PI rmin rmax x wx bf L a b + double_sum_S M_PI rmin rmax x wx bf L b a

/-- The outer-weighted product of the specification for node `k` and the flattened pair
`a = i*M+j`, before the regularisation: `wx_k * halfLength / r_k` times
`bf(k,i) * bf(k,j)`. -/
def outer_product (rmin rmax : ℚ) (x wx : Vec ℚ) (bf : Mat ℚ) (k a : Nat) : double :=
  double.fin (bf.elem k (a / bf.n_cols) * bf.elem k (a % bf.n_cols)) *
    double.div (wx.getD k 0 * ((rmax - rmin) / 2))
      ((rmax + rmin) / 2 + (rmax - rmin) / 2 * x.getD k 0)

/-! ## Example inputs -/

/-- A `2 x 2` tensor of whole numbers: one `i`, two `j`, two `k` and one `l` index. -/
def tei22 : Mat ℤ := ⟨2, [[1, 2], [3, 4]], by decide⟩

/-- A `6 x 6` tensor for `Ni = 2`, `Nj = 3`, `Nk = 2`, `Nl = 3` whose 36 cells hold the
distinct values `1, ..., 36`. -/
def tei66 : Mat ℤ :=
  ⟨6, [[1, 2, 3, 4, 5, 6], [7, 8, 9, 10, 11, 12], [13, 14, 15, 16, 17, 18],
       [19, 20, 21, 22, 23, 24], [25, 26, 27, 28, 29, 30], [31, 32, 33, 34, 35, 36]],
    by decide⟩

/-- The value of the `double` nearest to pi, which `M_PI` denotes. -/
def M_PI_double : ℚ := 884279719003555 / 281474976710656

/-- One quadrature node, at the midpoint of the element. -/
def x1 : Vec ℚ := [0]

/-- One quadrature weight. -/
def wx1 : Vec ℚ := [1]

/-- Values of two basis functions at one node: `2^(-525)` and `2^500`, both of them
normal doubles, whose squares and product are `2^(-1050)` (a subnormal double), `2^1000`
and `2^(-25)`. -/
def bf12 : Mat ℚ := ⟨1, [[1 / 2 ^ 525], [2 ^ 500]], by decide⟩

/-- The nodes of the three-point Gauss-Legendre rule, to four digits. -/
def x_gl3 : Vec ℚ := [-0.7746, 0, 0.7746]

/-- The weights of the three-point Gauss-Legendre rule, to four digits. -/
def wx_gl3 : Vec ℚ := [0.5556, 0.8889, 0.5556]

/-- One basis function with the value `1` at three nodes. -/
def ones31 : Mat ℚ := ⟨3, [[1, 1, 1]], by decide⟩

/-- Two quadrature nodes, the first at the lower end of the element. -/
def x2 : Vec ℚ := [-1, 0]

/-- Two quadrature weights. -/
def wx2 : Vec ℚ := [1, 1]

/-- One basis function with the value `1` at two nodes. -/
def ones21 : Mat ℚ := ⟨2, [[1, 1]], by decide⟩

/-- Three quadrature nodes. -/
def x3 : Vec ℚ := [-1 / 2, 0, 1 / 2]

/-- Three quadrature weights. -/
def wx3 : Vec ℚ := [1, 1, 1]

/-- Values of two basis functions at three nodes. -/
def bf32 : Mat ℚ := ⟨3, [[1, 2, 3], [1, 0, 1]], by decide⟩

/-- The double nearest to `0.1`, which is `0x1.999999999999ap-4`. -/
def double_0_1 : binary64 := binary64.fin (0x1999999999999a / 2 ^ 56)

/-- The double nearest to `0.3`, which is `0x1.3333333333333p-2`. -/
def double_0_3 : binary64 := binary64.fin (0x13333333333333 / 2 ^ 54)

/-- One quadrature node, at the midpoint of the element. -/
def x1_mid : Vec binary64 := [binary64.fin 0]

/-- One quadrature node, at the lower end of the element. -/
def x1_low : Vec binary64 := [binary64.fin (-1)]

/-- One quadrature weight, the double `0.1`. -/
def wx1_tenth : Vec binary64 := [double_0_1]

/-- One quadrature weight, `1`. -/
def wx1_one : Vec binary64 := [binary64.fin 1]

/-- Values of two basis functions at one node: the doubles `0.1` and `0.3`. -/
def bf12_tenths : Mat binary64 := ⟨1, [[double_0_1], [double_0_3]], by decide⟩

/-- Values of two basis functions at one node: `2^600`, whose square `2^1200` overflows,
and `1`. -/
def bf12_large : Mat binary64 := ⟨1, [[binary64.fin (2 ^ 600)], [binary64.fin 1]], by decide⟩

end helfem

/-! # Theorems -/

namespace helfem

/-! ## Loops -/

theorem ok_bind {α β : Type} (a : α) (f : α → Except Error β) :
    ((Except.ok a : Except Error α) >>= f) = f a := rfl

theorem error_bind {α β : Type} (e : Error) (f : α → Except Error β) :
    ((Except.error e : Except Error α) >>= f) = .error e := rfl

theorem forLoop_empty {σ : Type} (lo hi : Nat) (h : hi ≤ lo) (body : Nat → σ → Except Error σ)
    (s : σ) : forLoop lo hi body s = .ok s := by
  simp [forLoop, Nat.sub_eq_zero_of_le h]
  rfl

theorem forLoop_succ {σ : Type} (lo hi : Nat) (h : lo ≤ hi) (body : Nat → σ → Except Error σ)
    (s : σ) : forLoop lo (hi + 1) body s = (forLoop lo hi body s >>= body hi) := by
  have e : hi + 1 - lo = (hi - lo) + 1 := by omega
  simp only [forLoop, e, List.range_succ, List.foldlM_append, List.foldlM_cons, List.foldlM_nil]
  have e2 : lo + (hi - lo) = hi := by omega
  rw [e2]
  congr 1
  funext st
  cases body hi st <;> rfl

/-- Invariant rule for `forLoop`: an invariant that holds on entry and is carried by every
iteration from index `i` to index `i+1` holds at exit, and the loop does not throw. -/
theorem forLoop_inv {σ : Type} (lo hi : Nat) (body : Nat → σ → Except Error σ)
    (Inv : Nat → σ → Prop) (s : σ) (hle : lo ≤ hi) (h0 : Inv lo s)
    (step : ∀ i st, lo ≤ i → i < hi → Inv i st → ∃ st', body i st = .ok st' ∧ Inv (i + 1) st') :
    ∃ s', forLoop lo hi body s = .ok s' ∧ Inv hi s' := by
  induction hi with
  | zero =>
    have : lo = 0 := by omega
    subst this
    exact ⟨s, forLoop_empty 0 0 (le_refl _) body s, h0⟩
  | succ n ih =>
    rcases Nat.lt_or_ge n lo with hlt | hge
    · have : lo = n + 1 := by omega
      subst this
      exact ⟨s, forLoop_empty _ _ (le_refl _) body s, h0⟩
    · obtain ⟨s1, hs1, hI⟩ := ih hge (fun i st h1 h2 h3 => step i st h1 (by omega) h3)
      obtain ⟨s2, hs2, hI2⟩ := step n s1 hge (by omega) hI
      refine ⟨s2, ?_, hI2⟩
      rw [forLoop_succ lo n hge, hs1]
      exact hs2

/-! ## Matrices -/

namespace Mat

variable {α : Type}

theorem at?_eq_some_lt {M : Mat α} {r c : Nat} {v : α} (h : M.at? r c = some v) :
    r < M.n_rows ∧ c < M.n_cols := by
  unfold at? at h
  cases hc : M.cols[c]? with
  | none => simp [hc] at h
  | some col =>
    simp only [hc] at h
    have hlen := M.wf col (List.getElem?_mem hc)
    have h1 : c < M.cols.length := (List.getElem?_eq_some_iff.mp hc).1
    have h2 : r < col.length := (List.getElem?_eq_some_iff.mp h).1
    exact ⟨by omega, h1⟩

theorem at?_isSome {M : Mat α} {r c : Nat} (hr : r < M.n_rows) (hc : c < M.n_cols) :
    ∃ v, M.at? r c = some v := by
  unfold at?
  have h1 : c < M.cols.length := hc
  rw [List.getElem?_eq_getElem h1]
  have hlen := M.wf (M.cols[c]) (List.getElem_mem _)
  have h2 : r < (M.cols[c]).length := by omega
  exact ⟨_, List.getElem?_eq_getElem h2⟩

theorem at?_eq_none {M : Mat α} {r c : Nat} (h : ¬ (r < M.n_rows ∧ c < M.n_cols)) :
    M.at? r c = none := by
  cases hv : M.at? r c with
  | none => rfl
  | some v => exact absurd (at?_eq_some_lt hv) h

theorem get_eq_ok {M : Mat α} {r c : Nat} {v : α} :
    M.get r c = .ok v ↔ M.at? r c = some v := by
  unfold get
  cases M.at? r c <;> simp

theorem get_ok_of_lt {M : Mat α} {r c : Nat} (hr : r < M.n_rows) (hc : c < M.n_cols) :
    ∃ v, M.get r c = .ok v ∧ M.at? r c = some v := by
  obtain ⟨v, hv⟩ := at?_isSome hr hc
  exact ⟨v, get_eq_ok.mpr hv, hv⟩

theorem set_ok {M : Mat α} {r c : Nat} (v : α) (hr : r < M.n_rows) (hc : c < M.n_cols) :
    ∃ M', M.set r c v = .ok M' ∧ M'.n_rows = M.n_rows ∧ M'.n_cols = M.n_cols ∧
      ∀ r' c', M'.at? r' c' = if r' = r ∧ c' = c then some v else M.at? r' c' := by
  have hc' : c < M.cols.length := hc
  have hlen := M.wf (M.cols[c]) (List.getElem_mem _)
  have hrc : r < M.n_rows ∧ c < M.n_cols := ⟨hr, hc⟩
  simp only [set, hrc, and_self, dite_true]
  refine ⟨_, rfl, rfl, ?_, ?_⟩
  · simp [n_cols]
  · intro r' c'
    simp only [at?, List.getElem?_set, List.get_eq_getElem]
    by_cases h1 : c = c'
    · subst h1
      simp only [hc', if_true, List.getElem?_eq_getElem hc', and_true]
      by_cases h2 : r' = r
      · subst h2
        have : r' < (M.cols[c]).length := by omega
        simp only [if_true, List.getElem?_set, this]
      · have : ¬ (r = r') := fun e => h2 e.symm
        simp only [h2, if_false, List.getElem?_set, this]
    · have : ¬ (c' = c) := fun e => h1 e.symm
      simp only [h1, this, if_false, and_false]

theorem set_error {M : Mat α} {r c : Nat} (v : α) (h : ¬ (r < M.n_rows ∧ c < M.n_cols)) :
    ∃ e, M.set r c v = .error e := by
  simp only [set, h, dite_false]
  exact ⟨_, rfl⟩

theorem n_rows_zeros [Zero α] (n m : Nat) : (zeros n m : Mat α).n_rows = n := rfl

theorem n_cols_zeros [Zero α] (n m : Nat) : (zeros n m : Mat α).n_cols = m := by
  simp [zeros, n_cols]

theorem at?_zeros [Zero α] (n m r c : Nat) :
    (zeros n m : Mat α).at? r c = if r < n ∧ c < m then some 0 else none := by
  simp only [at?, zeros, List.getElem?_replicate]
  by_cases hc : c < m
  · by_cases hr : r < n
    · simp [hc, hr]
    · simp only [hc, hr, if_true, false_and, if_false]
      exact List.getElem?_eq_none (by simp; omega)
  · simp [hc]

/-- Two matrices with the same shape and the same cells are equal. -/
theorem ext_at? {A B : Mat α} (hr : A.n_rows = B.n_rows) (hc : A.n_cols = B.n_cols)
    (h : ∀ r c, r < A.n_rows → c < A.n_cols → A.at? r c = B.at? r c) : A = B := by
  have hcols : A.cols = B.cols := by
    apply List.ext_getElem?
    intro c
    by_cases hcl : c < A.cols.length
    · have hcl' : c < B.cols.length := by unfold n_cols at hc; omega
      rw [List.getElem?_eq_getElem hcl, List.getElem?_eq_getElem hcl']
      congr 1
      apply List.ext_getElem?
      intro r
      have hA := A.wf (A.cols[c]) (List.getElem_mem _)
      have hB := B.wf (B.cols[c]) (List.getElem_mem _)
      by_cases hrl : r < A.n_rows
      · have := h r c hrl hcl
        simpa [at?, List.getElem?_eq_getElem hcl, List.getElem?_eq_getElem hcl'] using this
      · rw [List.getElem?_eq_none (by omega), List.getElem?_eq_none (by omega)]
    · have hcl' : ¬ c < B.cols.length := by unfold n_cols at hc; omega
      rw [List.getElem?_eq_none (by omega), List.getElem?_eq_none (by omega)]
  cases A; cases B; simp_all

/-- Two matrices with the same shape that agree on every cell lookup are equal. -/
theorem ext_at?' {A B : Mat α} (hr : A.n_rows = B.n_rows) (hc : A.n_cols = B.n_cols)
    (h : ∀ r c, A.at? r c = B.at? r c) : A = B :=
  ext_at? hr hc (fun r c _ _ => h r c)

theorem at?_lt_iff {M : Mat α} {r c : Nat} :
    (∃ v, M.at? r c = some v) ↔ r < M.n_rows ∧ c < M.n_cols :=
  ⟨fun ⟨_, h⟩ => at?_eq_some_lt h, fun h => at?_isSome h.1 h.2⟩

theorem elem_eq [Zero α] {M : Mat α} {r c : Nat} {v : α} (h : M.at? r c = some v) :
    M.elem r c = v := by
  simp [elem, h]

theorem at?_eq_elem [Zero α] {M : Mat α} {r c : Nat} (hr : r < M.n_rows)
    (hc : c < M.n_cols) : M.at? r c = some (M.elem r c) := by
  obtain ⟨v, hv⟩ := at?_isSome hr hc
  rw [hv, elem_eq hv]

theorem n_rows_ofFn (n m : Nat) (f : Nat → Nat → α) : (ofFn n m f).n_rows = n := rfl

theorem n_cols_ofFn (n m : Nat) (f : Nat → Nat → α) : (ofFn n m f).n_cols = m := by
  simp [ofFn, n_cols]

theorem at?_ofFn (n m : Nat) (f : Nat → Nat → α) (r c : Nat) :
    (ofFn n m f).at? r c = if r < n ∧ c < m then some (f r c) else none := by
  simp only [at?, ofFn, List.getElem?_map]
  by_cases hc : c < m
  · rw [List.getElem?_range hc]
    by_cases hr : r < n
    · simp [List.getElem?_range hr, hr, hc]
    · simp only [Option.map_some', List.getElem?_map, hr, false_and, if_false]
      rw [List.getElem?_eq_none (by simp; omega)]
      rfl
  · rw [List.getElem?_eq_none (by simp; omega)]
    simp [hc]

theorem n_rows_map {β : Type} (f : α → β) (M : Mat α) : (M.map f).n_rows = M.n_rows := rfl

theorem n_cols_map {β : Type} (f : α → β) (M : Mat α) : (M.map f).n_cols = M.n_cols := by
  simp [map, n_cols]

theorem at?_map {β : Type} (f : α → β) (M : Mat α) (r c : Nat) :
    (M.map f).at? r c = (M.at? r c).map f := by
  simp only [at?, map, List.getElem?_map]
  cases M.cols[c]? with
  | none => rfl
  | some col => simp

theorem elem_map {β : Type} [Zero α] [Zero β] (f : α → β) {M : Mat α} {r c : Nat}
    (hr : r < M.n_rows) (hc : c < M.n_cols) : (M.map f).elem r c = f (M.elem r c) := by
  unfold elem
  rw [at?_map]
  obtain ⟨v, hv⟩ := at?_isSome hr hc
  rw [hv]
  rfl

theorem col_ok {M : Mat α} {c : Nat} (hc : c < M.n_cols) :
    ∃ v, M.col c = .ok v ∧ v.length = M.n_rows ∧ ∀ r, v[r]? = M.at? r c := by
  have h1 : c < M.cols.length := hc
  refine ⟨M.cols[c], ?_, M.wf _ (List.getElem_mem _), ?_⟩
  · simp [col, List.getElem?_eq_getElem h1]
  · intro r
    simp [at?, List.getElem?_eq_getElem h1]

theorem set_col_ok {M : Mat α} {c : Nat} {v : Vec α} (hc : c < M.n_cols)
    (hv : v.length = M.n_rows) :
    ∃ M', M.set_col c v = .ok M' ∧ M'.n_rows = M.n_rows ∧ M'.n_cols = M.n_cols ∧
      ∀ r c', M'.at? r c' = if c' = c then v[r]? else M.at? r c' := by
  have h1 : c < M.cols.length := hc
  have hcv : c < M.n_cols ∧ Vec.n_elem v = M.n_rows := ⟨hc, hv⟩
  simp only [set_col, hcv, and_self, dite_true]
  refine ⟨_, rfl, rfl, by simp [n_cols], ?_⟩
  intro r c'
  simp only [at?, List.getElem?_set]
  by_cases h : c = c'
  · subst h
    simp [h1]
  · have h' : ¬ c' = c := fun e => h e.symm
    simp [h, h']

theorem n_rows_trans [Zero α] (M : Mat α) : M.trans.n_rows = M.n_cols := rfl

theorem n_cols_trans [Zero α] (M : Mat α) : M.trans.n_cols = M.n_rows := by
  simp [trans, n_cols_ofFn]

theorem at?_trans [Zero α] (M : Mat α) (r c : Nat) :
    M.trans.at? r c = M.at? c r := by
  simp only [trans, at?_ofFn]
  by_cases h : r < M.n_cols ∧ c < M.n_rows
  · rw [if_pos h, at?_eq_elem h.2 h.1]
  · rw [if_neg h, at?_eq_none (fun h' => h ⟨h'.2, h'.1⟩)]

theorem elem_trans [Zero α] (M : Mat α) (r c : Nat) : M.trans.elem r c = M.elem c r := by
  simp [elem, at?_trans]

theorem trans_trans [Zero α] (M : Mat α) : M.trans.trans = M := by
  apply ext_at?'
  · rw [n_rows_trans, n_cols_trans]
  · rw [n_cols_trans, n_rows_trans]
  · intro r c
    rw [at?_trans, at?_trans]

theorem times_ok [Zero α] [Add α] [Mul α] {A B : Mat α} (h : A.n_cols = B.n_rows) :
    ∃ P, A.times B = .ok P ∧ P.n_rows = A.n_rows ∧ P.n_cols = B.n_cols ∧
      ∀ i j, i < A.n_rows → j < B.n_cols → P.at? i j =
        some (((List.range A.n_cols).map (fun k => A.elem i k * B.elem k j)).sum) := by
  have e : A.times B = .ok (ofFn A.n_rows B.n_cols (fun i j =>
      ((List.range A.n_cols).map (fun k => A.elem i k * B.elem k j)).sum)) := by
    unfold times
    rw [if_neg (fun hne => hne h)]
  refine ⟨_, e, rfl, n_cols_ofFn _ _ _, ?_⟩
  intro i j hi hj
  rw [at?_ofFn, if_pos ⟨hi, hj⟩]

theorem plus_ok [Zero α] [Add α] {A B : Mat α} (hr : A.n_rows = B.n_rows)
    (hc : A.n_cols = B.n_cols) :
    ∃ P, A.plus B = .ok P ∧ P.n_rows = A.n_rows ∧ P.n_cols = A.n_cols ∧
      ∀ i j, i < A.n_rows → j < A.n_cols →
        P.at? i j = some (A.elem i j + B.elem i j) := by
  have e : A.plus B = .ok (ofFn A.n_rows A.n_cols (fun r c => A.elem r c + B.elem r c)) := by
    unfold plus
    rw [if_neg (fun hne => hne.elim (fun h1 => h1 hr) (fun h2 => h2 hc))]
  refine ⟨_, e, rfl, n_cols_ofFn _ _ _, ?_⟩
  intro i j hi hj
  rw [at?_ofFn, if_pos ⟨hi, hj⟩]

theorem at?_scale [Mul α] (s : α) (M : Mat α) (r c : Nat) :
    (M.scale s).at? r c = (M.at? r c).map (fun v => s * v) := at?_map _ M r c

theorem elem_scale [Zero α] [Mul α] (s : α) {M : Mat α} {r c : Nat}
    (hr : r < M.n_rows) (hc : c < M.n_cols) : (M.scale s).elem r c = s * M.elem r c :=
  elem_map _ hr hc

theorem n_rows_scale [Mul α] (s : α) (M : Mat α) : (M.scale s).n_rows = M.n_rows := rfl

theorem n_cols_scale [Mul α] (s : α) (M : Mat α) : (M.scale s).n_cols = M.n_cols :=
  n_cols_map _ M

end Mat

/-! ## Flattened pair indices -/

theorem pair_lt {n m a b : Nat} (ha : a < n) (hb : b < m) : b * n + a < n * m := by
  calc b * n + a < b * n + n := by omega
    _ = n * (b + 1) := by ring
    _ ≤ n * m := Nat.mul_le_mul_left n hb

theorem pair_lt' {n m a b : Nat} (ha : a < n) (hb : b < m) : n * b + a < n * m := by
  calc n * b + a < n * b + n := by omega
    _ = n * (b + 1) := by ring
    _ ≤ n * m := Nat.mul_le_mul_left n hb

theorem pair_inj {n a b a' b' : Nat} (ha : a < n) (ha' : a' < n)
    (h : b * n + a = b' * n + a') : a = a' ∧ b = b' := by
  have hn : 0 < n := by omega
  have h1 : (b * n + a) % n = a := by
    rw [Nat.add_comm, Nat.add_mul_mod_self_right, Nat.mod_eq_of_lt ha]
  have h2 : (b' * n + a') % n = a' := by
    rw [Nat.add_comm, Nat.add_mul_mod_self_right, Nat.mod_eq_of_lt ha']
  have e : a = a' := by rw [← h1, ← h2, h]
  subst e
  exact ⟨rfl, Nat.eq_of_mul_eq_mul_right hn (by omega)⟩

/-- Every cell index below `n * m` is the flattened index of exactly one pair. -/
theorem pair_surj {n m r : Nat} (h : r < n * m) :
    r % n < n ∧ r / n < m ∧ (r / n) * n + r % n = r := by
  have hn : 0 < n := by
    rcases Nat.eq_zero_or_pos n with h0 | h0
    · subst h0; simp at h
    · exact h0
  refine ⟨Nat.mod_lt _ hn, ?_, ?_⟩
  · exact (Nat.div_lt_iff_lt_mul hn).mpr (by rw [Nat.mul_comm]; exact h)
  · rw [Nat.mul_comm]; exact Nat.div_add_mod r n

/-! ## Vectors -/

namespace Vec

variable {α : Type}

theorem getElem?_eq_getD [Zero α] {v : Vec α} {k : Nat} (h : k < v.length) :
    v[k]? = some (v.getD k 0) := by
  rw [List.getD_eq_getElem?_getD, List.getElem?_eq_getElem h]
  rfl

theorem getD_map {β : Type} [Zero α] [Zero β] (f : α → β) {v : Vec α} {k : Nat}
    (h : k < v.length) : (List.map f v).getD k 0 = f (v.getD k 0) := by
  simp [List.getD_eq_getElem?_getD, List.getElem?_eq_getElem h]

theorem schur_ok [Zero α] [Mul α] {a b : Vec α} (h : a.length = b.length) :
    ∃ w, schur a b = .ok w ∧ w.length = a.length ∧
      ∀ k, k < a.length → w[k]? = some (a.getD k 0 * b.getD k 0) := by
  refine ⟨List.zipWith (· * ·) a b, ?_, ?_, ?_⟩
  · unfold schur
    rw [if_neg (fun hne => hne h)]
  · rw [List.length_zipWith, h, min_self]
  · intro k hk
    rw [List.getElem?_zipWith, getElem?_eq_getD hk, getElem?_eq_getD (h ▸ hk)]

theorem schur_error [Mul α] {a b : Vec α} (h : a.length ≠ b.length) :
    ∃ e, schur a b = .error e := by
  unfold schur
  rw [if_pos h]
  exact ⟨_, rfl⟩

theorem quot_ok {a b : Vec ℚ} (h : a.length = b.length) :
    ∃ w, quot a b = .ok w ∧ w.length = a.length ∧
      ∀ k, k < a.length → w[k]? = some (double.div (a.getD k 0) (b.getD k 0)) := by
  refine ⟨List.zipWith double.div a b, ?_, ?_, ?_⟩
  · unfold quot
    rw [if_neg (fun hne => hne h)]
  · rw [List.length_zipWith, h, min_self]
  · intro k hk
    rw [List.getElem?_zipWith, getElem?_eq_getD hk, getElem?_eq_getD (h ▸ hk)]

end Vec

/-! ## Loops over the columns of a matrix -/

/-- The loop `for i: W.col(i) %= wp` multiplies row `r` of every column by `wp(r)`. -/
theorem weight_cols_ok {α : Type} [Zero α] [Mul α] (W0 : Mat α) (wp : Vec α)
    (hwp : wp.length = W0.n_rows) :
    ∃ W, forLoop 0 W0.n_cols (fun i W => do
        let c ← W.col i
        let c ← Vec.schur c wp
        W.set_col i c) W0 = .ok W ∧
      W.n_rows = W0.n_rows ∧ W.n_cols = W0.n_cols ∧
      ∀ r c, r < W0.n_rows → c < W0.n_cols →
        W.at? r c = some (W0.elem r c * wp.getD r 0) := by
  obtain ⟨W, hW, h1, h2, h3⟩ := forLoop_inv 0 W0.n_cols
    (fun i W => do
      let c ← W.col i
      let c ← Vec.schur c wp
      W.set_col i c)
    (fun t W => W.n_rows = W0.n_rows ∧ W.n_cols = W0.n_cols ∧
      ∀ r c, r < W0.n_rows → c < W0.n_cols →
        W.at? r c = if c < t then some (W0.elem r c * wp.getD r 0) else W0.at? r c)
    W0 (Nat.zero_le _) ⟨rfl, rfl, fun r c _ _ => by simp⟩
    (fun i W _ hi ⟨h1, h2, h3⟩ => by
      obtain ⟨v, hv, hvl, hvr⟩ := Mat.col_ok (M := W) (c := i) (by omega)
      obtain ⟨w, hw, hwl, hwr⟩ := Vec.schur_ok (a := v) (b := wp) (by omega)
      obtain ⟨W', hW', r', c', hat⟩ := Mat.set_col_ok (M := W) (c := i) (v := w)
        (by omega) (by omega)
      refine ⟨W', ?_, by omega, by omega, ?_⟩
      · beta_reduce
        rw [hv, ok_bind, hw, ok_bind]
        exact hW'
      · intro r c hr hc
        rw [hat]
        by_cases hci : c = i
        · subst hci
          rw [if_pos rfl, if_pos (Nat.lt_succ_self _), hwr r (by omega)]
          have e1 : v[r]? = W0.at? r c := by
            rw [hvr, h3 r c hr hc, if_neg (Nat.lt_irrefl _)]
          have e2 : v.getD r 0 = W0.elem r c := by
            rw [List.getD_eq_getElem?_getD, e1]
            rfl
          rw [e2]
        · rw [if_neg hci, h3 r c hr hc]
          by_cases hlt : c < i
          · rw [if_pos hlt, if_pos (by omega)]
          · rw [if_neg hlt, if_neg (by omega)])
  refine ⟨W, hW, h1, h2, ?_⟩
  intro r c hr hc
  rw [h3 r c hr hc, if_pos hc]

/-- The loop `for i: W.col(i) = S.col(i) % wp` fills every column of `W` with the
weighted column of `S`. -/
theorem assign_cols_ok {α : Type} [Zero α] [Mul α] (S W0 : Mat α) (wp : Vec α)
    (hr : W0.n_rows = S.n_rows) (hc : W0.n_cols = S.n_cols)
    (hwp : 0 < S.n_cols → wp.length = S.n_rows) :
    ∃ W, forLoop 0 S.n_cols (fun i W => do
        let c ← S.col i
        let c ← Vec.schur c wp
        W.set_col i c) W0 = .ok W ∧
      W.n_rows = S.n_rows ∧ W.n_cols = S.n_cols ∧
      ∀ r c, r < S.n_rows → c < S.n_cols →
        W.at? r c = some (S.elem r c * wp.getD r 0) := by
  obtain ⟨W, hW, h1, h2, h3⟩ := forLoop_inv 0 S.n_cols
    (fun i W => do
      let c ← S.col i
      let c ← Vec.schur c wp
      W.set_col i c)
    (fun t W => W.n_rows = S.n_rows ∧ W.n_cols = S.n_cols ∧
      ∀ r c, r < S.n_rows → c < t → W.at? r c = some (S.elem r c * wp.getD r 0))
    W0 (Nat.zero_le _) ⟨hr, hc, fun r c _ h => absurd h (Nat.not_lt_zero _)⟩
    (fun i W _ hi ⟨h1, h2, h3⟩ => by
      have hwp' := hwp (by omega)
      obtain ⟨v, hv, hvl, hvr⟩ := Mat.col_ok (M := S) (c := i) hi
      obtain ⟨w, hw, hwl, hwr⟩ := Vec.schur_ok (a := v) (b := wp) (by omega)
      obtain ⟨W', hW', r', c', hat⟩ := Mat.set_col_ok (M := W) (c := i) (v := w)
        (by omega) (by omega)
      refine ⟨W', ?_, by omega, by omega, ?_⟩
      · beta_reduce
        rw [hv, ok_bind, hw, ok_bind]
        exact hW'
      · intro r c hr hc
        rw [hat]
        by_cases hci : c = i
        · subst hci
          rw [if_pos rfl, hwr r (by omega)]
          have e2 : v.getD r 0 = S.elem r c := by
            rw [List.getD_eq_getElem?_getD, hvr]
            rfl
          rw [e2]
        · rw [if_neg hci]
          exact h3 r c hr (by omega))
  exact ⟨W, hW, h1, h2, fun r c hr hc => h3 r c hr hc⟩

/-- The product functions: column `fi*M+fj` of `bfprod` is the element-wise product of
columns `fi` and `fj` of `bf`. -/
theorem bfprod_ok {α : Type} [Zero α] [Mul α] (bf : Mat α) :
    ∃ P, forLoop 0 bf.n_cols (fun fi bfprod =>
        forLoop 0 bf.n_cols (fun fj bfprod => do
          let ci ← bf.col fi
          let cj ← bf.col fj
          let p ← Vec.schur ci cj
          bfprod.set_col (fi * bf.n_cols + fj) p) bfprod)
        (Mat.zeros bf.n_rows (bf.n_cols * bf.n_cols)) = .ok P ∧
      P.n_rows = bf.n_rows ∧ P.n_cols = bf.n_cols * bf.n_cols ∧
      ∀ r fi fj, r < bf.n_rows → fi < bf.n_cols → fj < bf.n_cols →
        P.at? r (fi * bf.n_cols + fj) = some (bf.elem r fi * bf.elem r fj) := by
  obtain ⟨P, hP, h1, h2, h3⟩ := forLoop_inv 0 bf.n_cols
    (fun fi bfprod =>
      forLoop 0 bf.n_cols (fun fj bfprod => do
        let ci ← bf.col fi
        let cj ← bf.col fj
        let p ← Vec.schur ci cj
        bfprod.set_col (fi * bf.n_cols + fj) p) bfprod)
    (fun t P => P.n_rows = bf.n_rows ∧ P.n_cols = bf.n_cols * bf.n_cols ∧
      ∀ r a b, r < bf.n_rows → a < t → b < bf.n_cols →
        P.at? r (a * bf.n_cols + b) = some (bf.elem r a * bf.elem r b))
    (Mat.zeros bf.n_rows (bf.n_cols * bf.n_cols)) (Nat.zero_le _)
    ⟨rfl, Mat.n_cols_zeros _ _, fun r a b _ h _ => absurd h (Nat.not_lt_zero _)⟩
    (fun fi P0 _ hfi ⟨h1, h2, h3⟩ => by
      beta_reduce
      obtain ⟨P, hP, g1, g2, g3⟩ := forLoop_inv 0 bf.n_cols
        (fun fj bfprod => do
          let ci ← bf.col fi
          let cj ← bf.col fj
          let p ← Vec.schur ci cj
          bfprod.set_col (fi * bf.n_cols + fj) p)
        (fun t P => P.n_rows = bf.n_rows ∧ P.n_cols = bf.n_cols * bf.n_cols ∧
          ∀ r a b, r < bf.n_rows → (a < fi ∨ (a = fi ∧ b < t)) → b < bf.n_cols →
            P.at? r (a * bf.n_cols + b) = some (bf.elem r a * bf.elem r b))
        P0 (Nat.zero_le _)
        ⟨h1, h2, fun r a b hr hab hb => by
          rcases hab with h | ⟨_, h⟩
          · exact h3 r a b hr h hb
          · exact absurd h (Nat.not_lt_zero _)⟩
        (fun fj P1 _ hfj ⟨g1, g2, g3⟩ => by
          obtain ⟨vi, hvi, hvil, hvir⟩ := Mat.col_ok (M := bf) (c := fi) hfi
          obtain ⟨vj, hvj, hvjl, hvjr⟩ := Mat.col_ok (M := bf) (c := fj) hfj
          obtain ⟨w, hw, hwl, hwr⟩ := Vec.schur_ok (a := vi) (b := vj) (by omega)
          have hcol : fi * bf.n_cols + fj < P1.n_cols := by
            rw [g2, Nat.mul_comm fi]
            exact pair_lt' hfj hfi
          obtain ⟨P2, hP2, r', c', hat⟩ := Mat.set_col_ok (M := P1) (v := w) hcol (by omega)
          refine ⟨P2, ?_, by omega, by omega, ?_⟩
          · beta_reduce
            rw [hvi, ok_bind, hvj, ok_bind, hw, ok_bind]
            exact hP2
          · intro r a b hr hab hb
            rw [hat]
            by_cases hcell : a * bf.n_cols + b = fi * bf.n_cols + fj
            · obtain ⟨e1, e2⟩ := pair_inj hb hfj hcell
              subst e1 e2
              rw [if_pos rfl, hwr r (by omega)]
              have e3 : vi.getD r 0 = bf.elem r a := by
                rw [List.getD_eq_getElem?_getD, hvir]; rfl
              have e4 : vj.getD r 0 = bf.elem r b := by
                rw [List.getD_eq_getElem?_getD, hvjr]; rfl
              rw [e3, e4]
            · rw [if_neg hcell]
              apply g3 r a b hr _ hb
              rcases hab with h | ⟨h, h'⟩
              · exact Or.inl h
              · rcases Nat.lt_succ_iff_lt_or_eq.mp h' with h5 | h5
                · exact Or.inr ⟨h, h5⟩
                · subst h h5
                  exact absurd rfl hcell)
      refine ⟨P, hP, g1, g2, ?_⟩
      intro r a b hr ha hb
      apply g3 r a b hr _ hb
      rcases Nat.lt_succ_iff_lt_or_eq.mp ha with h5 | h5
      · exact Or.inl h5
      · exact Or.inr ⟨h5, hb⟩)
  exact ⟨P, hP, h1, h2, fun r fi fj hr hfi hfj => h3 r fi fj hr hfi hfj⟩

/-! ## Sums -/

theorem sum_range_congr {β : Type} [AddCommMonoid β] (n : Nat) (f g : Nat → β)
    (h : ∀ k, k < n → f k = g k) :
    ((List.range n).map f).sum = ((List.range n).map g).sum := by
  congr 1
  apply List.map_congr_left
  intro k hk
  exact h k (List.mem_range.mp hk)

theorem sum_range_eq_finset {β : Type} [AddCommMonoid β] (n : Nat) (f : Nat → β) :
    ((List.range n).map f).sum = ∑ k in Finset.range n, f k := by
  induction n with
  | zero => simp
  | succ n ih => rw [List.sum_range_succ, Finset.sum_range_succ, ih]

namespace double

theorem fin_add (a b : ℚ) : fin a + fin b = fin (a + b) := rfl

theorem fin_mul (a b : ℚ) : fin a * fin b = fin (a * b) := rfl

theorem zero_def : (0 : double) = fin 0 := rfl

theorem one_def : (1 : double) = fin 1 := rfl

theorem div_ne_zero {a b : ℚ} (h : b ≠ 0) : div a b = fin (a / b) := by
  simp [div, h]

theorem div_zero (a : ℚ) : div a 0 = nonfin := by
  simp [div]

theorem fin_sum (n : Nat) (f : Nat → ℚ) :
    ∑ k in Finset.range n, fin (f k) = fin (∑ k in Finset.range n, f k) := by
  induction n with
  | zero => rfl
  | succ n ih => rw [Finset.sum_range_succ, Finset.sum_range_succ, ih, fin_add]

end double

/-- The running integral: the two loops replace every column by its running sums,
`B(r, c) = A(0, c) + ... + A(r, c)`. -/
theorem running_sum_ok {α : Type} [AddCommMonoid α] (A : Mat α) :
    ∃ B, forLoop 0 A.n_cols (fun ic inner =>
        forLoop 1 inner.n_rows (fun ir inner => do
          let a ← inner.get ir ic
          let b ← inner.get (ir - 1) ic
          inner.set ir ic (a + b)) inner) A = .ok B ∧
      B.n_rows = A.n_rows ∧ B.n_cols = A.n_cols ∧
      ∀ r c, r < A.n_rows → c < A.n_cols →
        B.at? r c = some (∑ k in Finset.range (r + 1), A.elem k c) := by
  obtain ⟨B, hB, h1, h2, h3⟩ := forLoop_inv 0 A.n_cols
    (fun ic inner =>
      forLoop 1 inner.n_rows (fun ir inner => do
        let a ← inner.get ir ic
        let b ← inner.get (ir - 1) ic
        inner.set ir ic (a + b)) inner)
    (fun t W => W.n_rows = A.n_rows ∧ W.n_cols = A.n_cols ∧
      ∀ r c, r < A.n_rows → c < A.n_cols →
        W.at? r c = if c < t then some (∑ k in Finset.range (r + 1), A.elem k c)
          else A.at? r c)
    A (Nat.zero_le _) ⟨rfl, rfl, fun r c _ _ => by simp⟩
    (fun ic W1 _ hic ⟨h1, h2, h3⟩ => by
      beta_reduce
      rw [h1]
      rcases Nat.eq_zero_or_pos A.n_rows with h0 | hpos
      · refine ⟨W1, forLoop_empty _ _ (by omega) _ _, h1, h2, ?_⟩
        intro r c hr _
        omega
      · obtain ⟨W, hW, g1, g2, g3, g4⟩ := forLoop_inv 1 A.n_rows
          (fun ir inner => do
            let a ← inner.get ir ic
            let b ← inner.get (ir - 1) ic
            inner.set ir ic (a + b))
          (fun t W => W.n_rows = A.n_rows ∧ W.n_cols = A.n_cols ∧
            (∀ r c, c ≠ ic → W.at? r c = W1.at? r c) ∧
            ∀ r, r < A.n_rows → W.at? r ic =
              if r < t then some (∑ k in Finset.range (r + 1), A.elem k ic)
              else A.at? r ic)
          W1 hpos
          ⟨h1, h2, fun _ _ _ => rfl, fun r hr => by
            rw [h3 r ic hr hic, if_neg (Nat.lt_irrefl _)]
            by_cases hr0 : r < 1
            · have : r = 0 := by omega
              subst this
              rw [if_pos hr0, Finset.sum_range_one, Mat.at?_eq_elem hr hic]
            · rw [if_neg hr0]⟩
          (fun ir W2 hir1 hir ⟨g1, g2, g3, g4⟩ => by
            have ea : W2.at? ir ic = some (A.elem ir ic) := by
              rw [g4 ir hir, if_neg (Nat.lt_irrefl _), Mat.at?_eq_elem hir hic]
            have eb : W2.at? (ir - 1) ic
                = some (∑ k in Finset.range (ir - 1 + 1), A.elem k ic) := by
              rw [g4 (ir - 1) (by omega), if_pos (by omega)]
            obtain ⟨W3, hW3, r', c', hat⟩ := Mat.set_ok (M := W2)
              (A.elem ir ic + ∑ k in Finset.range (ir - 1 + 1), A.elem k ic)
              (by omega : ir < W2.n_rows) (by omega : ic < W2.n_cols)
            refine ⟨W3, ?_, by omega, by omega, ?_, ?_⟩
            · beta_reduce
              rw [Mat.get_eq_ok.mpr ea, ok_bind, Mat.get_eq_ok.mpr eb, ok_bind]
              exact hW3
            · intro r c hc
              rw [hat, if_neg (fun h => hc h.2)]
              exact g3 r c hc
            · intro r hr
              rw [hat]
              by_cases hri : r = ir
              · subst hri
                rw [if_pos ⟨rfl, rfl⟩, if_pos (Nat.lt_succ_self _)]
                have e : r - 1 + 1 = r := by omega
                rw [e, Finset.sum_range_succ, add_comm]
              · rw [if_neg (fun h => hri h.1), g4 r hr]
                by_cases hlt : r < ir
                · rw [if_pos hlt, if_pos (by omega)]
                · rw [if_neg hlt, if_neg (by omega)])
        refine ⟨W, hW, g1, g2, ?_⟩
        intro r c hr hc
        by_cases hci : c = ic
        · subst hci
          rw [g4 r hr, if_pos hr, if_pos (Nat.lt_succ_self _)]
        · rw [g3 r c hci, h3 r c hr hc]
          by_cases hlt : c < ic
          · rw [if_pos hlt, if_pos (by omega)]
          · rw [if_neg hlt, if_neg (by omega)])
  exact ⟨B, hB, h1, h2, fun r c hr hc => by rw [h3 r c hr hc, if_pos hc]⟩

/-- The regularisation pass: the two loops replace every cell that `std::isnormal`
rejects by zero and leave the other cells as they are. -/
theorem regularize_ok (A : Mat double) :
    ∃ B, forLoop 0 A.n_cols (fun ic bfprod =>
        forLoop 0 bfprod.n_rows (fun ir bfprod => do
          let v ← bfprod.get ir ic
          (if !double.isnormal v then bfprod.set ir ic 0 else pure bfprod)) bfprod) A
        = .ok B ∧
      B.n_rows = A.n_rows ∧ B.n_cols = A.n_cols ∧
      ∀ r c, r < A.n_rows → c < A.n_cols →
        B.at? r c = some (if double.isnormal (A.elem r c) then A.elem r c else 0) := by
  obtain ⟨B, hB, h1, h2, h3⟩ := forLoop_inv 0 A.n_cols
    (fun ic bfprod =>
      forLoop 0 bfprod.n_rows (fun ir bfprod => do
        let v ← bfprod.get ir ic
        (if !double.isnormal v then bfprod.set ir ic 0 else pure bfprod)) bfprod)
    (fun t W => W.n_rows = A.n_rows ∧ W.n_cols = A.n_cols ∧
      ∀ r c, r < A.n_rows → c < A.n_cols →
        W.at? r c = if c < t then
          some (if double.isnormal (A.elem r c) then A.elem r c else 0)
          else A.at? r c)
    A (Nat.zero_le _) ⟨rfl, rfl, fun r c _ _ => by simp⟩
    (fun ic W1 _ hic ⟨h1, h2, h3⟩ => by
      beta_reduce
      rw [h1]
      obtain ⟨W, hW, g1, g2, g3, g4⟩ := forLoop_inv 0 A.n_rows
        (fun ir bfprod => do
          let v ← bfprod.get ir ic
          (if !double.isnormal v then bfprod.set ir ic 0 else pure bfprod))
        (fun t W => W.n_rows = A.n_rows ∧ W.n_cols = A.n_cols ∧
          (∀ r c, c ≠ ic → W.at? r c = W1.at? r c) ∧
          ∀ r, r < A.n_rows → W.at? r ic =
            if r < t then some (if double.isnormal (A.elem r ic) then A.elem r ic else 0)
            else A.at? r ic)
        W1 (Nat.zero_le _)
        ⟨h1, h2, fun _ _ _ => rfl, fun r hr => by
          rw [h3 r ic hr hic, if_neg (Nat.lt_irrefl _), if_neg (Nat.not_lt_zero _)]⟩
        (fun ir W2 _ hir ⟨g1, g2, g3, g4⟩ => by
          have ea : W2.at? ir ic = some (A.elem ir ic) := by
            rw [g4 ir hir, if_neg (Nat.lt_irrefl _), Mat.at?_eq_elem hir hic]
          beta_reduce
          rw [Mat.get_eq_ok.mpr ea, ok_bind]
          by_cases hn : double.isnormal (A.elem ir ic) = true
          · refine ⟨W2, by simp [hn]; rfl, g1, g2, g3, ?_⟩
            intro r hr
            rw [g4 r hr]
            by_cases hri : r = ir
            · subst hri
              rw [if_neg (Nat.lt_irrefl _), if_pos (Nat.lt_succ_self _), if_pos hn,
                Mat.at?_eq_elem hr hic]
            · by_cases hlt : r < ir
              · rw [if_pos hlt, if_pos (show r < ir + 1 by omega)]
              · rw [if_neg hlt, if_neg (show ¬ r < ir + 1 by omega)]
          · obtain ⟨W3, hW3, r', c', hat⟩ := Mat.set_ok (M := W2) (0 : double)
              (by omega : ir < W2.n_rows) (by omega : ic < W2.n_cols)
            refine ⟨W3, by simp [hn]; exact hW3, by omega, by omega, ?_, ?_⟩
            · intro r c hc
              rw [hat, if_neg (fun h => hc h.2)]
              exact g3 r c hc
            · intro r hr
              rw [hat]
              by_cases hri : r = ir
              · subst hri
                rw [if_pos ⟨rfl, rfl⟩, if_pos (Nat.lt_succ_self _), if_neg hn]
              · rw [if_neg (fun h => hri h.1), g4 r hr]
                by_cases hlt : r < ir
                · rw [if_pos hlt, if_pos (show r < ir + 1 by omega)]
                · rw [if_neg hlt, if_neg (show ¬ r < ir + 1 by omega)])
      refine ⟨W, hW, g1, g2, ?_⟩
      intro r c hr hc
      by_cases hci : c = ic
      · subst hci
        rw [g4 r hr, if_pos hr, if_pos (Nat.lt_succ_self _)]
      · rw [g3 r c hci, h3 r c hr hc]
        by_cases hlt : c < ic
        · rw [if_pos hlt, if_pos (show c < ic + 1 by omega)]
        · rw [if_neg hlt, if_neg (show ¬ c < ic + 1 by omega)])
  exact ⟨B, hB, h1, h2, fun r c hr hc => by rw [h3 r c hr hc, if_pos hc]⟩

/-- Cells of `trans(W) * B`. -/
theorem trans_times_ok {α : Type} [AddCommMonoid α] [Mul α] {W B : Mat α}
    (h : W.n_rows = B.n_rows) :
    ∃ P, (W.trans).times B = .ok P ∧ P.n_rows = W.n_cols ∧ P.n_cols = B.n_cols ∧
      ∀ i j, i < W.n_cols → j < B.n_cols →
        P.at? i j = some (∑ k in Finset.range W.n_rows, W.elem k i * B.elem k j) := by
  obtain ⟨P, hP, h1, h2, h3⟩ := Mat.times_ok (A := W.trans) (B := B)
    (by rw [Mat.n_cols_trans]; exact h)
  refine ⟨P, hP, h1, h2, ?_⟩
  intro i j hi hj
  rw [h3 i j hi hj, Mat.n_cols_trans, sum_range_eq_finset]
  simp only [Mat.elem_trans]

/-! ## Nests of four loops writing one cell per index tuple -/

section nest

variable {α : Type} [Zero α] {R C n1 n2 n3 n4 : Nat} {row col : Nat → Nat → Nat → Nat → Nat}
  {val : Nat → Nat → Nat → Nat → α}

theorem Filled.mono {D D' : Nat → Nat → Nat → Nat → Prop} {K : Mat α}
    (h : Filled R C n1 n2 n3 n4 row col val D K)
    (hD : ∀ a b c d, a < n1 → b < n2 → c < n3 → d < n4 → (D' a b c d ↔ D a b c d)) :
    Filled R C n1 n2 n3 n4 row col val D' K := by
  obtain ⟨h1, h2, h3, h4⟩ := h
  refine ⟨h1, h2, ?_, ?_⟩
  · intro a b c d ha hb hc hd hD'
    exact h3 a b c d ha hb hc hd ((hD a b c d ha hb hc hd).mp hD')
  · intro r c' hr hc' hno
    apply h4 r c' hr hc'
    intro a b c d ha hb hc hd hDD
    exact hno a b c d ha hb hc hd ((hD a b c d ha hb hc hd).mpr hDD)

theorem Filled.zeros : Filled R C n1 n2 n3 n4 row col val (fun _ _ _ _ => False)
    (Mat.zeros R C : Mat α) := by
  refine ⟨rfl, Mat.n_cols_zeros R C, ?_, ?_⟩
  · intro a b c d _ _ _ _ hF
    exact absurd hF id
  · intro r c' hr hc' _
    simp [Mat.at?_zeros, hr, hc']

/-- One write of the innermost body. -/
theorem Filled.write {D : Nat → Nat → Nat → Nat → Prop} {K : Mat α}
    (hlt : ∀ a b c d, a < n1 → b < n2 → c < n3 → d < n4 →
      row a b c d < R ∧ col a b c d < C)
    (hinj : ∀ a b c d a' b' c' d', a < n1 → b < n2 → c < n3 → d < n4 →
      a' < n1 → b' < n2 → c' < n3 → d' < n4 →
      row a b c d = row a' b' c' d' → col a b c d = col a' b' c' d' →
      a = a' ∧ b = b' ∧ c = c' ∧ d = d')
    (h : Filled R C n1 n2 n3 n4 row col val D K)
    {i j k l : Nat} (hi : i < n1) (hj : j < n2) (hk : k < n3) (hl : l < n4) :
    ∃ K', K.set (row i j k l) (col i j k l) (val i j k l) = .ok K' ∧
      Filled R C n1 n2 n3 n4 row col val
        (fun a b c d => D a b c d ∨ (a = i ∧ b = j ∧ c = k ∧ d = l)) K' := by
  obtain ⟨h1, h2, h3, h4⟩ := h
  obtain ⟨hrow, hcol⟩ := hlt i j k l hi hj hk hl
  obtain ⟨K', hK', hr', hc', hat⟩ :=
    Mat.set_ok (M := K) (val i j k l) (by omega : row i j k l < K.n_rows)
      (by omega : col i j k l < K.n_cols)
  refine ⟨K', hK', by omega, by omega, ?_, ?_⟩
  · intro a b c d ha hb hc hd hD
    rw [hat]
    by_cases hcell : row a b c d = row i j k l ∧ col a b c d = col i j k l
    · obtain ⟨e1, e2, e3, e4⟩ := hinj a b c d i j k l ha hb hc hd hi hj hk hl hcell.1 hcell.2
      subst e1 e2 e3 e4
      simp
    · rw [if_neg hcell]
      rcases hD with hD | ⟨e1, e2, e3, e4⟩
      · exact h3 a b c d ha hb hc hd hD
      · subst e1 e2 e3 e4
        exact absurd ⟨rfl, rfl⟩ hcell
  · intro r c' hr hcc hno
    rw [hat]
    have hne : ¬ (r = row i j k l ∧ c' = col i j k l) := by
      intro e
      exact hno i j k l hi hj hk hl (Or.inr ⟨rfl, rfl, rfl, rfl⟩) ⟨e.1.symm, e.2.symm⟩
    rw [if_neg hne]
    apply h4 r c' hr hcc
    intro a b c d ha hb hc hd hD
    exact hno a b c d ha hb hc hd (Or.inl hD)

/-- Innermost loop of a nest: it visits the tuples `(i, j, k, l)` for all `l < n4`. -/
theorem Filled.loop4 (body : Nat → Mat α → Except Error (Mat α)) (i j k : Nat)
    (step : ∀ l D K, l < n4 → Filled R C n1 n2 n3 n4 row col val D K →
      ∃ K', body l K = .ok K' ∧ Filled R C n1 n2 n3 n4 row col val
        (fun a b c d => D a b c d ∨ (a = i ∧ b = j ∧ c = k ∧ d = l)) K')
    (D : Nat → Nat → Nat → Nat → Prop) (K : Mat α)
    (h : Filled R C n1 n2 n3 n4 row col val D K) :
    ∃ K', forLoop 0 n4 body K = .ok K' ∧ Filled R C n1 n2 n3 n4 row col val
      (fun a b c d => D a b c d ∨ (a = i ∧ b = j ∧ c = k)) K' := by
  obtain ⟨K', hK', hF⟩ := forLoop_inv 0 n4 body
    (fun t K => Filled R C n1 n2 n3 n4 row col val
      (fun a b c d => D a b c d ∨ (a = i ∧ b = j ∧ c = k ∧ d < t)) K) K (Nat.zero_le _)
    (h.mono (fun a b c d _ _ _ _ => by simp))
    (fun l K1 _ hl hI => by
      obtain ⟨K2, h2, hF2⟩ := step l _ K1 hl hI
      refine ⟨K2, h2, hF2.mono (fun a b c d _ _ _ _ => ?_)⟩
      constructor
      · rintro (h | ⟨e1, e2, e3, e4⟩)
        · exact Or.inl (Or.inl h)
        · rcases Nat.lt_succ_iff_lt_or_eq.mp e4 with h5 | h5
          · exact Or.inl (Or.inr ⟨e1, e2, e3, h5⟩)
          · exact Or.inr ⟨e1, e2, e3, h5⟩
      · rintro ((h | ⟨e1, e2, e3, e4⟩) | ⟨e1, e2, e3, e4⟩)
        · exact Or.inl h
        · exact Or.inr ⟨e1, e2, e3, by omega⟩
        · exact Or.inr ⟨e1, e2, e3, by omega⟩)
  refine ⟨K', hK', hF.mono (fun a b c d _ _ _ hd => ?_)⟩
  constructor
  · rintro (h | ⟨e1, e2, e3⟩)
    · exact Or.inl h
    · exact Or.inr ⟨e1, e2, e3, hd⟩
  · rintro (h | ⟨e1, e2, e3, _⟩)
    · exact Or.inl h
    · exact Or.inr ⟨e1, e2, e3⟩

/-- Third loop of a nest: it visits the tuples `(i, j, k, _)` for all `k < n3`. -/
theorem Filled.loop3 (body : Nat → Mat α → Except Error (Mat α)) (i j : Nat)
    (step : ∀ k D K, k < n3 → Filled R C n1 n2 n3 n4 row col val D K →
      ∃ K', body k K = .ok K' ∧ Filled R C n1 n2 n3 n4 row col val
        (fun a b c d => D a b c d ∨ (a = i ∧ b = j ∧ c = k)) K')
    (D : Nat → Nat → Nat → Nat → Prop) (K : Mat α)
    (h : Filled R C n1 n2 n3 n4 row col val D K) :
    ∃ K', forLoop 0 n3 body K = .ok K' ∧ Filled R C n1 n2 n3 n4 row col val
      (fun a b c d => D a b c d ∨ (a = i ∧ b = j)) K' := by
  obtain ⟨K', hK', hF⟩ := forLoop_inv 0 n3 body
    (fun t K => Filled R C n1 n2 n3 n4 row col val
      (fun a b c d => D a b c d ∨ (a = i ∧ b = j ∧ c < t)) K) K (Nat.zero_le _)
    (h.mono (fun a b c d _ _ _ _ => by simp))
    (fun l K1 _ hl hI => by
      obtain ⟨K2, h2, hF2⟩ := step l _ K1 hl hI
      refine ⟨K2, h2, hF2.mono (fun a b c d _ _ _ _ => ?_)⟩
      constructor
      · rintro (h | ⟨e1, e2, e3⟩)
        · exact Or.inl (Or.inl h)
        · rcases Nat.lt_succ_iff_lt_or_eq.mp e3 with h5 | h5
          · exact Or.inl (Or.inr ⟨e1, e2, h5⟩)
          · exact Or.inr ⟨e1, e2, h5⟩
      · rintro ((h | ⟨e1, e2, e3⟩) | ⟨e1, e2, e3⟩)
        · exact Or.inl h
        · exact Or.inr ⟨e1, e2, by omega⟩
        · exact Or.inr ⟨e1, e2, by omega⟩)
  refine ⟨K', hK', hF.mono (fun a b c d _ _ hc _ => ?_)⟩
  constructor
  · rintro (h | ⟨e1, e2⟩)
    · exact Or.inl h
    · exact Or.inr ⟨e1, e2, hc⟩
  · rintro (h | ⟨e1, e2, _⟩)
    · exact Or.inl h
    · exact Or.inr ⟨e1, e2⟩

/-- Second loop of a nest: it visits the tuples `(i, j, _, _)` for all `j < n2`. -/
theorem Filled.loop2 (body : Nat → Mat α → Except Error (Mat α)) (i : Nat)
    (step : ∀ j D K, j < n2 → Filled R C n1 n2 n3 n4 row col val D K →
      ∃ K', body j K = .ok K' ∧ Filled R C n1 n2 n3 n4 row col val
        (fun a b c d => D a b c d ∨ (a = i ∧ b = j)) K')
    (D : Nat → Nat → Nat → Nat → Prop) (K : Mat α)
    (h : Filled R C n1 n2 n3 n4 row col val D K) :
    ∃ K', forLoop 0 n2 body K = .ok K' ∧ Filled R C n1 n2 n3 n4 row col val
      (fun a b c d => D a b c d ∨ a = i) K' := by
  obtain ⟨K', hK', hF⟩ := forLoop_inv 0 n2 body
    (fun t K => Filled R C n1 n2 n3 n4 row col val
      (fun a b c d => D a b c d ∨ (a = i ∧ b < t)) K) K (Nat.zero_le _)
    (h.mono (fun a b c d _ _ _ _ => by simp))
    (fun l K1 _ hl hI => by
      obtain ⟨K2, h2, hF2⟩ := step l _ K1 hl hI
      refine ⟨K2, h2, hF2.mono (fun a b c d _ _ _ _ => ?_)⟩
      constructor
      · rintro (h | ⟨e1, e2⟩)
        · exact Or.inl (Or.inl h)
        · rcases Nat.lt_succ_iff_lt_or_eq.mp e2 with h5 | h5
          · exact Or.inl (Or.inr ⟨e1, h5⟩)
          · exact Or.inr ⟨e1, h5⟩
      · rintro ((h | ⟨e1, e2⟩) | ⟨e1, e2⟩)
        · exact Or.inl h
        · exact Or.inr ⟨e1, by omega⟩
        · exact Or.inr ⟨e1, by omega⟩)
  refine ⟨K', hK', hF.mono (fun a b c d _ hb _ _ => ?_)⟩
  constructor
  · rintro (h | e1)
    · exact Or.inl h
    · exact Or.inr ⟨e1, hb⟩
  · rintro (h | ⟨e1, _⟩)
    · exact Or.inl h
    · exact Or.inr e1

/-- Outermost loop of a nest: started on the zero matrix it visits every tuple. -/
theorem Filled.loop1 (body : Nat → Mat α → Except Error (Mat α))
    (step : ∀ i D K, i < n1 → Filled R C n1 n2 n3 n4 row col val D K →
      ∃ K', body i K = .ok K' ∧ Filled R C n1 n2 n3 n4 row col val
        (fun a b c d => D a b c d ∨ a = i) K') :
    ∃ K', forLoop 0 n1 body (Mat.zeros R C) = .ok K' ∧ Filled R C n1 n2 n3 n4 row col val
      (fun _ _ _ _ => True) K' := by
  obtain ⟨K', hK', hF⟩ := forLoop_inv 0 n1 body
    (fun t K => Filled R C n1 n2 n3 n4 row col val (fun a _ _ _ => a < t) K)
    (Mat.zeros R C) (Nat.zero_le _)
    (Filled.zeros.mono (fun a b c d _ _ _ _ => by simp))
    (fun l K1 _ hl hI => by
      obtain ⟨K2, h2, hF2⟩ := step l _ K1 hl hI
      refine ⟨K2, h2, hF2.mono (fun a b c d _ _ _ _ => ?_)⟩
      constructor
      · intro e1
        rcases Nat.lt_succ_iff_lt_or_eq.mp e1 with h5 | h5
        · exact Or.inl h5
        · exact Or.inr h5
      · rintro (e1 | e1)
        · omega
        · omega)
  exact ⟨K', hK', hF.mono (fun a b c d ha _ _ _ => by simp [ha])⟩

end nest

/-! ## `exchange_tei` -/

namespace utils

theorem exchange_tei_filled {α : Type} [Zero α] (tei : Mat α) (Ni Nj Nk Nl : Nat)
    (hr : tei.n_rows = Ni * Nj) (hc : tei.n_cols = Nk * Nl) :
    ∃ K, exchange_tei tei Ni Nj Nk Nl = .ok K ∧
      Filled (Nj * Nk) (Ni * Nl) Ni Nj Nk Nl (fun _ jj kk _ => kk * Nj + jj)
        (fun ii _ _ ll => ll * Ni + ii)
        (fun ii jj kk ll => (tei.at? (jj * Ni + ii) (ll * Nk + kk)).getD 0)
        (fun _ _ _ _ => True) K := by
  have hlt : ∀ a b c d, a < Ni → b < Nj → c < Nk → d < Nl →
      c * Nj + b < Nj * Nk ∧ d * Ni + a < Ni * Nl :=
    fun a b c d ha hb hc hd => ⟨pair_lt hb hc, pair_lt ha hd⟩
  have hinj : ∀ a b c d a' b' c' d', a < Ni → b < Nj → c < Nk → d < Nl →
      a' < Ni → b' < Nj → c' < Nk → d' < Nl →
      c * Nj + b = c' * Nj + b' → d * Ni + a = d' * Ni + a' →
      a = a' ∧ b = b' ∧ c = c' ∧ d = d' := by
    intro a b c d a' b' c' d' ha hb _ _ ha' hb' _ _ e1 e2
    obtain ⟨x1, x2⟩ := pair_inj hb hb' e1
    obtain ⟨y1, y2⟩ := pair_inj ha ha' e2
    exact ⟨y1, x1, x2, y2⟩
  simp only [exchange_tei, hr, hc, ne_eq, not_true_eq_false, if_false]
  apply Filled.loop1
  intro ii D K hii hF
  apply Filled.loop2 _ ii _ D K hF
  intro jj D K hjj hF
  apply Filled.loop3 _ ii jj _ D K hF
  intro kk D K hkk hF
  apply Filled.loop4 _ ii jj kk _ D K hF
  intro ll D K hll hF
  obtain ⟨v, hv, hv'⟩ := Mat.get_ok_of_lt (M := tei)
    (by rw [hr]; exact pair_lt hii hjj : jj * Ni + ii < tei.n_rows)
    (by rw [hc]; exact pair_lt hkk hll : ll * Nk + kk < tei.n_cols)
  obtain ⟨K', hK', hF'⟩ := Filled.write hlt hinj hF hii hjj hkk hll
  refine ⟨K', ?_, hF'⟩
  rw [hv]
  simp only [hv', Option.getD_some] at hK'
  exact hK'

/-- On an input of the declared shape `exchange_tei` returns the matrix of shape
`(Nj*Nk) x (Ni*Nl)` with `output(kk*Nj+jj, ll*Ni+ii) = input(jj*Ni+ii, ll*Nk+kk)`. -/
theorem exchange_tei_cells {α : Type} [Zero α] (tei : Mat α) (Ni Nj Nk Nl : Nat)
    (hr : tei.n_rows = Ni * Nj) (hc : tei.n_cols = Nk * Nl) :
    ∃ K, exchange_tei tei Ni Nj Nk Nl = .ok K ∧ K.n_rows = Nj * Nk ∧ K.n_cols = Ni * Nl ∧
      (∀ ii jj kk ll, ii < Ni → jj < Nj → kk < Nk → ll < Nl →
        ∃ v, tei.at? (jj * Ni + ii) (ll * Nk + kk) = some v ∧
          K.at? (kk * Nj + jj) (ll * Ni + ii) = some v) := by
  obtain ⟨K, hK, h1, h2, h3, _⟩ := exchange_tei_filled tei Ni Nj Nk Nl hr hc
  refine ⟨K, hK, h1, h2, ?_⟩
  intro ii jj kk ll hii hjj hkk hll
  obtain ⟨v, hv⟩ := Mat.at?_isSome (M := tei)
    (by rw [hr]; exact pair_lt hii hjj : jj * Ni + ii < tei.n_rows)
    (by rw [hc]; exact pair_lt hkk hll : ll * Nk + kk < tei.n_cols)
  refine ⟨v, hv, ?_⟩
  have h := h3 ii jj kk ll hii hjj hkk hll trivial
  simp only [hv, Option.getD_some] at h
  exact h

/-- With unbounded index products, `exchange_tei` throws exactly when
`rows(tei) != Ni*Nj` or `cols(tei) != Nk*Nl`; when both equalities hold it returns a matrix,
and every cell `(jj*Ni+ii, ll*Nk+kk)` of `tei` that the loops read exists, so that no read
is out of range. -/
theorem exchange_tei_error_iff {α : Type} [Zero α] (tei : Mat α) (Ni Nj Nk Nl : Nat) :
    ((∃ e, exchange_tei tei Ni Nj Nk Nl = .error e) ↔
      (tei.n_rows ≠ Ni * Nj ∨ tei.n_cols ≠ Nk * Nl)) ∧
    ((tei.n_rows = Ni * Nj ∧ tei.n_cols = Nk * Nl) →
      (∃ K, exchange_tei tei Ni Nj Nk Nl = .ok K) ∧
      ∀ ii jj kk ll, ii < Ni → jj < Nj → kk < Nk → ll < Nl →
        ∃ v, tei.get (jj * Ni + ii) (ll * Nk + kk) = .ok v) := by
  have hok : (tei.n_rows = Ni * Nj ∧ tei.n_cols = Nk * Nl) →
      (∃ K, exchange_tei tei Ni Nj Nk Nl = .ok K) ∧
      ∀ ii jj kk ll, ii < Ni → jj < Nj → kk < Nk → ll < Nl →
        ∃ v, tei.get (jj * Ni + ii) (ll * Nk + kk) = .ok v := by
    rintro ⟨hr, hc⟩
    obtain ⟨K, hK, _⟩ := exchange_tei_filled tei Ni Nj Nk Nl hr hc
    refine ⟨⟨K, hK⟩, ?_⟩
    intro ii jj kk ll hii hjj hkk hll
    obtain ⟨v, hv, _⟩ := Mat.get_ok_of_lt (M := tei)
      (by rw [hr]; exact pair_lt hii hjj : jj * Ni + ii < tei.n_rows)
      (by rw [hc]; exact pair_lt hkk hll : ll * Nk + kk < tei.n_cols)
    exact ⟨v, hv⟩
  refine ⟨⟨?_, ?_⟩, hok⟩
  · rintro ⟨e, he⟩
    by_contra hn
    have hr : tei.n_rows = Ni * Nj := by
      by_contra h; exact hn (Or.inl h)
    have hc : tei.n_cols = Nk * Nl := by
      by_contra h; exact hn (Or.inr h)
    obtain ⟨⟨K, hK⟩, _⟩ := hok ⟨hr, hc⟩
    rw [hK] at he
    exact absurd he (by simp)
  · intro h
    by_cases hr : tei.n_rows = Ni * Nj
    · have hc : tei.n_cols ≠ Nk * Nl := by
        rcases h with h | h
        · exact absurd hr h
        · exact h
      simp only [exchange_tei, hr, hc, ne_eq, not_true_eq_false, if_false,
        not_false_eq_true, if_true]
      exact ⟨_, rfl⟩
    · simp only [exchange_tei, hr, ne_eq, not_false_eq_true, if_true]
      exact ⟨_, rfl⟩

theorem product_tei_filled {α : Type} [Zero α] [Mul α] (ijint klint : Mat α) :
    ∃ K, product_tei ijint klint = .ok K ∧
      Filled (ijint.n_rows * ijint.n_cols) (klint.n_rows * klint.n_cols)
        klint.n_rows klint.n_cols ijint.n_rows ijint.n_cols
        (fun _ _ fi fj => fj * ijint.n_rows + fi)
        (fun fk fl _ _ => fl * klint.n_rows + fk)
        (fun fk fl fi fj => klint.elem fk fl * ijint.elem fi fj)
        (fun _ _ _ _ => True) K := by
  have hlt : ∀ a b c d, a < klint.n_rows → b < klint.n_cols → c < ijint.n_rows →
      d < ijint.n_cols → d * ijint.n_rows + c < ijint.n_rows * ijint.n_cols ∧
        b * klint.n_rows + a < klint.n_rows * klint.n_cols :=
    fun a b c d ha hb hc hd => ⟨pair_lt hc hd, pair_lt ha hb⟩
  have hinj : ∀ a b c d a' b' c' d', a < klint.n_rows → b < klint.n_cols →
      c < ijint.n_rows → d < ijint.n_cols → a' < klint.n_rows → b' < klint.n_cols →
      c' < ijint.n_rows → d' < ijint.n_cols →
      d * ijint.n_rows + c = d' * ijint.n_rows + c' →
      b * klint.n_rows + a = b' * klint.n_rows + a' →
      a = a' ∧ b = b' ∧ c = c' ∧ d = d' := by
    intro a b c d a' b' c' d' ha _ hc _ ha' _ hc' _ e1 e2
    obtain ⟨x1, x2⟩ := pair_inj hc hc' e1
    obtain ⟨y1, y2⟩ := pair_inj ha ha' e2
    exact ⟨y1, y2, x1, x2⟩
  simp only [product_tei]
  apply Filled.loop1
  intro fk D K hfk hF
  apply Filled.loop2 _ fk _ D K hF
  intro fl D K hfl hF
  obtain ⟨kl, hkl, hkl'⟩ := Mat.get_ok_of_lt (M := klint) hfk hfl
  rw [hkl, ok_bind]
  apply Filled.loop3 _ fk fl _ D K hF
  intro fi D K hfi hF
  apply Filled.loop4 _ fk fl fi _ D K hF
  intro fj D K hfj hF
  obtain ⟨ij, hij, hij'⟩ := Mat.get_ok_of_lt (M := ijint) hfi hfj
  obtain ⟨K', hK', hF'⟩ := Filled.write hlt hinj hF hfk hfl hfi hfj
  refine ⟨K', ?_, hF'⟩
  rw [hij]
  simp only [Mat.elem_eq hkl', Mat.elem_eq hij'] at hK'
  exact hK'

/-- C4: for `ijint` of shape `Ni x Nj` and `klint` of shape `Nk x Nl`, `product_tei`
returns a matrix of shape `(Ni*Nj) x (Nk*Nl)` whose cell at row `j*Ni+i` and column
`l*Nk+k` holds `ijint(i,j) * klint(k,l)`, for all `i < Ni`, `j < Nj`, `k < Nk`, `l < Nl`. -/
theorem product_tei_entries {α : Type} [Zero α] [CommMagma α] (ijint klint : Mat α) :
    ∃ K, product_tei ijint klint = .ok K ∧
      K.n_rows = ijint.n_rows * ijint.n_cols ∧ K.n_cols = klint.n_rows * klint.n_cols ∧
      ∀ i j k l, i < ijint.n_rows → j < ijint.n_cols → k < klint.n_rows → l < klint.n_cols →
        ∃ a b, ijint.at? i j = some a ∧ klint.at? k l = some b ∧
          K.at? (j * ijint.n_rows + i) (l * klint.n_rows + k) = some (a * b) := by
  obtain ⟨K, hK, h1, h2, h3, _⟩ := product_tei_filled ijint klint
  refine ⟨K, hK, h1, h2, ?_⟩
  intro i j k l hi hj hk hl
  refine ⟨ijint.elem i j, klint.elem k l, Mat.at?_eq_elem hi hj, Mat.at?_eq_elem hk hl, ?_⟩
  rw [h3 k l i j hk hl hi hj trivial, mul_comm]

end utils

/-! ## `derivative_integral` -/

namespace quadrature

theorem derivative_integral_ok (rmin rmax : ℚ) (x wx : Vec ℚ) (dbf : Mat ℚ)
    (hx : x.n_elem = wx.n_elem) (hb : x.n_elem = dbf.n_rows) :
    ∃ R, derivative_integral rmin rmax x wx dbf = .ok R ∧
      R.n_rows = dbf.n_cols ∧ R.n_cols = dbf.n_cols ∧
      ∀ i j, i < dbf.n_cols → j < dbf.n_cols → R.at? i j =
        some (∑ k in Finset.range dbf.n_rows,
          (double.fin (dbf.elem k i) * double.div (wx.getD k 0) (0.5 * (rmax - rmin))) *
            double.fin (dbf.elem k j)) := by
  have hwp : (wx.map (fun w => double.div w (0.5 * (rmax - rmin)))).length
      = (dbf.map double.fin).n_rows := by
    rw [List.length_map, Mat.n_rows_map]
    exact hx.symm.trans hb
  obtain ⟨W, hW, h1, h2, h3⟩ := weight_cols_ok (dbf.map double.fin) _ hwp
  rw [Mat.n_cols_map] at hW h2 h3
  rw [Mat.n_rows_map] at h1 h3
  obtain ⟨P, hP, p1, p2, p3⟩ := trans_times_ok (W := W) (B := dbf.map double.fin)
    (by rw [h1, Mat.n_rows_map])
  rw [Mat.n_cols_map] at p2 p3
  refine ⟨P, ?_, by omega, by omega, ?_⟩
  · unfold derivative_integral
    rw [if_neg (not_not.mpr hx), if_neg (not_not.mpr hb)]
    dsimp only
    rw [hW, ok_bind]
    exact hP
  · intro i j hi hj
    rw [p3 i j (by omega) hj, h1]
    congr 1
    apply Finset.sum_congr rfl
    intro k hk
    have hk' : k < dbf.n_rows := Finset.mem_range.mp hk
    have e1 : W.elem k i = double.fin (dbf.elem k i) *
        double.div (wx.getD k 0) (0.5 * (rmax - rmin)) := by
      rw [Mat.elem_eq (h3 k i hk' hi)]
      congr 1
      · exact Mat.elem_map _ hk' hi
      · rw [Vec.getD_map]
        rw [← hb, hx] at hk'
        exact hk'
    have e2 : (dbf.map double.fin).elem k j = double.fin (dbf.elem k j) :=
      Mat.elem_map _ hk' hj
    rw [e1, e2]

/-- C7: for `rmin != rmax` and `len(x) = len(wx) = rows(dbf) = N`, `derivative_integral`
returns the `M x M` matrix with `result(i,j)` the sum over `k < N` of
`(wx_k / halfLength) * dbf(k,i) * dbf(k,j)`, where `halfLength = (rmax - rmin)/2`, and the
result is the same for every vector of nodes `x` of that length. -/
theorem derivative_integral_entries (rmin rmax : ℚ) (x wx : Vec ℚ) (dbf : Mat ℚ)
    (hne : rmin ≠ rmax) (hx : x.n_elem = wx.n_elem) (hb : x.n_elem = dbf.n_rows) :
    ∃ R, derivative_integral rmin rmax x wx dbf = .ok R ∧
      R.n_rows = dbf.n_cols ∧ R.n_cols = dbf.n_cols ∧
      (∀ i j, i < dbf.n_cols → j < dbf.n_cols → R.at? i j =
        some (double.fin (∑ k in Finset.range dbf.n_rows,
          wx.getD k 0 / ((rmax - rmin) / 2) * dbf.elem k i * dbf.elem k j))) ∧
      (∀ x' : Vec ℚ, x'.n_elem = x.n_elem →
        derivative_integral rmin rmax x' wx dbf = .ok R) := by
  have hlen : (0.5 : ℚ) * (rmax - rmin) ≠ 0 := by
    intro h
    apply hne
    have : rmax - rmin = 0 := by
      rcases mul_eq_zero.mp h with h1 | h1
      · norm_num at h1
      · exact h1
    linarith
  have key : ∀ (y : Vec ℚ), y.n_elem = wx.n_elem → y.n_elem = dbf.n_rows →
      ∃ R, derivative_integral rmin rmax y wx dbf = .ok R ∧
        R.n_rows = dbf.n_cols ∧ R.n_cols = dbf.n_cols ∧
        ∀ i j, i < dbf.n_cols → j < dbf.n_cols → R.at? i j =
          some (double.fin (∑ k in Finset.range dbf.n_rows,
            wx.getD k 0 / ((rmax - rmin) / 2) * dbf.elem k i * dbf.elem k j)) := by
    intro y hy1 hy2
    obtain ⟨R, hR, r1, r2, r3⟩ := derivative_integral_ok rmin rmax y wx dbf hy1 hy2
    refine ⟨R, hR, r1, r2, ?_⟩
    intro i j hi hj
    rw [r3 i j hi hj, ← double.fin_sum]
    congr 1
    apply Finset.sum_congr rfl
    intro k _
    rw [double.div_ne_zero hlen, double.fin_mul, double.fin_mul]
    congr 1
    have e : (0.5 : ℚ) * (rmax - rmin) = (rmax - rmin) / 2 := by norm_num; ring
    rw [e]
    ring
  obtain ⟨R, hR, r1, r2, r3⟩ := key x hx hb
  refine ⟨R, hR, r1, r2, r3, ?_⟩
  intro x' hx'
  obtain ⟨R', hR', r1', r2', r3'⟩ := key x' (hx'.trans hx) (hx'.trans hb)
  rw [hR']
  congr 1
  apply Mat.ext_at? (r1'.trans r1.symm) (r2'.trans r2.symm)
  intro r c hr hc
  rw [r3' r c (by omega) (by omega), r3 r c (by omega) (by omega)]

theorem derivative_integral_entries_witness :
    (0 : ℚ) ≠ 2 ∧ x3.n_elem = wx3.n_elem ∧ x3.n_elem = bf32.n_rows ∧
    ∃ R, derivative_integral 0 2 x3 wx3 bf32 = .ok R ∧ R.n_rows = 2 ∧ R.n_cols = 2 :=
  ⟨by decide, by decide, by decide,
    match derivative_integral_entries 0 2 x3 wx3 bf32 (by decide) (by decide) (by decide) with
    | ⟨R, h⟩ => ⟨R, h.1, h.2.1, h.2.2.1⟩⟩

/-! ## `radial_integral` -/

theorem double.pow_zero (a : double) : double.pow a 0 = 1 := by
  cases a <;> simp [double.pow, double.one_def]

theorem radial_integral_ok (rmin rmax : ℚ) (n : Int) (x wx : Vec ℚ) (bf : Mat ℚ)
    (hx : x.n_elem = wx.n_elem) (hb : x.n_elem = bf.n_rows) :
    ∃ R, radial_integral rmin rmax n x wx bf = .ok R ∧
      R.n_rows = bf.n_cols ∧ R.n_cols = bf.n_cols ∧
      ∀ i j, i < bf.n_cols → j < bf.n_cols → R.at? i j =
        some (∑ k in Finset.range bf.n_rows,
          (double.fin (bf.elem k i) * (double.fin (wx.getD k 0 * (0.5 * (rmax - rmin))) *
              double.pow (double.fin (0.5 * (rmax + rmin) * 1 +
                0.5 * (rmax - rmin) * x.getD k 0)) n)) *
            double.fin (bf.elem k j)) := by
  -- the weights
  have hwp : ∃ wp : Vec double,
      (if n ≠ 0 then Vec.schur (wx.map (fun w => double.fin (w * (0.5 * (rmax - rmin)))))
          ((x.map (fun xk => 0.5 * (rmax + rmin) * 1 + 0.5 * (rmax - rmin) * xk)).map
            (fun rk => double.pow (double.fin rk) n))
        else pure (wx.map (fun w => double.fin (w * (0.5 * (rmax - rmin)))))) = .ok wp ∧
      wp.length = bf.n_rows ∧
      ∀ k, k < bf.n_rows → wp.getD k 0 =
        double.fin (wx.getD k 0 * (0.5 * (rmax - rmin))) *
          double.pow (double.fin (0.5 * (rmax + rmin) * 1 +
            0.5 * (rmax - rmin) * x.getD k 0)) n := by
    by_cases hn : n = 0
    · subst hn
      refine ⟨_, by rw [if_neg (by simp)]; rfl, ?_, ?_⟩
      · rw [List.length_map]; exact hx.symm.trans hb
      · intro k hk
        rw [Vec.getD_map _ (by rw [← hb, hx] at hk; exact hk), double.pow_zero, mul_one]
    · obtain ⟨w, hw, hwl, hwk⟩ := Vec.schur_ok
        (a := wx.map (fun w => double.fin (w * (0.5 * (rmax - rmin)))))
        (b := (x.map (fun xk => 0.5 * (rmax + rmin) * 1 + 0.5 * (rmax - rmin) * xk)).map
            (fun rk => double.pow (double.fin rk) n))
        (by simp only [List.length_map]; exact hx.symm)
      rw [List.length_map] at hwl hwk
      refine ⟨w, by rw [if_pos hn]; exact hw, by rw [hwl]; exact hx.symm.trans hb, ?_⟩
      intro k hk
      have hkw : k < wx.length := by rw [← hb, hx] at hk; exact hk
      have hkx : k < x.length := by rw [← hb] at hk; exact hk
      have := hwk k hkw
      rw [List.getD_eq_getElem?_getD, this, Option.getD_some, Vec.getD_map _ hkw,
        Vec.getD_map _ (by rw [List.length_map]; exact hkx), Vec.getD_map _ hkx]
  obtain ⟨wp, hwp1, hwp2, hwp3⟩ := hwp
  obtain ⟨W, hW, h1, h2, h3⟩ := weight_cols_ok (bf.map double.fin) wp
    (by rw [Mat.n_rows_map]; exact hwp2)
  rw [Mat.n_cols_map] at hW h2 h3
  rw [Mat.n_rows_map] at h1 h3
  obtain ⟨P, hP, p1, p2, p3⟩ := trans_times_ok (W := W) (B := bf.map double.fin)
    (by rw [h1, Mat.n_rows_map])
  rw [Mat.n_cols_map] at p2 p3
  refine ⟨P, ?_, by omega, by omega, ?_⟩
  · unfold radial_integral
    rw [if_neg (not_not.mpr hx), if_neg (not_not.mpr hb)]
    dsimp only
    rw [hwp1, ok_bind, hW, ok_bind]
    exact hP
  · intro i j hi hj
    rw [p3 i j (by omega) hj, h1]
    congr 1
    apply Finset.sum_congr rfl
    intro k hk
    have hk' : k < bf.n_rows := Finset.mem_range.mp hk
    rw [Mat.elem_eq (h3 k i hk' hi), Mat.elem_map _ hk' hi, Mat.elem_map _ hk' hj, hwp3 k hk']

/-- C2: for `len(x) = len(wx) = rows(bf) = N`, `radial_integral` returns the `M x M` matrix
with `result(i,j)` the sum over `k < N` of `wx_k * halfLength * r_k^n * bf(k,i) * bf(k,j)`,
where `halfLength = (rmax - rmin)/2` and `r_k = (rmax + rmin)/2 + halfLength * x_k`; for
`n = 0`, where the code skips the power, `result(i,i)` is the sum of
`wx_k * halfLength * bf(k,i)^2`. -/
theorem radial_integral_entries (rmin rmax : ℚ) (n : Int) (x wx : Vec ℚ) (bf : Mat ℚ)
    (hx : x.n_elem = wx.n_elem) (hb : x.n_elem = bf.n_rows) :
    ∃ R, radial_integral rmin rmax n x wx bf = .ok R ∧
      R.n_rows = bf.n_cols ∧ R.n_cols = bf.n_cols ∧
      (∀ i j, i < bf.n_cols → j < bf.n_cols → R.at? i j =
        some (∑ k in Finset.range bf.n_rows,
          double.fin (wx.getD k 0) * double.fin ((rmax - rmin) / 2) *
            double.pow (double.fin ((rmax + rmin) / 2 + (rmax - rmin) / 2 * x.getD k 0)) n *
            double.fin (bf.elem k i) * double.fin (bf.elem k j))) ∧
      (n = 0 → ∀ i, i < bf.n_cols → R.at? i i =
        some (double.fin (∑ k in Finset.range bf.n_rows,
          wx.getD k 0 * ((rmax - rmin) / 2) * bf.elem k i ^ 2))) := by
  obtain ⟨R, hR, r1, r2, r3⟩ := radial_integral_ok rmin rmax n x wx bf hx hb
  have e1 : (0.5 : ℚ) * (rmax - rmin) = (rmax - rmin) / 2 := by norm_num; ring
  have e2 : ∀ t : ℚ, 0.5 * (rmax + rmin) * 1 + 0.5 * (rmax - rmin) * t
      = (rmax + rmin) / 2 + (rmax - rmin) / 2 * t := by
    intro t; norm_num; ring
  have main : ∀ i j, i < bf.n_cols → j < bf.n_cols → R.at? i j =
      some (∑ k in Finset.range bf.n_rows,
        double.fin (wx.getD k 0) * double.fin ((rmax - rmin) / 2) *
          double.pow (double.fin ((rmax + rmin) / 2 + (rmax - rmin) / 2 * x.getD k 0)) n *
          double.fin (bf.elem k i) * double.fin (bf.elem k j)) := by
    intro i j hi hj
    rw [r3 i j hi hj]
    congr 1
    apply Finset.sum_congr rfl
    intro k _
    rw [e2, e1, ← double.fin_mul]
    ac_rfl
  refine ⟨R, hR, r1, r2, main, ?_⟩
  intro hn i hi
  subst hn
  rw [main i i hi hi, ← double.fin_sum]
  congr 1
  apply Finset.sum_congr rfl
  intro k _
  rw [double.pow_zero, mul_one, double.fin_mul, double.fin_mul, double.fin_mul]
  congr 1
  ring

theorem radial_integral_entries_witness :
    x3.n_elem = wx3.n_elem ∧ x3.n_elem = bf32.n_rows ∧
    ∃ R, radial_integral 0 2 0 x3 wx3 bf32 = .ok R ∧ R.n_rows = 2 ∧ R.n_cols = 2 :=
  ⟨by decide, by decide,
    match radial_integral_entries 0 2 0 x3 wx3 bf32 (by decide) (by decide) with
    | ⟨R, h⟩ => ⟨R, h.1, h.2.1, h.2.2.1⟩⟩

/-! ## `twoe_inner_integral` -/

theorem double.pow_one (a : double) : double.pow a 1 = a := by
  cases a <;> simp [double.pow]

theorem double.pow_two (a : double) : double.pow a 2 = a * a := by
  cases a with
  | fin q =>
    show double.pow (double.fin q) 2 = double.fin (q * q)
    have : q ^ (2 : ℤ) = q * q := zpow_two q
    simp [double.pow, this]
  | nonfin => rfl

/-- The weights of the inner integral: whatever branch of the `switch` is taken, the
weight of node `k` is `wx_k * rlen * fracr_k^L`. -/
theorem inner_weights_ok (rlen : ℚ) (wx : Vec ℚ) (fracr : Vec double) (L : Int)
    (h : wx.length = fracr.length) :
    ∃ wp : Vec double,
      (if L = 0 then pure (wx.map (fun w => double.fin (w * rlen)))
        else if L = 1 then Vec.schur (wx.map (fun w => double.fin (w * rlen))) fracr
        else if L = 2 then
          Vec.schur (wx.map (fun w => double.fin (w * rlen))) (fracr.map (fun f => f * f))
        else Vec.schur (wx.map (fun w => double.fin (w * rlen)))
          (fracr.map (fun f => double.pow f L))) = Except.ok wp ∧
      wp.length = wx.length ∧
      ∀ k, k < wx.length →
        wp.getD k 0 = double.fin (wx.getD k 0 * rlen) * double.pow (fracr.getD k 0) L := by
  have base : ∀ (g : double → double) (hg : ∀ f, g f = double.pow f L),
      ∃ wp : Vec double,
        Vec.schur (wx.map (fun w => double.fin (w * rlen))) (fracr.map g) = Except.ok wp ∧
        wp.length = wx.length ∧
        ∀ k, k < wx.length →
          wp.getD k 0 = double.fin (wx.getD k 0 * rlen) * double.pow (fracr.getD k 0) L := by
    intro g hg
    obtain ⟨w, hw, hwl, hwk⟩ := Vec.schur_ok
      (a := wx.map (fun w => double.fin (w * rlen))) (b := fracr.map g)
      (by simp only [List.length_map]; exact h)
    rw [List.length_map] at hwl hwk
    refine ⟨w, hw, hwl, ?_⟩
    intro k hk
    rw [List.getD_eq_getElem?_getD, hwk k hk, Option.getD_some, Vec.getD_map _ hk,
      Vec.getD_map _ (h ▸ hk), hg]
  by_cases h0 : L = 0
  · subst h0
    refine ⟨_, by rw [if_pos rfl]; rfl, by rw [List.length_map], ?_⟩
    intro k hk
    rw [Vec.getD_map _ hk, double.pow_zero, mul_one]
  · rw [if_neg h0]
    by_cases h1 : L = 1
    · subst h1
      rw [if_pos rfl]
      have := base id (fun f => (double.pow_one f).symm)
      rw [List.map_id] at this
      exact this
    · rw [if_neg h1]
      by_cases h2 : L = 2
      · subst h2
        rw [if_pos rfl]
        exact base _ (fun f => (double.pow_two f).symm)
      · rw [if_neg h2]
        exact base _ (fun _ => rfl)

theorem twoe_inner_integral_ok (rmin rmax : ℚ) (x wx : Vec ℚ) (bf : Mat ℚ) (L : Int)
    (hx : x.n_elem = wx.n_elem) (hb : x.n_elem = bf.n_rows) :
    ∃ I, twoe_inner_integral rmin rmax x wx bf L = .ok I ∧
      I.n_rows = bf.n_rows ∧ I.n_cols = bf.n_cols * bf.n_cols ∧
      ∀ r i j, r < bf.n_rows → i < bf.n_cols → j < bf.n_cols →
        I.at? r (i * bf.n_cols + j) = some (∑ k in Finset.range (r + 1),
          double.fin (bf.elem k i * bf.elem k j) *
            (double.fin (wx.getD k 0 * (0.5 * (rmax - rmin))) *
              double.pow (double.div (0.5 * (rmax + rmin) * 1 +
                0.5 * (rmax - rmin) * x.getD k 0) rmax) L)) := by
  obtain ⟨P, hP, p1, p2, p3⟩ := bfprod_ok bf
  obtain ⟨wp, hwp, hwpl, hwpk⟩ := inner_weights_ok (0.5 * (rmax - rmin)) wx
    (x.map (fun xk => double.div (0.5 * (rmax + rmin) * 1 + 0.5 * (rmax - rmin) * xk) rmax))
    L (by rw [List.length_map]; exact hx.symm)
  obtain ⟨W, hW, w1, w2, w3⟩ := assign_cols_ok (P.map double.fin)
    (Mat.zeros P.n_rows P.n_cols) wp rfl
    (by rw [Mat.n_cols_zeros, Mat.n_cols_map])
    (fun _ => by rw [hwpl, Mat.n_rows_map, p1]; exact hx.symm.trans hb)
  rw [Mat.n_cols_map] at hW w2 w3
  rw [Mat.n_rows_map] at w1 w3
  obtain ⟨I, hI, i1, i2, i3⟩ := running_sum_ok W
  refine ⟨I, ?_, by omega, by omega, ?_⟩
  · unfold twoe_inner_integral
    dsimp only
    rw [hP, ok_bind, hwp, ok_bind, hW, ok_bind]
    exact hI
  · intro r i j hr hi hj
    have hcol : i * bf.n_cols + j < bf.n_cols * bf.n_cols := by
      rw [Nat.mul_comm i]; exact pair_lt' hj hi
    rw [i3 r _ (by omega) (by omega)]
    congr 1
    apply Finset.sum_congr rfl
    intro k hk
    have hk' : k < bf.n_rows := by
      have := Finset.mem_range.mp hk
      omega
    have hkw : k < wx.length := by rw [← hb, hx] at hk'; exact hk'
    have hkx : k < x.length := by rw [← hb] at hk'; exact hk'
    rw [Mat.elem_eq (w3 k _ (by omega) (by omega)),
      Mat.elem_map _ (by omega) (by omega), Mat.elem_eq (p3 k i j hk' hi hj),
      hwpk k hkw, Vec.getD_map _ hkx]

/-! ## `twoe_integral` -/

/-- What `twoe_integral` computes on an accepted input: with `P` the product functions,
`G` the regularised outer-weighted products and `I` the inner integrals, the result is
`T + trans(T)` for `T(a, b)` the sum over the nodes `k` of `(s * G(k, a)) * I(k, b)`. -/
theorem twoe_integral_ok (M_PI rmin rmax : ℚ) (x wx : Vec ℚ) (bf : Mat ℚ) (L : Int)
    (hx : x.n_elem = wx.n_elem) (hb : x.n_elem = bf.n_rows) :
    ∃ (R I G : Mat double) (P : Mat ℚ),
      twoe_integral M_PI rmin rmax x wx bf L = .ok R ∧
      twoe_inner_integral rmin rmax x wx bf L = .ok I ∧
      I.n_rows = bf.n_rows ∧ I.n_cols = bf.n_cols * bf.n_cols ∧
      G.n_rows = bf.n_rows ∧ G.n_cols = bf.n_cols * bf.n_cols ∧
      P.n_rows = bf.n_rows ∧ P.n_cols = bf.n_cols * bf.n_cols ∧
      (∀ r fi fj, r < bf.n_rows → fi < bf.n_cols → fj < bf.n_cols →
        P.at? r (fi * bf.n_cols + fj) = some (bf.elem r fi * bf.elem r fj)) ∧
      (∀ k a, k < bf.n_rows → a < bf.n_cols * bf.n_cols →
        G.elem k a =
          if double.isnormal (double.fin (P.elem k a) *
              double.div (wx.getD k 0 * (0.5 * (rmax - rmin)))
                (0.5 * (rmax + rmin) * 1 + 0.5 * (rmax - rmin) * x.getD k 0))
          then double.fin (P.elem k a) *
              double.div (wx.getD k 0 * (0.5 * (rmax - rmin)))
                (0.5 * (rmax + rmin) * 1 + 0.5 * (rmax - rmin) * x.getD k 0)
          else 0) ∧
      R.n_rows = bf.n_cols * bf.n_cols ∧ R.n_cols = bf.n_cols * bf.n_cols ∧
      ∀ a b, a < bf.n_cols * bf.n_cols → b < bf.n_cols * bf.n_cols →
        R.at? a b = some (
          (∑ k in Finset.range bf.n_rows,
            (double.div (4.0 * M_PI) ((2 * L + 1 : Int) : ℚ) * G.elem k a) * I.elem k b) +
          (∑ k in Finset.range bf.n_rows,
            (double.div (4.0 * M_PI) ((2 * L + 1 : Int) : ℚ) * G.elem k b) * I.elem k a))
    := by
  obtain ⟨P, hP, p1, p2, p3⟩ := bfprod_ok bf
  obtain ⟨I, hI, i1, i2, _⟩ := twoe_inner_integral_ok rmin rmax x wx bf L hx hb
  obtain ⟨wq, hwq, hwql, hwqk⟩ := Vec.quot_ok
    (a := wx.map (fun w => w * (0.5 * (rmax - rmin))))
    (b := x.map (fun xk => 0.5 * (rmax + rmin) * 1 + 0.5 * (rmax - rmin) * xk))
    (by simp only [List.length_map]; exact hx.symm)
  rw [List.length_map] at hwql hwqk
  obtain ⟨W, hW, w1, w2, w3⟩ := weight_cols_ok (P.map double.fin) wq
    (by rw [Mat.n_rows_map, hwql, p1]; exact hx.symm.trans hb)
  obtain ⟨G, hG, g1, g2, g3⟩ := regularize_ok W
  have gr : G.n_rows = bf.n_rows := by rw [g1, w1, Mat.n_rows_map, p1]
  have gc : G.n_cols = bf.n_cols * bf.n_cols := by rw [g2, w2, Mat.n_cols_map, p2]
  obtain ⟨T, hT, t1, t2, t3⟩ := Mat.times_ok
    (A := Mat.scale (double.div (4.0 * M_PI) ((2 * L + 1 : Int) : ℚ)) (Mat.trans G)) (B := I)
    (by rw [Mat.n_cols_scale, Mat.n_cols_trans, gr, i1])
  rw [Mat.n_rows_scale, Mat.n_rows_trans] at t1 t3
  rw [Mat.n_cols_scale, Mat.n_cols_trans] at t3
  obtain ⟨R, hR, r1, r2, r3⟩ := Mat.plus_ok (A := T) (B := Mat.trans T)
    (by rw [Mat.n_rows_trans, t1, t2, gc, i2])
    (by rw [Mat.n_cols_trans, t1, t2, gc, i2])
  have hTelem : ∀ a b, a < bf.n_cols * bf.n_cols → b < bf.n_cols * bf.n_cols →
      T.elem a b = ∑ k in Finset.range bf.n_rows,
        (double.div (4.0 * M_PI) ((2 * L + 1 : Int) : ℚ) * G.elem k a) * I.elem k b := by
    intro a b ha hb'
    rw [Mat.elem_eq (t3 a b (by omega) (by omega)), sum_range_eq_finset, gr]
    apply Finset.sum_congr rfl
    intro k hk
    have hk' : k < bf.n_rows := Finset.mem_range.mp hk
    rw [Mat.elem_scale _ (by rw [Mat.n_rows_trans]; omega)
      (by rw [Mat.n_cols_trans]; omega), Mat.elem_trans]
  refine ⟨R, I, G, P, ?_, hI, i1, i2, gr, gc, p1, p2, p3, ?_, ?_, ?_, ?_⟩
  · unfold twoe_integral
    rw [if_neg (not_not.mpr hx), if_neg (not_not.mpr hb)]
    dsimp only
    rw [hP, ok_bind, hI, ok_bind, hwq, ok_bind, hW, ok_bind, hG, ok_bind, hT, ok_bind]
    exact hR
  · intro k a hk ha
    have hkw : k < wx.length := by rw [← hb, hx] at hk; exact hk
    have hkx : k < x.length := by rw [← hb] at hk; exact hk
    have hkW : k < W.n_rows := by rw [w1, Mat.n_rows_map, p1]; exact hk
    have haW : a < W.n_cols := by rw [w2, Mat.n_cols_map, p2]; exact ha
    have hWe : W.elem k a = double.fin (P.elem k a) *
        double.div (wx.getD k 0 * (0.5 * (rmax - rmin)))
          (0.5 * (rmax + rmin) * 1 + 0.5 * (rmax - rmin) * x.getD k 0) := by
      rw [Mat.elem_eq (w3 k a (by rw [Mat.n_rows_map, p1]; exact hk)
        (by rw [Mat.n_cols_map, p2]; exact ha)),
        Mat.elem_map _ (by omega) (by omega)]
      congr 1
      rw [List.getD_eq_getElem?_getD, hwqk k hkw, Option.getD_some,
        Vec.getD_map _ hkw, Vec.getD_map _ hkx]
    rw [Mat.elem_eq (g3 k a hkW haW), hWe]
  · rw [r1, t1, gc]
  · rw [r2, t2, i2]
  · intro a b ha hb'
    rw [r3 a b (by omega) (by omega), Mat.elem_trans, hTelem a b ha hb', hTelem b a hb' ha]

/-- C1: on every accepted input (`len(x) = len(wx) = rows(bf)`, `L >= 0`) the matrix that
`twoe_integral` returns has shape `M^2 x M^2` and equals its own transpose:
`result(a,b) = result(b,a)` for all `a, b < M^2`. -/
theorem twoe_integral_symmetric (M_PI rmin rmax : ℚ) (x wx : Vec ℚ) (bf : Mat ℚ) (L : Int)
    (_hL : 0 ≤ L) (hx : x.n_elem = wx.n_elem) (hb : x.n_elem = bf.n_rows) :
    ∃ R, twoe_integral M_PI rmin rmax x wx bf L = .ok R ∧
      R.n_rows = bf.n_cols * bf.n_cols ∧ R.n_cols = bf.n_cols * bf.n_cols ∧
      R.trans = R ∧
      ∀ a b, a < bf.n_cols * bf.n_cols → b < bf.n_cols * bf.n_cols →
        R.at? a b = R.at? b a := by
  obtain ⟨R, I, G, P, hR, _, _, _, _, _, _, _, _, _, r1, r2, r3⟩ :=
    twoe_integral_ok M_PI rmin rmax x wx bf L hx hb
  have hsym : ∀ a b, a < bf.n_cols * bf.n_cols → b < bf.n_cols * bf.n_cols →
      R.at? a b = R.at? b a := by
    intro a b ha hb'
    rw [r3 a b ha hb', r3 b a hb' ha, add_comm]
  refine ⟨R, hR, r1, r2, ?_, hsym⟩
  apply Mat.ext_at?
  · rw [Mat.n_rows_trans, r1, r2]
  · rw [Mat.n_cols_trans, r1, r2]
  · intro r c hr hc
    rw [Mat.n_rows_trans, r2] at hr
    rw [Mat.n_cols_trans, r1] at hc
    rw [Mat.at?_trans]
    exact hsym c r hc hr

theorem twoe_integral_symmetric_witness :
    (0 : Int) ≤ 1 ∧ x3.n_elem = wx3.n_elem ∧ x3.n_elem = bf32.n_rows ∧
    ∃ R, twoe_integral M_PI_double 0 2 x3 wx3 bf32 1 = .ok R ∧ R.trans = R :=
  ⟨by decide, by decide, by decide,
    match twoe_integral_symmetric M_PI_double 0 2 x3 wx3 bf32 1 (by decide) (by decide)
      (by decide) with
    | ⟨R, h⟩ => ⟨R, h.1, h.2.2.2.1⟩⟩

/-- C5: for `L >= 0` and `len(x) = len(wx) = rows(bf) = N`, `twoe_inner_integral` returns
the `N x M^2` matrix with `inner(r, i*M+j)` the sum over `k <= r` of
`wx_k * halfLength * (r_k/rmax)^L * bf(k,i) * bf(k,j)`, whichever branch of the `switch`
computes the power; for `L = 0` it is the plain running sum of
`wx_k * halfLength * bf(k,i) * bf(k,j)`. -/
theorem twoe_inner_integral_entries (rmin rmax : ℚ) (x wx : Vec ℚ) (bf : Mat ℚ) (L : Int)
    (_hL : 0 ≤ L) (hx : x.n_elem = wx.n_elem) (hb : x.n_elem = bf.n_rows) :
    ∃ I, twoe_inner_integral rmin rmax x wx bf L = .ok I ∧
      I.n_rows = bf.n_rows ∧ I.n_cols = bf.n_cols * bf.n_cols ∧
      (∀ r i j, r < bf.n_rows → i < bf.n_cols → j < bf.n_cols →
        I.at? r (i * bf.n_cols + j) = some (∑ k in Finset.range (r + 1),
          double.fin (wx.getD k 0) * double.fin ((rmax - rmin) / 2) *
            double.pow (double.div ((rmax + rmin) / 2 + (rmax - rmin) / 2 * x.getD k 0)
              rmax) L *
            double.fin (bf.elem k i) * double.fin (bf.elem k j))) ∧
      (L = 0 → ∀ r i j, r < bf.n_rows → i < bf.n_cols → j < bf.n_cols →
        I.at? r (i * bf.n_cols + j) = some (double.fin (∑ k in Finset.range (r + 1),
          wx.getD k 0 * ((rmax - rmin) / 2) * bf.elem k i * bf.elem k j))) := by
  obtain ⟨I, hI, i1, i2, i3⟩ := twoe_inner_integral_ok rmin rmax x wx bf L hx hb
  have e1 : (0.5 : ℚ) * (rmax - rmin) = (rmax - rmin) / 2 := by norm_num; ring
  have e2 : ∀ t : ℚ, 0.5 * (rmax + rmin) * 1 + 0.5 * (rmax - rmin) * t
      = (rmax + rmin) / 2 + (rmax - rmin) / 2 * t := by
    intro t; norm_num; ring
  have main : ∀ r i j, r < bf.n_rows → i < bf.n_cols → j < bf.n_cols →
      I.at? r (i * bf.n_cols + j) = some (∑ k in Finset.range (r + 1),
        double.fin (wx.getD k 0) * double.fin ((rmax - rmin) / 2) *
          double.pow (double.div ((rmax + rmin) / 2 + (rmax - rmin) / 2 * x.getD k 0)
            rmax) L *
          double.fin (bf.elem k i) * double.fin (bf.elem k j)) := by
    intro r i j hr hi hj
    rw [i3 r i j hr hi hj]
    congr 1
    apply Finset.sum_congr rfl
    intro k _
    rw [e2, e1, ← double.fin_mul, ← double.fin_mul]
    ac_rfl
  refine ⟨I, hI, i1, i2, main, ?_⟩
  intro hL0 r i j hr hi hj
  subst hL0
  rw [main r i j hr hi hj, ← double.fin_sum]
  congr 1
  apply Finset.sum_congr rfl
  intro k _
  rw [double.pow_zero, mul_one, double.fin_mul, double.fin_mul, double.fin_mul]

theorem twoe_inner_integral_entries_witness :
    (0 : Int) ≤ 3 ∧ x3.n_elem = wx3.n_elem ∧ x3.n_elem = bf32.n_rows ∧
    ∃ I, twoe_inner_integral 0 2 x3 wx3 bf32 3 = .ok I ∧ I.n_rows = 3 ∧ I.n_cols = 2 * 2 :=
  ⟨by decide, by decide, by decide,
    match twoe_inner_integral_entries 0 2 x3 wx3 bf32 3 (by decide) (by decide)
      (by decide) with
    | ⟨I, h⟩ => ⟨I, h.1, h.2.1, h.2.2.1⟩⟩

/-! ## The size checks -/

theorem radial_integral_error (rmin rmax : ℚ) (n : Int) (x wx : Vec ℚ) (bf : Mat ℚ)
    (h : x.n_elem ≠ wx.n_elem ∨ x.n_elem ≠ bf.n_rows) :
    ∃ w a b, radial_integral rmin rmax n x wx bf = .error (.logic_error w a b) := by
  unfold radial_integral
  by_cases h1 : x.n_elem ≠ wx.n_elem
  · rw [if_pos h1]
    exact ⟨_, _, _, rfl⟩
  · have h2 : x.n_elem ≠ bf.n_rows := h.resolve_left h1
    rw [if_neg h1, if_pos h2]
    exact ⟨_, _, _, rfl⟩

theorem derivative_integral_error (rmin rmax : ℚ) (x wx : Vec ℚ) (dbf : Mat ℚ)
    (h : x.n_elem ≠ wx.n_elem ∨ x.n_elem ≠ dbf.n_rows) :
    ∃ w a b, derivative_integral rmin rmax x wx dbf = .error (.logic_error w a b) := by
  unfold derivative_integral
  by_cases h1 : x.n_elem ≠ wx.n_elem
  · rw [if_pos h1]
    exact ⟨_, _, _, rfl⟩
  · have h2 : x.n_elem ≠ dbf.n_rows := h.resolve_left h1
    rw [if_neg h1, if_pos h2]
    exact ⟨_, _, _, rfl⟩

theorem twoe_integral_error (M_PI rmin rmax : ℚ) (x wx : Vec ℚ) (bf : Mat ℚ) (L : Int)
    (h : x.n_elem ≠ wx.n_elem ∨ x.n_elem ≠ bf.n_rows) :
    ∃ w a b, twoe_integral M_PI rmin rmax x wx bf L = .error (.logic_error w a b) := by
  unfold twoe_integral
  by_cases h1 : x.n_elem ≠ wx.n_elem
  · rw [if_pos h1]
    exact ⟨_, _, _, rfl⟩
  · have h2 : x.n_elem ≠ bf.n_rows := h.resolve_left h1
    rw [if_neg h1, if_pos h2]
    exact ⟨_, _, _, rfl⟩

/-- C8: each of `radial_integral`, `derivative_integral` and `twoe_integral` throws, and
returns no matrix, exactly when `len(x) != len(wx)` or `len(x) != rows(bf)`; what is thrown
is the `std::logic_error` of the explicit checks at the head of the function, before
anything is computed; so `radial_integral` with `x` of length 5 and `wx` of length 4 throws
for every `rmin`, `rmax`, `n` and `bf`. -/
theorem dimension_mismatch_iff (M_PI rmin rmax : ℚ) (n L : Int) (x wx : Vec ℚ) (bf : Mat ℚ) :
    ((∃ e, radial_integral rmin rmax n x wx bf = .error e) ↔
      (x.n_elem ≠ wx.n_elem ∨ x.n_elem ≠ bf.n_rows)) ∧
    ((∃ e, derivative_integral rmin rmax x wx bf = .error e) ↔
      (x.n_elem ≠ wx.n_elem ∨ x.n_elem ≠ bf.n_rows)) ∧
    ((∃ e, twoe_integral M_PI rmin rmax x wx bf L = .error e) ↔
      (x.n_elem ≠ wx.n_elem ∨ x.n_elem ≠ bf.n_rows)) ∧
    (∀ e, (radial_integral rmin rmax n x wx bf = .error e ∨
        derivative_integral rmin rmax x wx bf = .error e ∨
        twoe_integral M_PI rmin rmax x wx bf L = .error e) →
      ∃ w a b, e = .logic_error w a b) ∧
    (x.n_elem = 5 → wx.n_elem = 4 →
      radial_integral rmin rmax n x wx bf = .error (.logic_error "x and wx not compatible" 5 4))
    := by
  have hcases : (x.n_elem ≠ wx.n_elem ∨ x.n_elem ≠ bf.n_rows) ∨
      (x.n_elem = wx.n_elem ∧ x.n_elem = bf.n_rows) := by
    by_cases h1 : x.n_elem = wx.n_elem
    · by_cases h2 : x.n_elem = bf.n_rows
      · exact Or.inr ⟨h1, h2⟩
      · exact Or.inl (Or.inr h2)
    · exact Or.inl (Or.inl h1)
  refine ⟨⟨?_, ?_⟩, ⟨?_, ?_⟩, ⟨?_, ?_⟩, ?_, ?_⟩
  · rintro ⟨e, he⟩
    rcases hcases with h | ⟨h1, h2⟩
    · exact h
    · obtain ⟨R, hR, _⟩ := radial_integral_ok rmin rmax n x wx bf h1 h2
      rw [hR] at he
      exact absurd he (by simp)
  · intro h
    obtain ⟨w, a, b, hw⟩ := radial_integral_error rmin rmax n x wx bf h
    exact ⟨_, hw⟩
  · rintro ⟨e, he⟩
    rcases hcases with h | ⟨h1, h2⟩
    · exact h
    · obtain ⟨R, hR, _⟩ := derivative_integral_ok rmin rmax x wx bf h1 h2
      rw [hR] at he
      exact absurd he (by simp)
  · intro h
    obtain ⟨w, a, b, hw⟩ := derivative_integral_error rmin rmax x wx bf h
    exact ⟨_, hw⟩
  · rintro ⟨e, he⟩
    rcases hcases with h | ⟨h1, h2⟩
    · exact h
    · obtain ⟨R, _, _, _, hR, _⟩ := twoe_integral_ok M_PI rmin rmax x wx bf L h1 h2
      rw [hR] at he
      exact absurd he (by simp)
  · intro h
    obtain ⟨w, a, b, hw⟩ := twoe_integral_error M_PI rmin rmax x wx bf L h
    exact ⟨_, hw⟩
  · intro e he
    rcases hcases with h | ⟨h1, h2⟩
    · obtain ⟨w1, a1, b1, hw1⟩ := radial_integral_error rmin rmax n x wx bf h
      obtain ⟨w2, a2, b2, hw2⟩ := derivative_integral_error rmin rmax x wx bf h
      obtain ⟨w3, a3, b3, hw3⟩ := twoe_integral_error M_PI rmin rmax x wx bf L h
      rcases he with he | he | he
      · rw [hw1] at he
        exact ⟨w1, a1, b1, by cases he; rfl⟩
      · rw [hw2] at he
        exact ⟨w2, a2, b2, by cases he; rfl⟩
      · rw [hw3] at he
        exact ⟨w3, a3, b3, by cases he; rfl⟩
    · obtain ⟨R1, hR1, _⟩ := radial_integral_ok rmin rmax n x wx bf h1 h2
      obtain ⟨R2, hR2, _⟩ := derivative_integral_ok rmin rmax x wx bf h1 h2
      obtain ⟨R3, _, _, _, hR3, _⟩ := twoe_integral_ok M_PI rmin rmax x wx bf L h1 h2
      rcases he with he | he | he
      · rw [hR1] at he
        exact absurd he (by simp)
      · rw [hR2] at he
        exact absurd he (by simp)
      · rw [hR3] at he
        exact absurd he (by simp)
  · intro h5 h4
    unfold radial_integral
    rw [if_pos (by rw [h5, h4]; decide), h5, h4]

/-! ## `twoe_integral` and the double sum of the specification -/

theorem double.fin_mul_sum (c : ℚ) (n : Nat) (f : Nat → double) :
    double.fin c * ∑ k in Finset.range n, f k = ∑ k in Finset.range n, double.fin c * f k := by
  induction n with
  | zero =>
    rw [Finset.sum_range_zero, Finset.sum_range_zero]
    show double.fin c * double.fin 0 = double.fin 0
    rw [double.fin_mul, mul_zero]
  | succ n ih =>
    rw [Finset.sum_range_succ, Finset.sum_range_succ, ← ih]
    generalize (∑ k in Finset.range n, f k) = u
    generalize f n = v
    cases u <;> cases v <;>
      first
      | rfl
      | (show double.fin (c * (_ + _)) = double.fin (c * _ + c * _); rw [mul_add])

/-- The prefix-sum implementation against the double sum of the specification: on an
accepted input with `L >= 0` and nonzero node radii, and provided every outer-weighted
product `wx_k * halfLength / r_k * bf(k,i) * bf(k,j)` is zero or a normal double, the
result of `twoe_integral` is `S + trans(S)` for the double sum `S`. -/
theorem twoe_integral_double_sum (M_PI rmin rmax : ℚ) (x wx : Vec ℚ) (bf : Mat ℚ) (L : Int)
    (_hL : 0 ≤ L) (hx : x.n_elem = wx.n_elem) (hb : x.n_elem = bf.n_rows)
    (hr : ∀ k, k < bf.n_rows → (rmax + rmin) / 2 + (rmax - rmin) / 2 * x.getD k 0 ≠ 0)
    (hnorm : ∀ k i j, k < bf.n_rows → i < bf.n_cols → j < bf.n_cols →
      bf.elem k i * bf.elem k j * (wx.getD k 0 * ((rmax - rmin) / 2) /
          ((rmax + rmin) / 2 + (rmax - rmin) / 2 * x.getD k 0)) = 0 ∨
      double.isnormal (double.fin (bf.elem k i * bf.elem k j *
        (wx.getD k 0 * ((rmax - rmin) / 2) /
          ((rmax + rmin) / 2 + (rmax - rmin) / 2 * x.getD k 0)))) = true) :
    ∃ R, twoe_integral M_PI rmin rmax x wx bf L = .ok R ∧
      R.n_rows = bf.n_cols * bf.n_cols ∧ R.n_cols = bf.n_cols * bf.n_cols ∧
      ∀ a b, a < bf.n_cols * bf.n_cols → b < bf.n_cols * bf.n_cols →
        R.at? a b = some (double_sum M_PI rmin rmax x wx bf L a b) := by
  obtain ⟨R, I, G, P, hR, hI, _, _, _, _, _, _, p3, hG, r1, r2, r3⟩ :=
    twoe_integral_ok M_PI rmin rmax x wx bf L hx hb
  obtain ⟨I', hI', _, _, i3⟩ := twoe_inner_integral_ok rmin rmax x wx bf L hx hb
  have hII : I' = I := by
    rw [hI] at hI'
    cases hI'
    rfl
  subst hII
  have e1 : (0.5 : ℚ) * (rmax - rmin) = (rmax - rmin) / 2 := by norm_num; ring
  have e2 : ∀ t : ℚ, 0.5 * (rmax + rmin) * 1 + 0.5 * (rmax - rmin) * t
      = (rmax + rmin) / 2 + (rmax - rmin) / 2 * t := by
    intro t; norm_num; ring
  have e4 : (4.0 : ℚ) = 4 := by norm_num
  have hs : double.div (4 * M_PI) ((2 * L + 1 : Int) : ℚ)
      = double.fin (4 * M_PI / ((2 * L + 1 : Int) : ℚ)) := by
    apply double.div_ne_zero
    have : (2 * L + 1 : Int) ≠ 0 := by omega
    exact_mod_cast this
  have hM : ∀ c, c < bf.n_cols * bf.n_cols → c / bf.n_cols < bf.n_cols ∧
      c % bf.n_cols < bf.n_cols ∧ (c / bf.n_cols) * bf.n_cols + c % bf.n_cols = c := by
    intro c hc
    obtain ⟨q1, q2, q3⟩ := pair_surj hc
    exact ⟨q2, q1, q3⟩
  have key : ∀ a b, a < bf.n_cols * bf.n_cols → b < bf.n_cols * bf.n_cols →
      (∑ k in Finset.range bf.n_rows,
        (double.div (4.0 * M_PI) ((2 * L + 1 : Int) : ℚ) * G.elem k a) * I'.elem k b)
      = double_sum_S M_PI rmin rmax x wx bf L a b := by
    intro a b ha hb'
    obtain ⟨a1, a2, a3⟩ := hM a ha
    obtain ⟨b1, b2, b3⟩ := hM b hb'
    unfold double_sum_S
    dsimp only
    rw [e4, hs, double.fin_mul_sum]
    apply Finset.sum_congr rfl
    intro k hk
    have hk' : k < bf.n_rows := Finset.mem_range.mp hk
    have hPa : P.elem k a = bf.elem k (a / bf.n_cols) * bf.elem k (a % bf.n_cols) := by
      have := p3 k _ _ hk' a1 a2
      rw [a3] at this
      exact Mat.elem_eq this
    have hGk : G.elem k a = double.div (wx.getD k 0 * ((rmax - rmin) / 2))
        ((rmax + rmin) / 2 + (rmax - rmin) / 2 * x.getD k 0) *
        double.fin (bf.elem k (a / bf.n_cols) * bf.elem k (a % bf.n_cols)) := by
      rw [hG k a hk' ha, hPa, e2, e1, double.div_ne_zero (hr k hk'), double.fin_mul]
      rcases hnorm k _ _ hk' a1 a2 with h0 | hn
      · rw [h0]
        have : double.isnormal (double.fin 0) = false := by
          simp [double.isnormal, double.DBL_MIN]
        rw [this]
        simp only [Bool.false_eq_true, if_false]
        rw [double.fin_mul, mul_comm, h0]
        rfl
      · rw [if_pos hn, double.fin_mul, mul_comm]
    have hIk : I'.elem k b = ∑ k' in Finset.range (k + 1),
        double.fin (wx.getD k' 0) * double.fin ((rmax - rmin) / 2) *
          double.pow (double.div ((rmax + rmin) / 2 + (rmax - rmin) / 2 * x.getD k' 0)
            rmax) L *
          double.fin (bf.elem k' (b / bf.n_cols) * bf.elem k' (b % bf.n_cols)) := by
      have := i3 k _ _ hk' b1 b2
      rw [b3] at this
      rw [Mat.elem_eq this]
      apply Finset.sum_congr rfl
      intro k' _
      rw [e2, e1]
      simp only [← double.fin_mul]
      ac_rfl
    rw [hGk, hIk, mul_assoc]
  refine ⟨R, hR, r1, r2, ?_⟩
  intro a b ha hb'
  rw [r3 a b ha hb', key a b ha hb', key b a hb' ha]
  rfl

theorem twoe_integral_double_sum_example :
    ∃ R, twoe_integral M_PI_double 0 2 x3 wx3 bf32 1 = .ok R ∧
      R.at? 1 2 = some (double_sum M_PI_double 0 2 x3 wx3 bf32 1 1 2) := by
  obtain ⟨R, hR, _, _, h⟩ := twoe_integral_double_sum M_PI_double 0 2 x3 wx3 bf32 1 (by decide)
    (by decide) (by decide)
    (by
      intro k hk
      have hk3 : k < 3 := hk
      interval_cases k <;> decide!)
    (by
      intro k i j hk hi hj
      have hk3 : k < 3 := hk
      have hi2 : i < 2 := hi
      have hj2 : j < 2 := hj
      interval_cases k <;> interval_cases i <;> interval_cases j <;> decide!)
  exact ⟨R, hR, h 1 2 (by decide) (by decide)⟩

/-- C6, the code at a failing input: one node with `r_0 = 1`, `wx_0 = 1`, `rmin = 0`,
`rmax = 2`, `L = 0` and the basis values `2^(-525)` and `2^500`.  The outer-weighted
product for the pair `(0,0)` is `2^(-1050)`, a subnormal double, which the regularisation
pass replaces by zero, so that `result(0, 3)` is `4*pi*2^(-50)`, half the value
`S(0,3) + S(3,0) = 2*4*pi*2^(-50)` of the double sum of the specification. -/
theorem twoe_integral_subnormal_entry :
    (x1.n_elem = wx1.n_elem ∧ x1.n_elem = bf12.n_rows ∧
      ((2 : ℚ) + 0) / 2 + (2 - 0) / 2 * x1.getD 0 0 = 1) ∧
    double.isnormal (double.fin (bf12.elem 0 0 * bf12.elem 0 0)) = false ∧
    ∃ R, twoe_integral M_PI_double 0 2 x1 wx1 bf12 0 = .ok R ∧
      R.at? 0 3 = some (double.fin (4 * M_PI_double / 2 ^ 50)) ∧
      double_sum M_PI_double 0 2 x1 wx1 bf12 0 0 3
        = double.fin (2 * (4 * M_PI_double / 2 ^ 50)) ∧
      R.at? 0 3 ≠ some (double_sum M_PI_double 0 2 x1 wx1 bf12 0 0 3) := by
  refine ⟨⟨by decide, by decide, by decide!⟩, by decide!, ?_⟩
  have h1 : (twoe_integral M_PI_double 0 2 x1 wx1 bf12 0).toOption.map (fun R => R.at? 0 3)
      = some (some (double.fin (4 * M_PI_double / 2 ^ 50))) := by decide!
  have h2 : double_sum M_PI_double 0 2 x1 wx1 bf12 0 0 3
      = double.fin (2 * (4 * M_PI_double / 2 ^ 50)) := by decide!
  have h3 : double.fin (4 * M_PI_double / 2 ^ 50)
      ≠ double.fin (2 * (4 * M_PI_double / 2 ^ 50)) := by decide!
  cases h : twoe_integral M_PI_double 0 2 x1 wx1 bf12 0 with
  | error e =>
    rw [h] at h1
    simp [Except.toOption] at h1
  | ok R =>
    rw [h] at h1
    have h4 : R.at? 0 3 = some (double.fin (4 * M_PI_double / 2 ^ 50)) := by
      simpa [Except.toOption] using h1
    refine ⟨R, rfl, h4, h2, ?_⟩
    rw [h4, h2]
    intro hc
    exact h3 (Option.some.inj hc)

end quadrature

/-! ## The index permutation of `exchange_tei` -/

namespace utils

/-- C17: for an input `T` of shape `(Ni*Nj) x (Nk*Nl)`, the three calls
`exchange_tei(T, Ni,Nj,Nk,Nl)`, then with `(Nj,Nk,Ni,Nl)`, then with `(Nk,Ni,Nj,Nl)` all
pass their dimension checks, and the third returns `T`. -/
theorem exchange_tei_cycle {α : Type} [Zero α] (T : Mat α) (Ni Nj Nk Nl : Nat)
    (hr : T.n_rows = Ni * Nj) (hc : T.n_cols = Nk * Nl) :
    ∃ E1 E2, exchange_tei T Ni Nj Nk Nl = .ok E1 ∧ exchange_tei E1 Nj Nk Ni Nl = .ok E2 ∧
      exchange_tei E2 Nk Ni Nj Nl = .ok T := by
  obtain ⟨E1, hE1, r1, c1, h1⟩ := exchange_tei_cells T Ni Nj Nk Nl hr hc
  obtain ⟨E2, hE2, r2, c2, h2⟩ := exchange_tei_cells E1 Nj Nk Ni Nl r1 c1
  obtain ⟨E3, hE3, r3, c3, h3⟩ := exchange_tei_cells E2 Nk Ni Nj Nl r2 c2
  refine ⟨E1, E2, hE1, hE2, ?_⟩
  rw [hE3]
  congr 1
  apply Mat.ext_at? (r3.trans hr.symm) (c3.trans hc.symm)
  intro r c hr' hc'
  rw [r3] at hr'
  rw [c3] at hc'
  obtain ⟨a1, a2, a3⟩ := pair_surj hr'
  obtain ⟨b1, b2, b3⟩ := pair_surj hc'
  -- r = jj * Ni + ii and c = ll * Nk + kk
  obtain ⟨v, hv, hv1⟩ := h1 (r % Ni) (r / Ni) (c % Nk) (c / Nk) a1 a2 b1 b2
  obtain ⟨w, hw, hw2⟩ := h2 (r / Ni) (c % Nk) (r % Ni) (c / Nk) a2 b1 a1 b2
  obtain ⟨u, hu, hu3⟩ := h3 (c % Nk) (r % Ni) (r / Ni) (c / Nk) b1 a1 a2 b2
  rw [a3, b3] at hv hu3
  rw [hv1] at hw
  cases hw
  rw [hw2] at hu
  cases hu
  rw [hu3, hv]

theorem exchange_tei_cycle_witness :
    tei66.n_rows = 2 * 3 ∧ tei66.n_cols = 2 * 3 ∧
    ∃ E1 E2 : Mat ℤ, exchange_tei tei66 2 3 2 3 = .ok E1 ∧
      exchange_tei E1 3 2 2 3 = .ok E2 ∧ exchange_tei E2 2 2 3 3 = .ok tei66 :=
  ⟨by decide, by decide, exchange_tei_cycle tei66 2 3 2 3 (by decide) (by decide)⟩

/-- C20: swapping the arguments of `product_tei` transposes the result:
`product_tei(B, A) = trans(product_tei(A, B))`. -/
theorem product_tei_swap {α : Type} [Zero α] [CommMagma α] (A B : Mat α) :
    ∃ K1 K2, product_tei A B = .ok K1 ∧ product_tei B A = .ok K2 ∧ K2 = K1.trans := by
  obtain ⟨K1, hK1, r1, c1, h1, _⟩ := product_tei_filled A B
  obtain ⟨K2, hK2, r2, c2, h2, _⟩ := product_tei_filled B A
  refine ⟨K1, K2, hK1, hK2, ?_⟩
  apply Mat.ext_at?
  · rw [Mat.n_rows_trans, r2, c1]
  · rw [Mat.n_cols_trans, c2, r1]
  · intro r c hr hc
    rw [r2] at hr
    rw [c2] at hc
    obtain ⟨a1, a2, a3⟩ := pair_surj hr
    obtain ⟨b1, b2, b3⟩ := pair_surj hc
    have e2 := h2 (c % A.n_rows) (c / A.n_rows) (r % B.n_rows) (r / B.n_rows) b1 b2 a1 a2
      trivial
    have e1 := h1 (r % B.n_rows) (r / B.n_rows) (c % A.n_rows) (c / A.n_rows) a1 a2 b1 b2
      trivial
    simp only [a3, b3] at e1 e2
    rw [Mat.at?_trans, e1, e2, mul_comm]

end utils

/-! ## The one-electron matrices: an example, scaling and symmetry -/

namespace quadrature

/-- C12, as amended: in exact arithmetic `radial_integral` with `rmin = 0`, `rmax = 2`,
`n = 0`, `x = [-0.7746, 0, 0.7746]`, `wx = [0.5556, 0.8889, 0.5556]` and `bf` the `3 x 1`
matrix of ones returns exactly the `1 x 1` matrix `[2.0001]`, the sum of the three weights
times the half-length `1`. -/
theorem radial_integral_gauss3 :
    radial_integral 0 2 0 x_gl3 wx_gl3 ones31
      = .ok ⟨1, [[double.fin (20001 / 10000)]], by decide⟩ := by
  decide!

/-- C12, counterexample: on that input `radial_integral` does not return the matrix
`[2.0]`. -/
theorem radial_integral_gauss3_not_two :
    radial_integral 0 2 0 x_gl3 wx_gl3 ones31 ≠ .ok ⟨1, [[double.fin 2]], by decide⟩ := by
  decide!

/-- With `rmin != rmax` the entries of `derivative_integral` are the finite sums of
`wx_k / halfLength * dbf(k,i) * dbf(k,j)`. -/
theorem derivative_integral_sum (rmin rmax : ℚ) (x wx : Vec ℚ) (dbf : Mat ℚ)
    (hne : rmin ≠ rmax) (hx : x.n_elem = wx.n_elem) (hb : x.n_elem = dbf.n_rows) :
    ∃ R, derivative_integral rmin rmax x wx dbf = .ok R ∧
      R.n_rows = dbf.n_cols ∧ R.n_cols = dbf.n_cols ∧
      ∀ i j, i < dbf.n_cols → j < dbf.n_cols → R.at? i j =
        some (double.fin (∑ k in Finset.range dbf.n_rows,
          wx.getD k 0 / ((rmax - rmin) / 2) * dbf.elem k i * dbf.elem k j)) := by
  have hlen : (0.5 : ℚ) * (rmax - rmin) ≠ 0 := by
    intro h
    apply hne
    have : rmax - rmin = 0 := by
      rcases mul_eq_zero.mp h with h1 | h1
      · norm_num at h1
      · exact h1
    linarith
  obtain ⟨R, hR, r1, r2, r3⟩ := derivative_integral_ok rmin rmax x wx dbf hx hb
  refine ⟨R, hR, r1, r2, ?_⟩
  intro i j hi hj
  rw [r3 i j hi hj, ← double.fin_sum]
  congr 1
  apply Finset.sum_congr rfl
  intro k _
  rw [double.div_ne_zero hlen, double.fin_mul, double.fin_mul]
  congr 1
  have e : (0.5 : ℚ) * (rmax - rmin) = (rmax - rmin) / 2 := by norm_num; ring
  rw [e]
  ring

/-- C13, as amended: for `rmax != rmin` and valid `x`, `wx`, `dbf`, calling
`derivative_integral` on an interval of half the length (same `x`, `wx`, `dbf`) returns the
original result matrix doubled: every entry is multiplied by `2`. -/
theorem derivative_integral_half_interval (rmin rmax rmin' rmax' : ℚ) (x wx : Vec ℚ)
    (dbf : Mat ℚ) (hne : rmax ≠ rmin) (hhalf : rmax' - rmin' = (rmax - rmin) / 2)
    (hx : x.n_elem = wx.n_elem) (hb : x.n_elem = dbf.n_rows) :
    ∃ R R', derivative_integral rmin rmax x wx dbf = .ok R ∧
      derivative_integral rmin' rmax' x wx dbf = .ok R' ∧
      R'.n_rows = R.n_rows ∧ R'.n_cols = R.n_cols ∧
      ∀ i j, i < dbf.n_cols → j < dbf.n_cols →
        ∃ q : ℚ, R.at? i j = some (double.fin q) ∧ R'.at? i j = some (double.fin (2 * q)) := by
  have hne1 : rmin ≠ rmax := fun h => hne h.symm
  have hd : rmax - rmin ≠ 0 := fun h => hne (by linarith)
  have hne2 : rmin' ≠ rmax' := by
    intro h
    apply hd
    have : rmax' - rmin' = 0 := by rw [h]; ring
    rw [hhalf] at this
    linarith
  obtain ⟨R, hR, r1, r2, r3⟩ := derivative_integral_sum rmin rmax x wx dbf hne1 hx hb
  obtain ⟨R', hR', r1', r2', r3'⟩ := derivative_integral_sum rmin' rmax' x wx dbf hne2 hx hb
  refine ⟨R, R', hR, hR', by omega, by omega, ?_⟩
  intro i j hi hj
  refine ⟨_, r3 i j hi hj, ?_⟩
  rw [r3' i j hi hj, hhalf, Finset.mul_sum]
  congr 2
  apply Finset.sum_congr rfl
  intro k _
  field_simp
  ring

theorem derivative_integral_half_interval_witness :
    (2 : ℚ) ≠ 0 ∧ (1 : ℚ) - 0 = (2 - 0) / 2 ∧ x3.n_elem = wx3.n_elem ∧
    x3.n_elem = bf32.n_rows ∧
    ∃ R R', derivative_integral 0 2 x3 wx3 bf32 = .ok R ∧
      derivative_integral 0 1 x3 wx3 bf32 = .ok R' ∧ R'.n_rows = R.n_rows :=
  ⟨by decide, by decide!, by decide, by decide,
    match derivative_integral_half_interval 0 2 0 1 x3 wx3 bf32 (by decide) (by decide!)
      (by decide) (by decide) with
    | ⟨R, R', h⟩ => ⟨R, R', h.1, h.2.1, h.2.2.1⟩⟩

/-- C13, counterexample: with three nodes and the derivative values `bf32`, the result on
the interval `[0, 2]` has the entry `14` at `(0, 0)`, and the result on the interval
`[0, 1]`, of half the length, has the entry `28` there, not `7`. -/
theorem derivative_integral_not_halved :
    derivative_integral 0 2 x3 wx3 bf32
      = .ok ⟨2, [[double.fin 14, double.fin 4], [double.fin 4, double.fin 2]], by decide⟩ ∧
    derivative_integral 0 1 x3 wx3 bf32
      = .ok ⟨2, [[double.fin 28, double.fin 8], [double.fin 8, double.fin 4]], by decide⟩ ∧
    double.fin 28 ≠ double.fin (14 * (1 / 2)) := by
  refine ⟨by decide!, by decide!, by decide!⟩

/-- In exact arithmetic the matrices that `radial_integral` and `derivative_integral`
return on a valid input are symmetric: `result(i,j) = result(j,i)` for all `i, j < M`. -/
theorem one_electron_symmetric (rmin rmax : ℚ) (n : Int) (x wx : Vec ℚ) (bf : Mat ℚ)
    (hx : x.n_elem = wx.n_elem) (hb : x.n_elem = bf.n_rows) :
    (∃ R, radial_integral rmin rmax n x wx bf = .ok R ∧
      R.n_rows = bf.n_cols ∧ R.n_cols = bf.n_cols ∧ R.trans = R ∧
      ∀ i j, i < bf.n_cols → j < bf.n_cols → R.at? i j = R.at? j i) ∧
    (∃ D, derivative_integral rmin rmax x wx bf = .ok D ∧
      D.n_rows = bf.n_cols ∧ D.n_cols = bf.n_cols ∧ D.trans = D ∧
      ∀ i j, i < bf.n_cols → j < bf.n_cols → D.at? i j = D.at? j i) := by
  have sym_of : ∀ (R : Mat double), R.n_rows = bf.n_cols → R.n_cols = bf.n_cols →
      (∀ i j, i < bf.n_cols → j < bf.n_cols → R.at? i j = R.at? j i) → R.trans = R := by
    intro R r1 r2 h
    apply Mat.ext_at?
    · rw [Mat.n_rows_trans, r1, r2]
    · rw [Mat.n_cols_trans, r1, r2]
    · intro r c hr hc
      rw [Mat.n_rows_trans, r2] at hr
      rw [Mat.n_cols_trans, r1] at hc
      rw [Mat.at?_trans]
      exact h c r hc hr
  constructor
  · obtain ⟨R, hR, r1, r2, r3⟩ := radial_integral_ok rmin rmax n x wx bf hx hb
    have h : ∀ i j, i < bf.n_cols → j < bf.n_cols → R.at? i j = R.at? j i := by
      intro i j hi hj
      rw [r3 i j hi hj, r3 j i hj hi]
      congr 1
      apply Finset.sum_congr rfl
      intro k _
      ac_rfl
    exact ⟨R, hR, r1, r2, sym_of R r1 r2 h, h⟩
  · obtain ⟨D, hD, r1, r2, r3⟩ := derivative_integral_ok rmin rmax x wx bf hx hb
    have h : ∀ i j, i < bf.n_cols → j < bf.n_cols → D.at? i j = D.at? j i := by
      intro i j hi hj
      rw [r3 i j hi hj, r3 j i hj hi]
      congr 1
      apply Finset.sum_congr rfl
      intro k _
      ac_rfl
    exact ⟨D, hD, r1, r2, sym_of D r1 r2 h, h⟩

theorem one_electron_symmetric_witness :
    x3.n_elem = wx3.n_elem ∧ x3.n_elem = bf32.n_rows ∧
    (∃ R, radial_integral 0 2 2 x3 wx3 bf32 = .ok R ∧ R.trans = R) ∧
    (∃ D, derivative_integral 0 2 x3 wx3 bf32 = .ok D ∧ D.trans = D) :=
  ⟨by decide, by decide,
    match one_electron_symmetric 0 2 2 x3 wx3 bf32 (by decide) (by decide) with
    | ⟨⟨R, hR⟩, ⟨D, hD⟩⟩ => ⟨⟨R, hR.1, hR.2.2.2.1⟩, ⟨D, hD.1, hD.2.2.2.1⟩⟩⟩

/-! ## `twoe_integral`: the regularised outer products -/

theorem pair_div_mod {n a b : Nat} (ha : a < n) :
    (b * n + a) / n = b ∧ (b * n + a) % n = a := by
  have hn : 0 < n := by omega
  constructor
  · rw [Nat.add_comm, Nat.add_mul_div_right _ _ hn, Nat.div_eq_of_lt ha, Nat.zero_add]
  · rw [Nat.add_comm, Nat.add_mul_mod_self_right, Nat.mod_eq_of_lt ha]

/-- The result of `twoe_integral` in terms of the outer-weighted products of the
specification: `G` is the matrix of these products after the regularisation pass, `I` the
matrix of the inner integrals, and `result(a,b)` is the sum over the nodes `k` of
`(s * G(k,a)) * I(k,b)` plus the same with `a` and `b` exchanged, `s = 4*pi/(2L+1)`. -/
theorem twoe_integral_outer_ok (M_PI rmin rmax : ℚ) (x wx : Vec ℚ) (bf : Mat ℚ) (L : Int)
    (hx : x.n_elem = wx.n_elem) (hb : x.n_elem = bf.n_rows) :
    ∃ R I G : Mat double,
      twoe_integral M_PI rmin rmax x wx bf L = .ok R ∧
      twoe_inner_integral rmin rmax x wx bf L = .ok I ∧
      I.n_rows = bf.n_rows ∧ I.n_cols = bf.n_cols * bf.n_cols ∧
      R.n_rows = bf.n_cols * bf.n_cols ∧ R.n_cols = bf.n_cols * bf.n_cols ∧
      (∀ k a, k < bf.n_rows → a < bf.n_cols * bf.n_cols →
        G.elem k a =
          if double.isnormal (outer_product rmin rmax x wx bf k a)
          then outer_product rmin rmax x wx bf k a else 0) ∧
      ∀ a b, a < bf.n_cols * bf.n_cols → b < bf.n_cols * bf.n_cols →
        R.at? a b = some (
          (∑ k in Finset.range bf.n_rows,
            (double.div (4 * M_PI) ((2 * L + 1 : Int) : ℚ) * G.elem k a) * I.elem k b) +
          (∑ k in Finset.range bf.n_rows,
            (double.div (4 * M_PI) ((2 * L + 1 : Int) : ℚ) * G.elem k b) * I.elem k a)) := by
  obtain ⟨R, I, G, P, hR, hI, i1, i2, _, _, _, _, p3, hG, r1, r2, r3⟩ :=
    twoe_integral_ok M_PI rmin rmax x wx bf L hx hb
  have e1 : (0.5 : ℚ) * (rmax - rmin) = (rmax - rmin) / 2 := by norm_num; ring
  have e2 : ∀ t : ℚ, 0.5 * (rmax + rmin) * 1 + 0.5 * (rmax - rmin) * t
      = (rmax + rmin) / 2 + (rmax - rmin) / 2 * t := by
    intro t; norm_num; ring
  have e4 : (4.0 : ℚ) = 4 := by norm_num
  refine ⟨R, I, G, hR, hI, i1, i2, r1, r2, ?_, ?_⟩
  · intro k a hk ha
    obtain ⟨q1, q2, q3⟩ := pair_surj ha
    have hPa : P.elem k a = bf.elem k (a / bf.n_cols) * bf.elem k (a % bf.n_cols) := by
      have := p3 k _ _ hk q2 q1
      rw [q3] at this
      exact Mat.elem_eq this
    rw [hG k a hk ha, hPa, e2, e1]
    rfl
  · intro a b ha hb'
    rw [r3 a b ha hb', e4]

/-- With `L >= 0` and `rmax != 0` every inner integral is finite. -/
theorem twoe_inner_integral_finite (rmin rmax : ℚ) (x wx : Vec ℚ) (bf : Mat ℚ) (L : Int)
    (hL : 0 ≤ L) (hrmax : rmax ≠ 0) (hx : x.n_elem = wx.n_elem)
    (hb : x.n_elem = bf.n_rows) (I : Mat double)
    (hI : twoe_inner_integral rmin rmax x wx bf L = .ok I) :
    ∀ r c, r < bf.n_rows → c < bf.n_cols * bf.n_cols → ∃ q, I.elem r c = double.fin q := by
  obtain ⟨I', hI', _, _, i3⟩ := twoe_inner_integral_ok rmin rmax x wx bf L hx hb
  have hII : I' = I := by
    rw [hI] at hI'
    cases hI'
    rfl
  subst hII
  intro r c hr hc
  obtain ⟨q1, q2, q3⟩ := pair_surj hc
  have h := i3 r _ _ hr q2 q1
  rw [q3] at h
  rw [Mat.elem_eq h]
  refine ⟨∑ k in Finset.range (r + 1),
    bf.elem k (c / bf.n_cols) * bf.elem k (c % bf.n_cols) *
      (wx.getD k 0 * (0.5 * (rmax - rmin)) *
        ((0.5 * (rmax + rmin) * 1 + 0.5 * (rmax - rmin) * x.getD k 0) / rmax) ^ L), ?_⟩
  rw [← double.fin_sum]
  apply Finset.sum_congr rfl
  intro k _
  have hp : ∀ q : ℚ, double.pow (double.fin q) L = double.fin (q ^ L) := by
    intro q
    have : ¬ (q = 0 ∧ L < 0) := fun h => absurd h.2 (not_lt.mpr hL)
    simp only [double.pow, this, if_false]
  rw [double.div_ne_zero hrmax, hp, double.fin_mul, double.fin_mul]

/-- C16, as amended: `twoe_integral` and `twoe_inner_integral` make no check on `L`: for
`L < 0` and an input whose sizes agree both return a matrix, and (for `rmax != 0`) the
inner integrals are computed with the negative power `(r_k/rmax)^L` by the default branch
of the `switch`. -/
theorem twoe_integral_negative_L (M_PI rmin rmax : ℚ) (x wx : Vec ℚ) (bf : Mat ℚ) (L : Int)
    (_hL : L < 0) (hx : x.n_elem = wx.n_elem) (hb : x.n_elem = bf.n_rows) :
    (∃ R, twoe_integral M_PI rmin rmax x wx bf L = .ok R ∧
      R.n_rows = bf.n_cols * bf.n_cols ∧ R.n_cols = bf.n_cols * bf.n_cols) ∧
    (∃ I, twoe_inner_integral rmin rmax x wx bf L = .ok I ∧
      I.n_rows = bf.n_rows ∧ I.n_cols = bf.n_cols * bf.n_cols ∧
      (rmax ≠ 0 → ∀ r i j, r < bf.n_rows → i < bf.n_cols → j < bf.n_cols →
        I.at? r (i * bf.n_cols + j) = some (∑ k in Finset.range (r + 1),
          double.fin (wx.getD k 0) * double.fin ((rmax - rmin) / 2) *
            double.pow (double.fin
              (((rmax + rmin) / 2 + (rmax - rmin) / 2 * x.getD k 0) / rmax)) L *
            double.fin (bf.elem k i) * double.fin (bf.elem k j)))) := by
  obtain ⟨R, I, G, hR, hI, i1, i2, r1, r2, _, _⟩ :=
    twoe_integral_outer_ok M_PI rmin rmax x wx bf L hx hb
  obtain ⟨I', hI', _, _, i3⟩ := twoe_inner_integral_ok rmin rmax x wx bf L hx hb
  have hII : I' = I := by
    rw [hI] at hI'
    cases hI'
    rfl
  subst hII
  refine ⟨⟨R, hR, r1, r2⟩, ⟨I', hI, i1, i2, ?_⟩⟩
  intro hrmax r i j hr hi hj
  have e1 : (0.5 : ℚ) * (rmax - rmin) = (rmax - rmin) / 2 := by norm_num; ring
  have e2 : ∀ t : ℚ, 0.5 * (rmax + rmin) * 1 + 0.5 * (rmax - rmin) * t
      = (rmax + rmin) / 2 + (rmax - rmin) / 2 * t := by
    intro t; norm_num; ring
  rw [i3 r i j hr hi hj]
  congr 1
  apply Finset.sum_congr rfl
  intro k _
  rw [e2, e1, double.div_ne_zero hrmax]
  simp only [← double.fin_mul]
  ac_rfl

theorem twoe_integral_negative_L_witness :
    (-1 : Int) < 0 ∧ x3.n_elem = wx3.n_elem ∧ x3.n_elem = bf32.n_rows ∧
    (∃ R, twoe_integral M_PI_double 0 2 x3 wx3 bf32 (-1) = .ok R ∧ R.n_rows = 2 * 2) ∧
    (∃ I, twoe_inner_integral 0 2 x3 wx3 bf32 (-1) = .ok I ∧ I.n_rows = 3) :=
  ⟨by decide, by decide, by decide,
    match twoe_integral_negative_L M_PI_double 0 2 x3 wx3 bf32 (-1) (by decide) (by decide)
      (by decide) with
    | ⟨⟨R, hR⟩, ⟨I, hI⟩⟩ => ⟨⟨R, hR.1, hR.2.1⟩, ⟨I, hI.1, hI.2.1⟩⟩⟩

/-- C16, counterexample: for `L = -1` and three nodes in the element `[0, 2]`,
`twoe_inner_integral` throws nothing and returns the running sums of the products weighted
by `(r_k/rmax)^(-1)`, `4` at `(0, 0)`, and `twoe_integral` returns a matrix as well. -/
theorem twoe_integral_negative_L_unguarded :
    twoe_inner_integral 0 2 x3 wx3 bf32 (-1)
      = .ok ⟨3, [[double.fin 4, double.fin 12, double.fin 24],
          [double.fin 4, double.fin 4, double.fin 8],
          [double.fin 4, double.fin 4, double.fin 8],
          [double.fin 4, double.fin 4, double.fin (16 / 3)]], by decide⟩ ∧
    ∃ R, twoe_integral M_PI_double 0 2 x3 wx3 bf32 (-1) = .ok R := by
  refine ⟨by decide!, ?_⟩
  have h1 : (twoe_integral M_PI_double 0 2 x3 wx3 bf32 (-1)).toOption.isSome = true := by
    decide!
  cases h : twoe_integral M_PI_double 0 2 x3 wx3 bf32 (-1) with
  | error e =>
    rw [h] at h1
    simp [Except.toOption] at h1
  | ok R => exact ⟨R, rfl⟩

/-- C18: on an accepted input the result of `twoe_integral` does not change when the two
basis-function indices inside either pair are exchanged:
`result(i*M+j, k*M+l) = result(j*M+i, k*M+l) = result(i*M+j, l*M+k)`; and column `i*M+j`
of `twoe_inner_integral` equals column `j*M+i`. -/
theorem twoe_integral_pair_swap (M_PI rmin rmax : ℚ) (x wx : Vec ℚ) (bf : Mat ℚ) (L : Int)
    (hx : x.n_elem = wx.n_elem) (hb : x.n_elem = bf.n_rows) :
    ∃ R I, twoe_integral M_PI rmin rmax x wx bf L = .ok R ∧
      twoe_inner_integral rmin rmax x wx bf L = .ok I ∧
      (∀ i j k l, i < bf.n_cols → j < bf.n_cols → k < bf.n_cols → l < bf.n_cols →
        R.at? (i * bf.n_cols + j) (k * bf.n_cols + l)
          = R.at? (j * bf.n_cols + i) (k * bf.n_cols + l) ∧
        R.at? (i * bf.n_cols + j) (k * bf.n_cols + l)
          = R.at? (i * bf.n_cols + j) (l * bf.n_cols + k)) ∧
      (∀ r i j, r < bf.n_rows → i < bf.n_cols → j < bf.n_cols →
        I.at? r (i * bf.n_cols + j) = I.at? r (j * bf.n_cols + i)) := by
  obtain ⟨R, I, G, hR, hI, i1, i2, r1, r2, hG, r3⟩ :=
    twoe_integral_outer_ok M_PI rmin rmax x wx bf L hx hb
  obtain ⟨I', hI', _, _, i3⟩ := twoe_inner_integral_ok rmin rmax x wx bf L hx hb
  have hII : I' = I := by
    rw [hI] at hI'
    cases hI'
    rfl
  subst hII
  have hcol : ∀ i j, i < bf.n_cols → j < bf.n_cols →
      i * bf.n_cols + j < bf.n_cols * bf.n_cols := by
    intro i j hi hj
    rw [Nat.mul_comm i]; exact pair_lt' hj hi
  have hIsw : ∀ r i j, r < bf.n_rows → i < bf.n_cols → j < bf.n_cols →
      I'.at? r (i * bf.n_cols + j) = I'.at? r (j * bf.n_cols + i) := by
    intro r i j hr hi hj
    rw [i3 r i j hr hi hj, i3 r j i hr hj hi]
    congr 1
    apply Finset.sum_congr rfl
    intro k _
    rw [mul_comm (bf.elem k i)]
  have hIe : ∀ r i j, r < bf.n_rows → i < bf.n_cols → j < bf.n_cols →
      I'.elem r (i * bf.n_cols + j) = I'.elem r (j * bf.n_cols + i) := by
    intro r i j hr hi hj
    unfold Mat.elem
    rw [hIsw r i j hr hi hj]
  have hGe : ∀ r i j, r < bf.n_rows → i < bf.n_cols → j < bf.n_cols →
      G.elem r (i * bf.n_cols + j) = G.elem r (j * bf.n_cols + i) := by
    intro r i j hr hi hj
    have ho : outer_product rmin rmax x wx bf r (i * bf.n_cols + j)
        = outer_product rmin rmax x wx bf r (j * bf.n_cols + i) := by
      unfold outer_product
      rw [(pair_div_mod hj).1, (pair_div_mod hj).2, (pair_div_mod hi).1,
        (pair_div_mod hi).2, mul_comm (bf.elem r i)]
    rw [hG r _ hr (hcol i j hi hj), hG r _ hr (hcol j i hj hi), ho]
  have hsw : ∀ i j b, i < bf.n_cols → j < bf.n_cols → b < bf.n_cols * bf.n_cols →
      R.at? (i * bf.n_cols + j) b = R.at? (j * bf.n_cols + i) b ∧
      R.at? b (i * bf.n_cols + j) = R.at? b (j * bf.n_cols + i) := by
    intro i j b hi hj hb'
    have s1 : ∀ k, k ∈ Finset.range bf.n_rows →
        (double.div (4 * M_PI) ((2 * L + 1 : Int) : ℚ) * G.elem k (i * bf.n_cols + j))
            * I'.elem k b
          = (double.div (4 * M_PI) ((2 * L + 1 : Int) : ℚ) * G.elem k (j * bf.n_cols + i))
            * I'.elem k b := by
      intro k hk
      rw [hGe k i j (Finset.mem_range.mp hk) hi hj]
    have s2 : ∀ k, k ∈ Finset.range bf.n_rows →
        (double.div (4 * M_PI) ((2 * L + 1 : Int) : ℚ) * G.elem k b)
            * I'.elem k (i * bf.n_cols + j)
          = (double.div (4 * M_PI) ((2 * L + 1 : Int) : ℚ) * G.elem k b)
            * I'.elem k (j * bf.n_cols + i) := by
      intro k hk
      rw [hIe k i j (Finset.mem_range.mp hk) hi hj]
    constructor
    · rw [r3 _ b (hcol i j hi hj) hb', r3 _ b (hcol j i hj hi) hb',
        Finset.sum_congr rfl s1, Finset.sum_congr rfl s2]
    · rw [r3 b _ hb' (hcol i j hi hj), r3 b _ hb' (hcol j i hj hi),
        Finset.sum_congr rfl s1, Finset.sum_congr rfl s2]
  refine ⟨R, I', hR, hI, ?_, hIsw⟩
  intro i j k l hi hj hk hl
  exact ⟨(hsw i j _ hi hj (hcol k l hk hl)).1, (hsw k l _ hk hl (hcol i j hi hj)).2⟩

theorem twoe_integral_pair_swap_witness :
    x3.n_elem = wx3.n_elem ∧ x3.n_elem = bf32.n_rows ∧
    ∃ R I, twoe_integral M_PI_double 0 2 x3 wx3 bf32 1 = .ok R ∧
      twoe_inner_integral 0 2 x3 wx3 bf32 1 = .ok I ∧
      I.at? 2 (0 * bf32.n_cols + 1) = I.at? 2 (1 * bf32.n_cols + 0) :=
  ⟨by decide, by decide,
    match twoe_integral_pair_swap M_PI_double 0 2 x3 wx3 bf32 1 (by decide) (by decide) with
    | ⟨R, I, h⟩ => ⟨R, I, h.1, h.2.1, h.2.2.2 2 0 1 (by decide) (by decide) (by decide)⟩⟩

/-! ## The regularisation pass -/

theorem double.sum_finite (n : Nat) (f : Nat → double)
    (h : ∀ k, k < n → ∃ q, f k = double.fin q) :
    ∃ q, ∑ k in Finset.range n, f k = double.fin q := by
  induction n with
  | zero => exact ⟨0, rfl⟩
  | succ n ih =>
    obtain ⟨q1, h1⟩ := ih (fun k hk => h k (by omega))
    obtain ⟨q2, h2⟩ := h n (by omega)
    exact ⟨q1 + q2, by rw [Finset.sum_range_succ, h1, h2, double.fin_add]⟩

theorem double.regularized_finite (v : double) :
    ∃ q, (if double.isnormal v then v else 0) = double.fin q := by
  cases v with
  | fin q =>
    by_cases h : double.isnormal (double.fin q) = true
    · exact ⟨q, by rw [if_pos h]⟩
    · exact ⟨0, by rw [if_neg h]; rfl⟩
  | nonfin => exact ⟨0, rfl⟩

/-- In exact arithmetic: in `twoe_integral` the matrix `G` that enters the matrix product is
the matrix of the outer-weighted products after the regularisation: an entry that is not
finite is replaced by exactly `0`, so every entry of `G` is finite and the row of a node
with `r_k = 0` is zero; the result is the sum over the nodes of `(s * G(k,a)) * I(k,b)` and
its transpose, so that (the inner integrals `I` being finite, as they are without overflow
for `L >= 0` and `rmax != 0`) such a node contributes exactly `0` as an outer point to
every entry and every entry of the result is finite. -/
theorem twoe_integral_regularized (M_PI rmin rmax : ℚ) (x wx : Vec ℚ) (bf : Mat ℚ) (L : Int)
    (hx : x.n_elem = wx.n_elem) (hb : x.n_elem = bf.n_rows) :
    ∃ R I G : Mat double,
      twoe_integral M_PI rmin rmax x wx bf L = .ok R ∧
      twoe_inner_integral rmin rmax x wx bf L = .ok I ∧
      (∀ a b, a < bf.n_cols * bf.n_cols → b < bf.n_cols * bf.n_cols →
        R.at? a b = some (
          (∑ k in Finset.range bf.n_rows,
            (double.div (4 * M_PI) ((2 * L + 1 : Int) : ℚ) * G.elem k a) * I.elem k b) +
          (∑ k in Finset.range bf.n_rows,
            (double.div (4 * M_PI) ((2 * L + 1 : Int) : ℚ) * G.elem k b) * I.elem k a))) ∧
      (∀ k a, k < bf.n_rows → a < bf.n_cols * bf.n_cols →
        (G.elem k a =
          if double.isnormal (outer_product rmin rmax x wx bf k a)
          then outer_product rmin rmax x wx bf k a else 0) ∧
        (outer_product rmin rmax x wx bf k a = double.nonfin → G.elem k a = 0) ∧
        (∃ q, G.elem k a = double.fin q) ∧
        ((rmax + rmin) / 2 + (rmax - rmin) / 2 * x.getD k 0 = 0 → G.elem k a = 0)) ∧
      (0 ≤ L → rmax ≠ 0 →
        (∀ k a b, k < bf.n_rows → a < bf.n_cols * bf.n_cols → b < bf.n_cols * bf.n_cols →
          (rmax + rmin) / 2 + (rmax - rmin) / 2 * x.getD k 0 = 0 →
          (double.div (4 * M_PI) ((2 * L + 1 : Int) : ℚ) * G.elem k a) * I.elem k b = 0) ∧
        (∀ a b, a < bf.n_cols * bf.n_cols → b < bf.n_cols * bf.n_cols →
          ∃ q, R.at? a b = some (double.fin q))) := by
  obtain ⟨R, I, G, hR, hI, _, _, _, _, hG, r3⟩ :=
    twoe_integral_outer_ok M_PI rmin rmax x wx bf L hx hb
  have hs : double.div (4 * M_PI) ((2 * L + 1 : Int) : ℚ)
      = double.fin (4 * M_PI / ((2 * L + 1 : Int) : ℚ)) := by
    apply double.div_ne_zero
    have : (2 * L + 1 : Int) ≠ 0 := by omega
    exact_mod_cast this
  have hnonfin : ∀ k a, k < bf.n_rows → a < bf.n_cols * bf.n_cols →
      outer_product rmin rmax x wx bf k a = double.nonfin → G.elem k a = 0 := by
    intro k a hk ha hv
    rw [hG k a hk ha, hv]
    rfl
  have hzero : ∀ k a, k < bf.n_rows → a < bf.n_cols * bf.n_cols →
      (rmax + rmin) / 2 + (rmax - rmin) / 2 * x.getD k 0 = 0 → G.elem k a = 0 := by
    intro k a hk ha hr0
    apply hnonfin k a hk ha
    unfold outer_product
    rw [hr0, double.div_zero]
    rfl
  have hGfin : ∀ k a, k < bf.n_rows → a < bf.n_cols * bf.n_cols →
      ∃ q, G.elem k a = double.fin q := by
    intro k a hk ha
    rw [hG k a hk ha]
    exact double.regularized_finite _
  refine ⟨R, I, G, hR, hI, r3, ?_, ?_⟩
  · intro k a hk ha
    exact ⟨hG k a hk ha, hnonfin k a hk ha, hGfin k a hk ha, hzero k a hk ha⟩
  · intro hL hrmax
    have hIfin := twoe_inner_integral_finite rmin rmax x wx bf L hL hrmax hx hb I hI
    constructor
    · intro k a b hk ha hb' hr0
      obtain ⟨q, hq⟩ := hIfin k b hk hb'
      rw [hzero k a hk ha hr0, hq, hs]
      show double.fin (4 * M_PI / ((2 * L + 1 : Int) : ℚ) * 0 * q) = double.fin 0
      rw [mul_zero, zero_mul]
    · intro a b ha hb'
      have hterm : ∀ a b, a < bf.n_cols * bf.n_cols → b < bf.n_cols * bf.n_cols →
          ∃ q, (∑ k in Finset.range bf.n_rows,
            (double.div (4 * M_PI) ((2 * L + 1 : Int) : ℚ) * G.elem k a) * I.elem k b)
            = double.fin q := by
        intro a b ha hb'
        apply double.sum_finite
        intro k hk
        obtain ⟨g, hg⟩ := hGfin k a hk ha
        obtain ⟨q, hq⟩ := hIfin k b hk hb'
        exact ⟨4 * M_PI / ((2 * L + 1 : Int) : ℚ) * g * q, by rw [hg, hq, hs]; rfl⟩
      obtain ⟨q1, h1⟩ := hterm a b ha hb'
      obtain ⟨q2, h2⟩ := hterm b a hb' ha
      exact ⟨q1 + q2, by rw [r3 a b ha hb', h1, h2, double.fin_add]⟩

theorem twoe_integral_regularized_witness :
    x2.n_elem = wx2.n_elem ∧ x2.n_elem = ones21.n_rows ∧
    ((2 : ℚ) + 0) / 2 + (2 - 0) / 2 * x2.getD 0 0 = 0 ∧
    ∃ R I G : Mat double, twoe_integral M_PI_double 0 2 x2 wx2 ones21 2 = .ok R ∧
      twoe_inner_integral 0 2 x2 wx2 ones21 2 = .ok I ∧ G.elem 0 0 = 0 ∧
      ∃ q, R.at? 0 0 = some (double.fin q) :=
  ⟨by decide, by decide, by decide!,
    match twoe_integral_regularized M_PI_double 0 2 x2 wx2 ones21 2 (by decide)
      (by decide) with
    | ⟨R, I, G, h⟩ => ⟨R, I, G, h.1, h.2.1,
        (h.2.2.2.1 0 0 (by decide) (by decide)).2.2.2 (by decide!),
        (h.2.2.2.2 (by decide) (by decide)).2 0 0 (by decide) (by decide)⟩⟩

/-- C19, the code at a failing input: one node with `r_0 = 1`, `wx_0 = 1`, `rmin = 0`,
`rmax = 2`, `L = 0` and the basis values `2^(-525)` and `2^500`.  The outer-weighted
product for the pair `(0,0)` is the finite, nonzero value `2^(-1050)`; the matrix `G` that
enters the matrix product holds `0` there, because `std::isnormal` rejects the subnormal
value. -/
theorem regularization_zeroes_subnormal :
    outer_product 0 2 x1 wx1 bf12 0 0 = double.fin (1 / 2 ^ 1050) ∧
    (1 : ℚ) / 2 ^ 1050 ≠ 0 ∧
    ∃ R I G : Mat double, twoe_integral M_PI_double 0 2 x1 wx1 bf12 0 = .ok R ∧
      twoe_inner_integral 0 2 x1 wx1 bf12 0 = .ok I ∧
      (∀ k a, k < bf12.n_rows → a < bf12.n_cols * bf12.n_cols →
        G.elem k a =
          if double.isnormal (outer_product 0 2 x1 wx1 bf12 k a)
          then outer_product 0 2 x1 wx1 bf12 k a else 0) ∧
      (∀ a b, a < bf12.n_cols * bf12.n_cols → b < bf12.n_cols * bf12.n_cols →
        R.at? a b = some (
          (∑ k in Finset.range bf12.n_rows,
            (double.div (4 * M_PI_double) ((2 * 0 + 1 : Int) : ℚ) * G.elem k a)
              * I.elem k b) +
          (∑ k in Finset.range bf12.n_rows,
            (double.div (4 * M_PI_double) ((2 * 0 + 1 : Int) : ℚ) * G.elem k b)
              * I.elem k a))) ∧
      G.elem 0 0 = 0 := by
  have hv : outer_product 0 2 x1 wx1 bf12 0 0 = double.fin (1 / 2 ^ 1050) := by decide!
  have hn : double.isnormal (double.fin (1 / 2 ^ 1050)) = false := by decide!
  refine ⟨hv, by norm_num, ?_⟩
  obtain ⟨R, I, G, hR, hI, _, _, _, _, hG, r3⟩ :=
    twoe_integral_outer_ok M_PI_double 0 2 x1 wx1 bf12 0 (by decide) (by decide)
  refine ⟨R, I, G, hR, hI, hG, r3, ?_⟩
  rw [hG 0 0 (by decide) (by decide), hv, hn]
  rfl

end quadrature

/-! ## `exchange_tei` with the arithmetic of `size_t` -/

theorem forLoop_congr {σ : Type} (lo hi : Nat) (f g : Nat → σ → Except Error σ)
    (h : ∀ i, lo ≤ i → i < hi → f i = g i) (s : σ) :
    forLoop lo hi f s = forLoop lo hi g s := by
  induction hi with
  | zero => rw [forLoop_empty _ _ (Nat.zero_le _), forLoop_empty _ _ (Nat.zero_le _)]
  | succ n ih =>
    rcases Nat.lt_or_ge n lo with hlt | hge
    · rw [forLoop_empty _ _ (by omega), forLoop_empty _ _ (by omega)]
    · rw [forLoop_succ lo n hge, forLoop_succ lo n hge,
        ih (fun i h1 h2 => h i h1 (by omega)), h n hge (by omega)]

namespace utils

/-- A flattened pair index below `2^64` is computed without wrapping. -/
theorem size_t_index {n m a b : Nat} (h : n * m < 2 ^ 64) (ha : a < n) (hb : b < m) :
    size_t.add (size_t.mul b n) a = b * n + a := by
  have h1 : b * n + a < n * m := pair_lt ha hb
  unfold size_t.add size_t.mul
  rw [Nat.mod_eq_of_lt (show b * n < 2 ^ 64 by omega),
    Nat.mod_eq_of_lt (show b * n + a < 2 ^ 64 by omega)]

/-- When the four products of the dimensions are below `2^64`, nothing wraps and the
function with the arithmetic of `size_t` is the function with unbounded products. -/
theorem exchange_tei_size_t_eq {α : Type} [Zero α] (tei : Mat α) (Ni Nj Nk Nl : Nat)
    (h1 : Ni * Nj < 2 ^ 64) (h2 : Nk * Nl < 2 ^ 64) (h3 : Nj * Nk < 2 ^ 64)
    (h4 : Ni * Nl < 2 ^ 64) :
    exchange_tei_size_t tei Ni Nj Nk Nl = exchange_tei tei Ni Nj Nk Nl := by
  have m1 : size_t.mul Ni Nj = Ni * Nj := Nat.mod_eq_of_lt h1
  have m2 : size_t.mul Nk Nl = Nk * Nl := Nat.mod_eq_of_lt h2
  have m3 : size_t.mul Nj Nk = Nj * Nk := Nat.mod_eq_of_lt h3
  have m4 : size_t.mul Ni Nl = Ni * Nl := Nat.mod_eq_of_lt h4
  unfold exchange_tei_size_t exchange_tei
  rw [m1, m2, m3, m4]
  by_cases hr : tei.n_rows ≠ Ni * Nj
  · rw [if_pos hr, if_pos hr]
  · rw [if_neg hr, if_neg hr]
    by_cases hc : tei.n_cols ≠ Nk * Nl
    · rw [if_pos hc, if_pos hc]
    · rw [if_neg hc, if_neg hc]
      apply forLoop_congr
      intro ii _ hii
      funext K
      apply forLoop_congr
      intro jj _ hjj
      funext K
      apply forLoop_congr
      intro kk _ hkk
      funext K
      apply forLoop_congr
      intro ll _ hll
      funext K
      rw [size_t_index h1 hii hjj, size_t_index h2 hkk hll, size_t_index h3 hjj hkk,
        size_t_index h4 hii hll]

/-- C9, as amended: when the products `Ni*Nj`, `Nk*Nl`, `Nj*Nk` and `Ni*Nl` fit `size_t`
(are below `2^64`), `exchange_tei` throws exactly when `rows(tei) != Ni*Nj` or
`cols(tei) != Nk*Nl`; when both equalities hold it returns a matrix, and every cell
`(jj*Ni+ii, ll*Nk+kk)` of `tei` that the loops read exists, so that no read is out of
range. -/
theorem exchange_tei_size_t_error_iff {α : Type} [Zero α] (tei : Mat α) (Ni Nj Nk Nl : Nat)
    (h1 : Ni * Nj < 2 ^ 64) (h2 : Nk * Nl < 2 ^ 64) (h3 : Nj * Nk < 2 ^ 64)
    (h4 : Ni * Nl < 2 ^ 64) :
    ((∃ e, exchange_tei_size_t tei Ni Nj Nk Nl = .error e) ↔
      (tei.n_rows ≠ Ni * Nj ∨ tei.n_cols ≠ Nk * Nl)) ∧
    ((tei.n_rows = Ni * Nj ∧ tei.n_cols = Nk * Nl) →
      (∃ K, exchange_tei_size_t tei Ni Nj Nk Nl = .ok K ∧
        K.n_rows = Nj * Nk ∧ K.n_cols = Ni * Nl) ∧
      ∀ ii jj kk ll, ii < Ni → jj < Nj → kk < Nk → ll < Nl →
        ∃ v, tei.get (size_t.add (size_t.mul jj Ni) ii) (size_t.add (size_t.mul ll Nk) kk)
          = .ok v) := by
  rw [exchange_tei_size_t_eq tei Ni Nj Nk Nl h1 h2 h3 h4]
  obtain ⟨e1, e2⟩ := exchange_tei_error_iff tei Ni Nj Nk Nl
  refine ⟨e1, ?_⟩
  rintro ⟨hr, hc⟩
  obtain ⟨K, hK, r1, c1, _⟩ := exchange_tei_cells tei Ni Nj Nk Nl hr hc
  refine ⟨⟨K, hK, r1, c1⟩, ?_⟩
  intro ii jj kk ll hii hjj hkk hll
  rw [size_t_index h1 hii hjj, size_t_index h2 hkk hll]
  exact (e2 ⟨hr, hc⟩).2 ii jj kk ll hii hjj hkk hll

theorem exchange_tei_size_t_error_iff_witness :
    (1 * 2 < 2 ^ 64 ∧ 2 * 1 < 2 ^ 64 ∧ 2 * 2 < 2 ^ 64 ∧ 1 * 1 < 2 ^ 64) ∧
    ((∃ e, exchange_tei_size_t tei22 1 2 2 1 = .error e) ↔
      (tei22.n_rows ≠ 1 * 2 ∨ tei22.n_cols ≠ 2 * 1)) :=
  ⟨by decide,
    (exchange_tei_size_t_error_iff tei22 1 2 2 1 (by decide) (by decide) (by decide)
      (by decide)).1⟩

/-- C9, counterexample: for the empty `0 x 0` tensor and `Ni = Nj = 0`, `Nk = Nl = 2^32`
the number of columns, `0`, is not `Nk*Nl = 2^64`, but the product wraps to `0` in
`size_t`: the check passes and `exchange_tei` returns the `0 x 0` matrix. -/
theorem exchange_tei_size_t_wraps :
    (Mat.zeros 0 0 : Mat ℤ).n_rows = 0 * 0 ∧
    (Mat.zeros 0 0 : Mat ℤ).n_cols ≠ 2 ^ 32 * 2 ^ 32 ∧
    size_t.mul (2 ^ 32) (2 ^ 32) = 0 ∧
    exchange_tei_size_t (Mat.zeros 0 0 : Mat ℤ) 0 0 (2 ^ 32) (2 ^ 32)
      = .ok (Mat.zeros 0 0) := by
  refine ⟨by decide, by decide, by decide, by decide⟩

end utils

/-! ## The one-electron matrices in binary64 -/

namespace quadrature

theorem map_range_congr {β : Type} (n : Nat) (f g : Nat → β)
    (h : ∀ k, k < n → f k = g k) : (List.range n).map f = (List.range n).map g := by
  apply List.map_congr_left
  intro k hk
  exact h k (List.mem_range.mp hk)

/-- Cells of `trans(W) * B` for any arithmetic: the sum is the sum of the list of the
products, in the order of the nodes. -/
theorem trans_times_list_ok {α : Type} [Zero α] [Add α] [Mul α] {W B : Mat α}
    (h : W.n_rows = B.n_rows) :
    ∃ P, (W.trans).times B = .ok P ∧ P.n_rows = W.n_cols ∧ P.n_cols = B.n_cols ∧
      ∀ i j, i < W.n_cols → j < B.n_cols →
        P.at? i j = some (((List.range W.n_rows).map
          (fun k => W.elem k i * B.elem k j)).sum) := by
  obtain ⟨P, hP, h1, h2, h3⟩ := Mat.times_ok (A := W.trans) (B := B)
    (by rw [Mat.n_cols_trans]; exact h)
  refine ⟨P, hP, h1, h2, ?_⟩
  intro i j hi hj
  rw [h3 i j hi hj, Mat.n_cols_trans]
  simp only [Mat.elem_trans]

theorem radial_integral_binary64_ok (rmin rmax : binary64) (n : Int) (x wx : Vec binary64)
    (bf : Mat binary64) (hx : x.n_elem = wx.n_elem) (hb : x.n_elem = bf.n_rows) :
    ∃ R, radial_integral_binary64 rmin rmax n x wx bf = .ok R ∧
      R.n_rows = bf.n_cols ∧ R.n_cols = bf.n_cols ∧
      ∀ i j, i < bf.n_cols → j < bf.n_cols → R.at? i j =
        some (((List.range bf.n_rows).map (fun k =>
          (bf.elem k i *
            (if n ≠ 0 then
              wx.getD k 0 * (binary64.fin 0.5 * (rmax - rmin)) *
                binary64.pow (binary64.fin 0.5 * (rmax + rmin) * 1 +
                  binary64.fin 0.5 * (rmax - rmin) * x.getD k 0) n
            else wx.getD k 0 * (binary64.fin 0.5 * (rmax - rmin)))) *
          bf.elem k j)).sum) := by
  -- the weights
  have hwp : ∃ wp : Vec binary64,
      (if n ≠ 0 then Vec.schur (wx.map (fun w => w * (binary64.fin 0.5 * (rmax - rmin))))
          ((x.map (fun xk => binary64.fin 0.5 * (rmax + rmin) * 1 +
              binary64.fin 0.5 * (rmax - rmin) * xk)).map (fun rk => binary64.pow rk n))
        else pure (wx.map (fun w => w * (binary64.fin 0.5 * (rmax - rmin))))) = .ok wp ∧
      wp.length = bf.n_rows ∧
      ∀ k, k < bf.n_rows → wp.getD k 0 =
        (if n ≠ 0 then
          wx.getD k 0 * (binary64.fin 0.5 * (rmax - rmin)) *
            binary64.pow (binary64.fin 0.5 * (rmax + rmin) * 1 +
              binary64.fin 0.5 * (rmax - rmin) * x.getD k 0) n
        else wx.getD k 0 * (binary64.fin 0.5 * (rmax - rmin))) := by
    by_cases hn : n = 0
    · subst hn
      refine ⟨_, by rw [if_neg (by simp)]; rfl, ?_, ?_⟩
      · rw [List.length_map]; exact hx.symm.trans hb
      · intro k hk
        rw [Vec.getD_map _ (by rw [← hb, hx] at hk; exact hk), if_neg (by simp)]
    · obtain ⟨w, hw, hwl, hwk⟩ := Vec.schur_ok
        (a := wx.map (fun w => w * (binary64.fin 0.5 * (rmax - rmin))))
        (b := (x.map (fun xk => binary64.fin 0.5 * (rmax + rmin) * 1 +
              binary64.fin 0.5 * (rmax - rmin) * xk)).map (fun rk => binary64.pow rk n))
        (by simp only [List.length_map]; exact hx.symm)
      rw [List.length_map] at hwl hwk
      refine ⟨w, by rw [if_pos hn]; exact hw, by rw [hwl]; exact hx.symm.trans hb, ?_⟩
      intro k hk
      have hkw : k < wx.length := by rw [← hb, hx] at hk; exact hk
      have hkx : k < x.length := by rw [← hb] at hk; exact hk
      have := hwk k hkw
      rw [List.getD_eq_getElem?_getD, this, Option.getD_some, Vec.getD_map _ hkw,
        Vec.getD_map _ (by rw [List.length_map]; exact hkx), Vec.getD_map _ hkx, if_pos hn]
  obtain ⟨wp, hwp1, hwp2, hwp3⟩ := hwp
  obtain ⟨W, hW, h1, h2, h3⟩ := weight_cols_ok bf wp hwp2
  obtain ⟨P, hP, p1, p2, p3⟩ := trans_times_list_ok (W := W) (B := bf) h1
  refine ⟨P, ?_, by omega, by omega, ?_⟩
  · unfold radial_integral_binary64
    rw [if_neg (not_not.mpr hx), if_neg (not_not.mpr hb)]
    dsimp only
    rw [hwp1, ok_bind, hW, ok_bind]
    exact hP
  · intro i j hi hj
    rw [p3 i j (by omega) hj, h1]
    congr 2
    apply map_range_congr
    intro k hk
    rw [Mat.elem_eq (h3 k i hk hi), hwp3 k hk]

theorem derivative_integral_binary64_ok (rmin rmax : binary64) (x wx : Vec binary64)
    (dbf : Mat binary64) (hx : x.n_elem = wx.n_elem) (hb : x.n_elem = dbf.n_rows) :
    ∃ R, derivative_integral_binary64 rmin rmax x wx dbf = .ok R ∧
      R.n_rows = dbf.n_cols ∧ R.n_cols = dbf.n_cols ∧
      ∀ i j, i < dbf.n_cols → j < dbf.n_cols → R.at? i j =
        some (((List.range dbf.n_rows).map (fun k =>
          (dbf.elem k i * (wx.getD k 0 / (binary64.fin 0.5 * (rmax - rmin)))) *
            dbf.elem k j)).sum) := by
  have hwp : (wx.map (fun w => w / (binary64.fin 0.5 * (rmax - rmin)))).length
      = dbf.n_rows := by
    rw [List.length_map]
    exact hx.symm.trans hb
  obtain ⟨W, hW, h1, h2, h3⟩ := weight_cols_ok dbf _ hwp
  obtain ⟨P, hP, p1, p2, p3⟩ := trans_times_list_ok (W := W) (B := dbf) h1
  refine ⟨P, ?_, by omega, by omega, ?_⟩
  · unfold derivative_integral_binary64
    rw [if_neg (not_not.mpr hx), if_neg (not_not.mpr hb)]
    dsimp only
    rw [hW, ok_bind]
    exact hP
  · intro i j hi hj
    rw [p3 i j (by omega) hj, h1]
    congr 2
    apply map_range_congr
    intro k hk
    rw [Mat.elem_eq (h3 k i hk hi), Vec.getD_map _ (by rw [← hb, hx] at hk; exact hk)]

/-- C15, as amended: on every valid input `radial_integral` and `derivative_integral`
return `M x M` matrices.  In binary64 `result(i,j)` is the sum over the nodes `k` of
`(bf(k,i) * w_k) * bf(k,j)` and `result(j,i)` the sum of `(bf(k,j) * w_k) * bf(k,i)`, every
operation rounded, where `w_k` is `wx_k * halfLength` (times `r_k^n` when `n != 0`) for
`radial_integral` and `wx_k / halfLength` for `derivative_integral`.  In exact arithmetic
the two sums are equal and the matrices are symmetric; in binary64 the products
`(bf(k,i) * w_k) * bf(k,j)` and `(bf(k,j) * w_k) * bf(k,i)` are rounded on their own and
need not agree. -/
theorem one_electron_symmetric_up_to_rounding (rmin rmax : binary64) (n : Int)
    (x wx : Vec binary64) (bf : Mat binary64)
    (hx : x.n_elem = wx.n_elem) (hb : x.n_elem = bf.n_rows) :
    (∃ R, radial_integral_binary64 rmin rmax n x wx bf = .ok R ∧
      R.n_rows = bf.n_cols ∧ R.n_cols = bf.n_cols ∧
      ∀ i j, i < bf.n_cols → j < bf.n_cols →
        R.at? i j = some (((List.range bf.n_rows).map (fun k =>
          (bf.elem k i *
            (if n ≠ 0 then
              wx.getD k 0 * (binary64.fin 0.5 * (rmax - rmin)) *
                binary64.pow (binary64.fin 0.5 * (rmax + rmin) * 1 +
                  binary64.fin 0.5 * (rmax - rmin) * x.getD k 0) n
            else wx.getD k 0 * (binary64.fin 0.5 * (rmax - rmin)))) *
          bf.elem k j)).sum) ∧
        R.at? j i = some (((List.range bf.n_rows).map (fun k =>
          (bf.elem k j *
            (if n ≠ 0 then
              wx.getD k 0 * (binary64.fin 0.5 * (rmax - rmin)) *
                binary64.pow (binary64.fin 0.5 * (rmax + rmin) * 1 +
                  binary64.fin 0.5 * (rmax - rmin) * x.getD k 0) n
            else wx.getD k 0 * (binary64.fin 0.5 * (rmax - rmin)))) *
          bf.elem k i)).sum)) ∧
    (∃ D, derivative_integral_binary64 rmin rmax x wx bf = .ok D ∧
      D.n_rows = bf.n_cols ∧ D.n_cols = bf.n_cols ∧
      ∀ i j, i < bf.n_cols → j < bf.n_cols →
        D.at? i j = some (((List.range bf.n_rows).map (fun k =>
          (bf.elem k i * (wx.getD k 0 / (binary64.fin 0.5 * (rmax - rmin)))) *
            bf.elem k j)).sum) ∧
        D.at? j i = some (((List.range bf.n_rows).map (fun k =>
          (bf.elem k j * (wx.getD k 0 / (binary64.fin 0.5 * (rmax - rmin)))) *
            bf.elem k i)).sum)) ∧
    (∀ (qmin qmax : ℚ) (qx qwx : Vec ℚ) (qbf : Mat ℚ),
      qx.n_elem = qwx.n_elem → qx.n_elem = qbf.n_rows →
      (∃ R, radial_integral qmin qmax n qx qwx qbf = .ok R ∧ R.trans = R ∧
        ∀ i j, i < qbf.n_cols → j < qbf.n_cols → R.at? i j = R.at? j i) ∧
      (∃ D, derivative_integral qmin qmax qx qwx qbf = .ok D ∧ D.trans = D ∧
        ∀ i j, i < qbf.n_cols → j < qbf.n_cols → D.at? i j = D.at? j i)) := by
  refine ⟨?_, ?_, ?_⟩
  · obtain ⟨R, hR, r1, r2, r3⟩ := radial_integral_binary64_ok rmin rmax n x wx bf hx hb
    exact ⟨R, hR, r1, r2, fun i j hi hj => ⟨r3 i j hi hj, r3 j i hj hi⟩⟩
  · obtain ⟨D, hD, r1, r2, r3⟩ := derivative_integral_binary64_ok rmin rmax x wx bf hx hb
    exact ⟨D, hD, r1, r2, fun i j hi hj => ⟨r3 i j hi hj, r3 j i hj hi⟩⟩
  · intro qmin qmax qx qwx qbf hqx hqb
    obtain ⟨⟨R, hR, _, _, r3, r4⟩, ⟨D, hD, _, _, d3, d4⟩⟩ :=
      one_electron_symmetric qmin qmax n qx qwx qbf hqx hqb
    exact ⟨⟨R, hR, r3, r4⟩, ⟨D, hD, d3, d4⟩⟩

theorem one_electron_symmetric_up_to_rounding_witness :
    x1_mid.n_elem = wx1_tenth.n_elem ∧ x1_mid.n_elem = bf12_tenths.n_rows ∧
    (∃ R, radial_integral_binary64 (binary64.fin 0) (binary64.fin 2) 0 x1_mid wx1_tenth
      bf12_tenths = .ok R ∧ R.n_rows = 2 ∧ R.n_cols = 2) ∧
    (∃ D, derivative_integral_binary64 (binary64.fin 0) (binary64.fin 2) x1_mid wx1_tenth
      bf12_tenths = .ok D ∧ D.n_rows = 2 ∧ D.n_cols = 2) :=
  ⟨by decide, by decide,
    match one_electron_symmetric_up_to_rounding (binary64.fin 0) (binary64.fin 2) 0
      x1_mid wx1_tenth bf12_tenths (by decide) (by decide) with
    | ⟨⟨R, hR⟩, ⟨D, hD⟩, _⟩ => ⟨⟨R, hR.1, hR.2.1, hR.2.2.1⟩, ⟨D, hD.1, hD.2.1, hD.2.2.1⟩⟩⟩

/-- C15, counterexample: in binary64, for one node with the weight `0.1` on the element
`[0, 2]` and the basis values `0.1` and `0.3`, `radial_integral` returns a matrix with
`result(0,1) = (0.1*0.1)*0.3 = 0x1.89374bc6a7efbp-9` and
`result(1,0) = (0.3*0.1)*0.1 = 0x1.89374bc6a7efap-9`, which differ. -/
theorem radial_integral_binary64_not_symmetric :
    binary64.round 0.1 = double_0_1 ∧ binary64.round 0.3 = double_0_3 ∧
    radial_integral_binary64 (binary64.fin 0) (binary64.fin 2) 0 x1_mid wx1_tenth
        bf12_tenths
      = .ok ⟨2, [[binary64.fin (0x10624dd2f1a9fd / 2 ^ 62),
                  binary64.fin (0x189374bc6a7efa / 2 ^ 61)],
                 [binary64.fin (0x189374bc6a7efb / 2 ^ 61),
                  binary64.fin (0x126e978d4fdf3b / 2 ^ 59)]], by decide⟩ ∧
    (⟨2, [[binary64.fin (0x10624dd2f1a9fd / 2 ^ 62),
           binary64.fin (0x189374bc6a7efa / 2 ^ 61)],
          [binary64.fin (0x189374bc6a7efb / 2 ^ 61),
           binary64.fin (0x126e978d4fdf3b / 2 ^ 59)]], by decide⟩ : Mat binary64).at? 0 1
      = some (binary64.fin (0x189374bc6a7efb / 2 ^ 61)) ∧
    (⟨2, [[binary64.fin (0x10624dd2f1a9fd / 2 ^ 62),
           binary64.fin (0x189374bc6a7efa / 2 ^ 61)],
          [binary64.fin (0x189374bc6a7efb / 2 ^ 61),
           binary64.fin (0x126e978d4fdf3b / 2 ^ 59)]], by decide⟩ : Mat binary64).at? 1 0
      = some (binary64.fin (0x189374bc6a7efa / 2 ^ 61)) ∧
    binary64.fin (0x189374bc6a7efb / 2 ^ 61) ≠ binary64.fin (0x189374bc6a7efa / 2 ^ 61) := by
  refine ⟨by decide!, by decide!, by decide!, by decide!, by decide!, by decide!⟩

end quadrature

/-! ## `twoe_integral` in binary64: the regularised outer products -/

/-- The regularisation pass for any test `p` of a cell: the two loops replace every cell that
`p` rejects by zero and leave the other cells as they are. -/
theorem regularize_with_ok {α : Type} [Zero α] (p : α → Bool) (A : Mat α) :
    ∃ B, forLoop 0 A.n_cols (fun ic bfprod =>
        forLoop 0 bfprod.n_rows (fun ir bfprod => do
          let v ← bfprod.get ir ic
          (if !p v then bfprod.set ir ic 0 else pure bfprod)) bfprod) A
        = .ok B ∧
      B.n_rows = A.n_rows ∧ B.n_cols = A.n_cols ∧
      ∀ r c, r < A.n_rows → c < A.n_cols →
        B.at? r c = some (if p (A.elem r c) then A.elem r c else 0) := by
  obtain ⟨B, hB, h1, h2, h3⟩ := forLoop_inv 0 A.n_cols
    (fun ic bfprod =>
      forLoop 0 bfprod.n_rows (fun ir bfprod => do
        let v ← bfprod.get ir ic
        (if !p v then bfprod.set ir ic 0 else pure bfprod)) bfprod)
    (fun t W => W.n_rows = A.n_rows ∧ W.n_cols = A.n_cols ∧
      ∀ r c, r < A.n_rows → c < A.n_cols →
        W.at? r c = if c < t then
          some (if p (A.elem r c) then A.elem r c else 0)
          else A.at? r c)
    A (Nat.zero_le _) ⟨rfl, rfl, fun r c _ _ => by simp⟩
    (fun ic W1 _ hic ⟨h1, h2, h3⟩ => by
      beta_reduce
      rw [h1]
      obtain ⟨W, hW, g1, g2, g3, g4⟩ := forLoop_inv 0 A.n_rows
        (fun ir bfprod => do
          let v ← bfprod.get ir ic
          (if !p v then bfprod.set ir ic 0 else pure bfprod))
        (fun t W => W.n_rows = A.n_rows ∧ W.n_cols = A.n_cols ∧
          (∀ r c, c ≠ ic → W.at? r c = W1.at? r c) ∧
          ∀ r, r < A.n_rows → W.at? r ic =
            if r < t then some (if p (A.elem r ic) then A.elem r ic else 0)
            else A.at? r ic)
        W1 (Nat.zero_le _)
        ⟨h1, h2, fun _ _ _ => rfl, fun r hr => by
          rw [h3 r ic hr hic, if_neg (Nat.lt_irrefl _), if_neg (Nat.not_lt_zero _)]⟩
        (fun ir W2 _ hir ⟨g1, g2, g3, g4⟩ => by
          have ea : W2.at? ir ic = some (A.elem ir ic) := by
            rw [g4 ir hir, if_neg (Nat.lt_irrefl _), Mat.at?_eq_elem hir hic]
          beta_reduce
          rw [Mat.get_eq_ok.mpr ea, ok_bind]
          by_cases hn : p (A.elem ir ic) = true
          · refine ⟨W2, by simp [hn]; rfl, g1, g2, g3, ?_⟩
            intro r hr
            rw [g4 r hr]
            by_cases hri : r = ir
            · subst hri
              rw [if_neg (Nat.lt_irrefl _), if_pos (Nat.lt_succ_self _), if_pos hn,
                Mat.at?_eq_elem hr hic]
            · by_cases hlt : r < ir
              · rw [if_pos hlt, if_pos (show r < ir + 1 by omega)]
              · rw [if_neg hlt, if_neg (show ¬ r < ir + 1 by omega)]
          · obtain ⟨W3, hW3, r', c', hat⟩ := Mat.set_ok (M := W2) (0 : α)
              (by omega : ir < W2.n_rows) (by omega : ic < W2.n_cols)
            refine ⟨W3, by simp [hn]; exact hW3, by omega, by omega, ?_, ?_⟩
            · intro r c hc
              rw [hat, if_neg (fun h => hc h.2)]
              exact g3 r c hc
            · intro r hr
              rw [hat]
              by_cases hri : r = ir
              · subst hri
                rw [if_pos ⟨rfl, rfl⟩, if_pos (Nat.lt_succ_self _), if_neg hn]
              · rw [if_neg (fun h => hri h.1), g4 r hr]
                by_cases hlt : r < ir
                · rw [if_pos hlt, if_pos (show r < ir + 1 by omega)]
                · rw [if_neg hlt, if_neg (show ¬ r < ir + 1 by omega)])
      refine ⟨W, hW, g1, g2, ?_⟩
      intro r c hr hc
      by_cases hci : c = ic
      · subst hci
        rw [g4 r hr, if_pos hr, if_pos (Nat.lt_succ_self _)]
      · rw [g3 r c hci, h3 r c hr hc]
        by_cases hlt : c < ic
        · rw [if_pos hlt, if_pos (show c < ic + 1 by omega)]
        · rw [if_neg hlt, if_neg (show ¬ c < ic + 1 by omega)])
  exact ⟨B, hB, h1, h2, fun r c hr hc => by rw [h3 r c hr hc, if_pos hc]⟩

/-- The running integral returns a matrix of the shape of its argument. -/
theorem running_sum_shape {α : Type} [Add α] (A : Mat α) :
    ∃ B, forLoop 0 A.n_cols (fun ic inner =>
        forLoop 1 inner.n_rows (fun ir inner => do
          let a ← inner.get ir ic
          let b ← inner.get (ir - 1) ic
          inner.set ir ic (a + b)) inner) A = .ok B ∧
      B.n_rows = A.n_rows ∧ B.n_cols = A.n_cols := by
  obtain ⟨B, hB, h1, h2⟩ := forLoop_inv 0 A.n_cols
    (fun ic inner =>
      forLoop 1 inner.n_rows (fun ir inner => do
        let a ← inner.get ir ic
        let b ← inner.get (ir - 1) ic
        inner.set ir ic (a + b)) inner)
    (fun _ W => W.n_rows = A.n_rows ∧ W.n_cols = A.n_cols)
    A (Nat.zero_le _) ⟨rfl, rfl⟩
    (fun ic W1 _ hic ⟨h1, h2⟩ => by
      beta_reduce
      rw [h1]
      rcases Nat.eq_zero_or_pos A.n_rows with h0 | hpos
      · exact ⟨W1, forLoop_empty _ _ (by omega) _ _, h1, h2⟩
      · exact forLoop_inv 1 A.n_rows
          (fun ir inner => do
            let a ← inner.get ir ic
            let b ← inner.get (ir - 1) ic
            inner.set ir ic (a + b))
          (fun _ W => W.n_rows = A.n_rows ∧ W.n_cols = A.n_cols) W1 hpos ⟨h1, h2⟩
          (fun ir W2 _ hir ⟨g1, g2⟩ => by
            obtain ⟨a, ha, _⟩ := Mat.get_ok_of_lt (M := W2)
              (by omega : ir < W2.n_rows) (by omega : ic < W2.n_cols)
            obtain ⟨b, hb, _⟩ := Mat.get_ok_of_lt (M := W2)
              (by omega : ir - 1 < W2.n_rows) (by omega : ic < W2.n_cols)
            obtain ⟨W3, hW3, r', c', _⟩ := Mat.set_ok (M := W2) (a + b)
              (by omega : ir < W2.n_rows) (by omega : ic < W2.n_cols)
            refine ⟨W3, ?_, by omega, by omega⟩
            beta_reduce
            rw [ha, ok_bind, hb, ok_bind]
            exact hW3))
  exact ⟨B, hB, h1, h2⟩

theorem Vec.quotient_ok {a b : Vec binary64} (h : a.length = b.length) :
    ∃ w, Vec.quotient a b = .ok w ∧ w.length = a.length ∧
      ∀ k, k < a.length → w[k]? = some (a.getD k 0 / b.getD k 0) := by
  refine ⟨List.zipWith (· / ·) a b, ?_, ?_, ?_⟩
  · unfold Vec.quotient
    rw [if_neg (fun hne => hne h)]
  · rw [List.length_zipWith, h, min_self]
  · intro k hk
    rw [List.getElem?_zipWith, Vec.getElem?_eq_getD hk, Vec.getElem?_eq_getD (h ▸ hk)]

namespace quadrature

/-- On an input whose sizes agree `twoe_inner_integral` returns, in binary64 too, a matrix
of shape `N x M^2`. -/
theorem twoe_inner_integral_binary64_ok (rmin rmax : binary64) (x wx : Vec binary64)
    (bf : Mat binary64) (L : Int) (hx : x.n_elem = wx.n_elem) (hb : x.n_elem = bf.n_rows) :
    ∃ I, twoe_inner_integral_binary64 rmin rmax x wx bf L = .ok I ∧
      I.n_rows = bf.n_rows ∧ I.n_cols = bf.n_cols * bf.n_cols := by
  obtain ⟨P, hP, p1, p2, _⟩ := bfprod_ok bf
  have hwp : ∃ wp : Vec binary64,
      (if L = 0 then pure (wx.map (fun w => w * (binary64.fin 0.5 * (rmax - rmin))))
        else if L = 1 then
          Vec.schur (wx.map (fun w => w * (binary64.fin 0.5 * (rmax - rmin))))
            (x.map (fun xk => (binary64.fin 0.5 * (rmax + rmin) * 1 +
              binary64.fin 0.5 * (rmax - rmin) * xk) / rmax))
        else if L = 2 then
          Vec.schur (wx.map (fun w => w * (binary64.fin 0.5 * (rmax - rmin))))
            ((x.map (fun xk => (binary64.fin 0.5 * (rmax + rmin) * 1 +
              binary64.fin 0.5 * (rmax - rmin) * xk) / rmax)).map (fun f => f * f))
        else Vec.schur (wx.map (fun w => w * (binary64.fin 0.5 * (rmax - rmin))))
          ((x.map (fun xk => (binary64.fin 0.5 * (rmax + rmin) * 1 +
              binary64.fin 0.5 * (rmax - rmin) * xk) / rmax)).map
            (fun f => binary64.pow f L))) = Except.ok wp ∧
      wp.length = wx.length := by
    have base : ∀ (v : Vec binary64), v.length = x.length →
        ∃ wp : Vec binary64,
          Vec.schur (wx.map (fun w => w * (binary64.fin 0.5 * (rmax - rmin)))) v
            = Except.ok wp ∧ wp.length = wx.length := by
      intro v hv
      obtain ⟨w, hw, hwl, _⟩ := Vec.schur_ok
        (a := wx.map (fun w => w * (binary64.fin 0.5 * (rmax - rmin)))) (b := v)
        (by rw [List.length_map, hv]; exact hx.symm)
      rw [List.length_map] at hwl
      exact ⟨w, hw, hwl⟩
    by_cases h0 : L = 0
    · rw [if_pos h0]
      exact ⟨_, rfl, by rw [List.length_map]⟩
    · rw [if_neg h0]
      by_cases h1 : L = 1
      · rw [if_pos h1]
        exact base _ (by rw [List.length_map])
      · rw [if_neg h1]
        by_cases h2 : L = 2
        · rw [if_pos h2]
          exact base _ (by rw [List.length_map, List.length_map])
        · rw [if_neg h2]
          exact base _ (by rw [List.length_map, List.length_map])
  obtain ⟨wp, hwp1, hwpl⟩ := hwp
  obtain ⟨W, hW, w1, w2, _⟩ := assign_cols_ok P (Mat.zeros P.n_rows P.n_cols) wp rfl
    (Mat.n_cols_zeros _ _) (fun _ => by rw [hwpl, p1]; exact hx.symm.trans hb)
  obtain ⟨I, hI, i1, i2⟩ := running_sum_shape W
  refine ⟨I, ?_, by omega, by omega⟩
  unfold twoe_inner_integral_binary64
  dsimp only
  rw [hP, ok_bind, hwp1, ok_bind, hW, ok_bind]
  exact hI

/-- What `twoe_integral` computes in binary64 on an input whose sizes agree: with `G` the
regularised outer-weighted products and `I` the inner integrals, the result is
`T + trans(T)` for `T(a, b)` the sum over the nodes `k` of `(s * G(k, a)) * I(k, b)`, every
operation rounded. -/
theorem twoe_integral_binary64_ok (M_PI rmin rmax : binary64) (x wx : Vec binary64)
    (bf : Mat binary64) (L : Int) (hx : x.n_elem = wx.n_elem) (hb : x.n_elem = bf.n_rows) :
    ∃ R I G : Mat binary64,
      twoe_integral_binary64 M_PI rmin rmax x wx bf L = .ok R ∧
      twoe_inner_integral_binary64 rmin rmax x wx bf L = .ok I ∧
      I.n_rows = bf.n_rows ∧ I.n_cols = bf.n_cols * bf.n_cols ∧
      G.n_rows = bf.n_rows ∧ G.n_cols = bf.n_cols * bf.n_cols ∧
      (∀ k a, k < bf.n_rows → a < bf.n_cols * bf.n_cols →
        G.elem k a =
          if binary64.isnormal (outer_product_binary64 rmin rmax x wx bf k a)
          then outer_product_binary64 rmin rmax x wx bf k a else 0) ∧
      R.n_rows = bf.n_cols * bf.n_cols ∧ R.n_cols = bf.n_cols * bf.n_cols ∧
      ∀ a b, a < bf.n_cols * bf.n_cols → b < bf.n_cols * bf.n_cols →
        R.at? a b = some (
          ((List.range bf.n_rows).map (fun k =>
            (binary64.fin 4.0 * M_PI / binary64.round (((2 * L + 1 : Int) : ℚ)) *
              G.elem k a) * I.elem k b)).sum +
          ((List.range bf.n_rows).map (fun k =>
            (binary64.fin 4.0 * M_PI / binary64.round (((2 * L + 1 : Int) : ℚ)) *
              G.elem k b) * I.elem k a)).sum) := by
  obtain ⟨P, hP, p1, p2, p3⟩ := bfprod_ok bf
  obtain ⟨I, hI, i1, i2⟩ := twoe_inner_integral_binary64_ok rmin rmax x wx bf L hx hb
  obtain ⟨wq, hwq, hwql, hwqk⟩ := Vec.quotient_ok
    (a := wx.map (fun w => w * (binary64.fin 0.5 * (rmax - rmin))))
    (b := x.map (fun xk => binary64.fin 0.5 * (rmax + rmin) * 1 +
      binary64.fin 0.5 * (rmax - rmin) * xk))
    (by simp only [List.length_map]; exact hx.symm)
  rw [List.length_map] at hwql hwqk
  obtain ⟨W, hW, w1, w2, w3⟩ := weight_cols_ok P wq
    (by rw [hwql, p1]; exact hx.symm.trans hb)
  obtain ⟨G, hG, g1, g2, g3⟩ := regularize_with_ok binary64.isnormal W
  have gr : G.n_rows = bf.n_rows := by rw [g1, w1, p1]
  have gc : G.n_cols = bf.n_cols * bf.n_cols := by rw [g2, w2, p2]
  obtain ⟨T, hT, t1, t2, t3⟩ := Mat.times_ok
    (A := Mat.scale (binary64.fin 4.0 * M_PI / binary64.round (((2 * L + 1 : Int) : ℚ)))
      (Mat.trans G)) (B := I)
    (by rw [Mat.n_cols_scale, Mat.n_cols_trans, gr, i1])
  rw [Mat.n_rows_scale, Mat.n_rows_trans] at t1 t3
  rw [Mat.n_cols_scale, Mat.n_cols_trans] at t3
  obtain ⟨R, hR, r1, r2, r3⟩ := Mat.plus_ok (A := T) (B := Mat.trans T)
    (by rw [Mat.n_rows_trans, t1, t2, gc, i2])
    (by rw [Mat.n_cols_trans, t1, t2, gc, i2])
  have hTelem : ∀ a b, a < bf.n_cols * bf.n_cols → b < bf.n_cols * bf.n_cols →
      T.elem a b = ((List.range bf.n_rows).map (fun k =>
        (binary64.fin 4.0 * M_PI / binary64.round (((2 * L + 1 : Int) : ℚ)) *
          G.elem k a) * I.elem k b)).sum := by
    intro a b ha hb'
    rw [Mat.elem_eq (t3 a b (by omega) (by omega)), gr]
    congr 1
    apply map_range_congr
    intro k hk
    rw [Mat.elem_scale _ (by rw [Mat.n_rows_trans]; omega)
      (by rw [Mat.n_cols_trans]; omega), Mat.elem_trans]
  refine ⟨R, I, G, ?_, hI, i1, i2, gr, gc, ?_, ?_, ?_, ?_⟩
  · unfold twoe_integral_binary64
    rw [if_neg (not_not.mpr hx), if_neg (not_not.mpr hb)]
    dsimp only
    rw [hP, ok_bind, hI, ok_bind, hwq, ok_bind, hW, ok_bind, hG, ok_bind, hT, ok_bind]
    exact hR
  · intro k a hk ha
    have hkw : k < wx.length := by rw [← hb, hx] at hk; exact hk
    have hkx : k < x.length := by rw [← hb] at hk; exact hk
    have hkW : k < W.n_rows := by rw [w1, p1]; exact hk
    have haW : a < W.n_cols := by rw [w2, p2]; exact ha
    obtain ⟨q1, q2, q3⟩ := pair_surj ha
    have hPa : P.elem k a = bf.elem k (a / bf.n_cols) * bf.elem k (a % bf.n_cols) := by
      have := p3 k _ _ hk q2 q1
      rw [q3] at this
      exact Mat.elem_eq this
    have hWe : W.elem k a = outer_product_binary64 rmin rmax x wx bf k a := by
      rw [Mat.elem_eq (w3 k a (by rw [p1]; exact hk) (by rw [p2]; exact ha)), hPa]
      unfold outer_product_binary64
      congr 1
      rw [List.getD_eq_getElem?_getD, hwqk k hkw, Option.getD_some,
        Vec.getD_map _ hkw, Vec.getD_map _ hkx]
    rw [Mat.elem_eq (g3 k a hkW haW), hWe]
  · rw [r1, t1, gc]
  · rw [r2, t2, i2]
  · intro a b ha hb'
    rw [r3 a b (by omega) (by omega), Mat.elem_trans, hTelem a b ha hb', hTelem b a hb' ha]

theorem binary64_round_zero : binary64.round 0 = binary64.fin 0 := by
  unfold binary64.round
  rw [if_pos rfl]

theorem binary64_inf_not_finite (b : Bool) : (binary64.inf b).isfinite = false := by
  cases b <;> rfl

theorem binary64_zero_toRat (b : Bool) : (binary64.zero b).toRat? = some 0 := by
  cases b <;> rfl

/-- A quotient by a zero is an infinity or `NaN`. -/
theorem binary64_div_zero (x y : binary64) (hy : y.toRat? = some 0) :
    (x / y).isfinite = false := by
  show (binary64.div x y).isfinite = false
  unfold binary64.div
  rw [hy]
  cases hx : x.toRat? with
  | none =>
    dsimp only
    by_cases h : x = binary64.nan
    · rw [if_pos h]; rfl
    · rw [if_neg h]; exact binary64_inf_not_finite _
  | some a =>
    dsimp only
    rw [if_pos rfl]
    by_cases h : a = 0
    · rw [if_pos h]; rfl
    · rw [if_neg h]; exact binary64_inf_not_finite _

/-- A product with a factor that is not finite is not finite. -/
theorem binary64_mul_not_finite (x y : binary64) (hy : y.isfinite = false) :
    (x * y).isfinite = false := by
  have hy' : y.toRat? = none := by
    unfold binary64.isfinite at hy
    cases h : y.toRat? with
    | none => rfl
    | some q => rw [h] at hy; exact absurd hy (by simp)
  show (binary64.mul x y).isfinite = false
  unfold binary64.mul
  rw [hy']
  have key : (if x = binary64.nan ∨ y = binary64.nan then binary64.nan
      else if x.toRat? = some 0 ∨ (none : Option ℚ) = some 0 then binary64.nan
      else binary64.inf (x.signbit != y.signbit)).isfinite = false := by
    split_ifs
    · rfl
    · rfl
    · exact binary64_inf_not_finite _
  cases hx : x.toRat? with
  | none => rw [hx] at key; exact key
  | some a => rw [hx] at key; exact key

theorem binary64_isnormal_of_not_finite (v : binary64) (h : v.isfinite = false) :
    binary64.isnormal v = false := by
  cases v with
  | fin q => exact absurd h (by simp [binary64.isfinite, binary64.toRat?])
  | negzero => rfl
  | pinf => rfl
  | ninf => rfl
  | nan => rfl

/-- A product of two finite values whose exact product is zero is a zero. -/
theorem binary64_mul_eq_zero (x y : binary64) (a b : ℚ) (hx : x.toRat? = some a)
    (hy : y.toRat? = some b) (h : a * b = 0) : (x * y).toRat? = some 0 := by
  show (binary64.mul x y).toRat? = some 0
  unfold binary64.mul
  rw [hx, hy]
  dsimp only
  rw [if_pos h]
  exact binary64_zero_toRat _

/-- The product of a zero or `NaN` and a value that is not finite is `NaN`. -/
theorem binary64_zero_mul_not_finite (z y : binary64)
    (hz : z.toRat? = some 0 ∨ z = binary64.nan) (hy : y.isfinite = false) :
    z * y = binary64.nan := by
  have hy' : y.toRat? = none := by
    unfold binary64.isfinite at hy
    cases h : y.toRat? with
    | none => rfl
    | some q => rw [h] at hy; exact absurd hy (by simp)
  show binary64.mul z y = binary64.nan
  unfold binary64.mul
  rw [hy']
  rcases hz with hz | hz
  · rw [hz]
    dsimp only
    by_cases h : z = binary64.nan ∨ y = binary64.nan
    · rw [if_pos h]
    · rw [if_neg h, if_pos (Or.inl rfl)]
  · subst hz
    rfl

/-- The product of any value and `+0` is a zero or `NaN`. -/
theorem binary64_mul_zero_cases (s : binary64) :
    (s * binary64.fin 0).toRat? = some 0 ∨ s * binary64.fin 0 = binary64.nan := by
  cases hs : s.toRat? with
  | some a => exact Or.inl (binary64_mul_eq_zero s (binary64.fin 0) a 0 hs rfl (mul_zero a))
  | none =>
    right
    show binary64.mul s (binary64.fin 0) = binary64.nan
    unfold binary64.mul
    rw [hs]
    dsimp only
    by_cases h : s = binary64.nan ∨ binary64.fin 0 = binary64.nan
    · rw [if_pos h]
    · rw [if_neg h, if_pos (Or.inr (show (binary64.fin 0).toRat? = some 0 from rfl))]

theorem binary64_regularized_finite (v : binary64) :
    ∃ q, (if binary64.isnormal v then v else 0) = binary64.fin q := by
  cases v with
  | fin q =>
    by_cases h : binary64.isnormal (binary64.fin q) = true
    · exact ⟨q, by rw [if_pos h]⟩
    · exact ⟨0, by rw [if_neg h]; rfl⟩
  | negzero => exact ⟨0, rfl⟩
  | pinf => exact ⟨0, rfl⟩
  | ninf => exact ⟨0, rfl⟩
  | nan => exact ⟨0, rfl⟩

/-- C14, as amended: in `twoe_integral`, computed in binary64, every entry of the
outer-weighted product that is not finite is replaced by exactly `0` before the matrix
product, so every entry of the matrix `G` that enters the product is finite and the row of
a node with `r_k = 0` is zero.  The result is the sum over the nodes of
`(s * G(k,a)) * I(k,b)` plus the same with `a` and `b` exchanged, `s = 4*pi/(2L+1)`.  As an
outer point a node with `r_k = 0` contributes `(s * 0) * I(k,b)`: a zero when `s` and the
inner integral `I(k,b)` are finite, and `NaN` when `I(k,b)` is not finite; the same holds
of the product `0 * I(k,b)` without the factor `s`.  The inner integrals are not
regularised. -/
theorem twoe_integral_binary64_regularized (M_PI rmin rmax : binary64)
    (x wx : Vec binary64) (bf : Mat binary64) (L : Int)
    (hx : x.n_elem = wx.n_elem) (hb : x.n_elem = bf.n_rows) :
    ∃ R I G : Mat binary64,
      twoe_integral_binary64 M_PI rmin rmax x wx bf L = .ok R ∧
      twoe_inner_integral_binary64 rmin rmax x wx bf L = .ok I ∧
      (∀ a b, a < bf.n_cols * bf.n_cols → b < bf.n_cols * bf.n_cols →
        R.at? a b = some (
          ((List.range bf.n_rows).map (fun k =>
            (binary64.fin 4.0 * M_PI / binary64.round (((2 * L + 1 : Int) : ℚ)) *
              G.elem k a) * I.elem k b)).sum +
          ((List.range bf.n_rows).map (fun k =>
            (binary64.fin 4.0 * M_PI / binary64.round (((2 * L + 1 : Int) : ℚ)) *
              G.elem k b) * I.elem k a)).sum)) ∧
      (∀ k a, k < bf.n_rows → a < bf.n_cols * bf.n_cols →
        (G.elem k a =
          if binary64.isnormal (outer_product_binary64 rmin rmax x wx bf k a)
          then outer_product_binary64 rmin rmax x wx bf k a else 0) ∧
        ((outer_product_binary64 rmin rmax x wx bf k a).isfinite = false →
          G.elem k a = 0) ∧
        (∃ q, G.elem k a = binary64.fin q) ∧
        ((binary64.fin 0.5 * (rmax + rmin) * 1 +
            binary64.fin 0.5 * (rmax - rmin) * x.getD k 0).toRat? = some 0 →
          G.elem k a = 0)) ∧
      (∀ k a b, k < bf.n_rows → a < bf.n_cols * bf.n_cols → b < bf.n_cols * bf.n_cols →
        (binary64.fin 0.5 * (rmax + rmin) * 1 +
            binary64.fin 0.5 * (rmax - rmin) * x.getD k 0).toRat? = some 0 →
        ((binary64.fin 4.0 * M_PI / binary64.round (((2 * L + 1 : Int) : ℚ))).isfinite
            = true →
          (I.elem k b).isfinite = true →
          ((binary64.fin 4.0 * M_PI / binary64.round (((2 * L + 1 : Int) : ℚ)) *
            G.elem k a) * I.elem k b).toRat? = some 0) ∧
        ((I.elem k b).isfinite = false →
          (binary64.fin 4.0 * M_PI / binary64.round (((2 * L + 1 : Int) : ℚ)) *
            G.elem k a) * I.elem k b = binary64.nan) ∧
        ((I.elem k b).isfinite = true → (G.elem k a * I.elem k b).toRat? = some 0) ∧
        ((I.elem k b).isfinite = false → G.elem k a * I.elem k b = binary64.nan)) := by
  obtain ⟨R, I, G, hR, hI, _, _, _, _, hG, _, _, r3⟩ :=
    twoe_integral_binary64_ok M_PI rmin rmax x wx bf L hx hb
  have hnonfin : ∀ k a, k < bf.n_rows → a < bf.n_cols * bf.n_cols →
      (outer_product_binary64 rmin rmax x wx bf k a).isfinite = false →
      G.elem k a = 0 := by
    intro k a hk ha hv
    rw [hG k a hk ha, binary64_isnormal_of_not_finite _ hv]
    rfl
  have hzero : ∀ k a, k < bf.n_rows → a < bf.n_cols * bf.n_cols →
      (binary64.fin 0.5 * (rmax + rmin) * 1 +
        binary64.fin 0.5 * (rmax - rmin) * x.getD k 0).toRat? = some 0 →
      G.elem k a = 0 := by
    intro k a hk ha hr0
    apply hnonfin k a hk ha
    unfold outer_product_binary64
    exact binary64_mul_not_finite _ _ (binary64_div_zero _ _ hr0)
  refine ⟨R, I, G, hR, hI, r3, ?_, ?_⟩
  · intro k a hk ha
    refine ⟨hG k a hk ha, hnonfin k a hk ha, ?_, hzero k a hk ha⟩
    rw [hG k a hk ha]
    exact binary64_regularized_finite _
  · intro k a b hk ha _ hr0
    rw [hzero k a hk ha hr0]
    have hfin : ∀ v : binary64, v.isfinite = true → ∃ q, v.toRat? = some q := by
      intro v hv
      cases h : v.toRat? with
      | none =>
        unfold binary64.isfinite at hv
        rw [h] at hv
        exact absurd hv (by simp)
      | some q => exact ⟨q, rfl⟩
    refine ⟨?_, ?_, ?_, ?_⟩
    · intro hs hq
      obtain ⟨s, hs'⟩ := hfin _ hs
      obtain ⟨q, hq'⟩ := hfin _ hq
      have h1 := binary64_mul_eq_zero _ (binary64.fin 0) s 0 hs' rfl (mul_zero s)
      exact binary64_mul_eq_zero _ _ 0 q h1 hq' (zero_mul q)
    · intro hq
      exact binary64_zero_mul_not_finite _ _ (binary64_mul_zero_cases _) hq
    · intro hq
      obtain ⟨q, hq'⟩ := hfin _ hq
      exact binary64_mul_eq_zero (binary64.fin 0) _ 0 q rfl hq' (zero_mul q)
    · intro hq
      exact binary64_zero_mul_not_finite (binary64.fin 0) _ (Or.inl rfl) hq

theorem twoe_integral_binary64_regularized_witness :
    x1_low.n_elem = wx1_one.n_elem ∧ x1_low.n_elem = bf12_large.n_rows ∧
    (binary64.fin 0.5 * (binary64.fin 2 + binary64.fin 0) * 1 +
      binary64.fin 0.5 * (binary64.fin 2 - binary64.fin 0) * x1_low.getD 0 0).toRat?
      = some 0 ∧
    ∃ R I G : Mat binary64,
      twoe_integral_binary64 (binary64.fin M_PI_double) (binary64.fin 0) (binary64.fin 2)
        x1_low wx1_one bf12_large 0 = .ok R ∧
      twoe_inner_integral_binary64 (binary64.fin 0) (binary64.fin 2) x1_low wx1_one
        bf12_large 0 = .ok I ∧
      G.elem 0 0 = 0 ∧
      (I.elem 0 0).isfinite = false ∧
      (binary64.fin 4.0 * binary64.fin M_PI_double /
          binary64.round (((2 * 0 + 1 : Int) : ℚ)) * G.elem 0 0) * I.elem 0 0
        = binary64.nan :=
  ⟨by decide, by decide, by decide!,
    match twoe_integral_binary64_regularized (binary64.fin M_PI_double) (binary64.fin 0)
      (binary64.fin 2) x1_low wx1_one bf12_large 0 (by decide) (by decide) with
    | ⟨R, I, G, h⟩ =>
      have hI : (I.elem 0 0).isfinite = false := by
        have e : twoe_inner_integral_binary64 (binary64.fin 0) (binary64.fin 2) x1_low
            wx1_one bf12_large 0
          = .ok ⟨1, [[binary64.pinf], [binary64.fin (2 ^ 600)], [binary64.fin (2 ^ 600)],
              [binary64.fin 1]], by decide⟩ := by decide!
        have e2 := h.2.1
        rw [e] at e2
        cases e2
        rfl
      ⟨R, I, G, h.1, h.2.1,
        (h.2.2.2.1 0 0 (by decide) (by decide)).2.2.2 (by decide!), hI,
        (h.2.2.2.2 0 0 0 (by decide) (by decide) (by decide) (by decide!)).2.1 hI⟩⟩

/-- C14, counterexample: in binary64, for the one node `r_0 = 0` of the element `[0, 2]`
(`x_0 = -1`, `wx_0 = 1`), `L = 0` and the basis values `2^600` and `1`, the inner integral
of the pair `(0,0)` overflows (`2^1200` gives `+Inf`), and the node, whose regularised
outer products are all `0`, contributes `0 * Inf = NaN`: the row `0` and the column `0` of
the result are `NaN`. -/
theorem twoe_integral_binary64_zero_radius :
    binary64.fin 0.5 * (binary64.fin 2 + binary64.fin 0) * 1 +
      binary64.fin 0.5 * (binary64.fin 2 - binary64.fin 0) * x1_low.getD 0 0
      = binary64.fin 0 ∧
    twoe_inner_integral_binary64 (binary64.fin 0) (binary64.fin 2) x1_low wx1_one
        bf12_large 0
      = .ok ⟨1, [[binary64.pinf], [binary64.fin (2 ^ 600)], [binary64.fin (2 ^ 600)],
          [binary64.fin 1]], by decide⟩ ∧
    twoe_integral_binary64 (binary64.fin M_PI_double) (binary64.fin 0) (binary64.fin 2)
        x1_low wx1_one bf12_large 0
      = .ok ⟨4, [[binary64.nan, binary64.nan, binary64.nan, binary64.nan],
          [binary64.nan, binary64.fin 0, binary64.fin 0, binary64.fin 0],
          [binary64.nan, binary64.fin 0, binary64.fin 0, binary64.fin 0],
          [binary64.nan, binary64.fin 0, binary64.fin 0, binary64.fin 0]], by decide⟩ := by
  refine ⟨by decide!, by decide!, by decide!⟩

end quadrature

end helfem
